import Mathlib

/-!
MVCC: transaction registry, visibility rules and version store.

A shallow embedding of the C sources `mvcc_types.h`, `mvcc_transaction_manager.h`,
`mvcc_visibility.h` and `mvcc_table.h`.

* The global `tx_manager` and `global_table` are passed explicitly.
* A `Transaction*` is a pointer into `tx_manager.transactions`; it is modelled by the
  slot index, and the record it points to is read with `tx_at`.
* A version chain (`Tuple` nodes linked by `next_version`, newest first) is a
  `List Tuple`; a pointer to a node of a chain is the node's position in the list.
* `global_table.tuples[0 .. tuple_count)` is the list `Table.tuples`; the entries at and
  above `tuple_count` are never read by any function of the sources.
* `TransactionId` (`uint64_t`) is `Nat`: the one arithmetic operation on it, `next_xid++`, is
  taken modulo `2 ^ 64`.
* `malloc` is modelled by a Boolean argument telling whether the allocation succeeded.
-/

namespace MVCC

/-! ## mvcc_types.h -/

/-- `INVALID_XID`; the type `TransactionId` (`uint64_t`) is `Nat` throughout. -/
def INVALID_XID : Nat := 0

def FIRST_NORMAL_XID : Nat := 1

/-- One version of a row: `xmin` created it, `xmax` deleted it (`INVALID_XID` if alive).
The `next_version` link is the tail of the list the node sits in. -/
structure Tuple where
  xmin : Nat
  xmax : Nat
  data : Int
deriving DecidableEq, Repr

inductive TransactionStatus where
  | TX_IN_PROGRESS
  | TX_COMMITTED
  | TX_ABORTED
deriving DecidableEq, Repr

open TransactionStatus

structure Transaction where
  xid : Nat
  status : TransactionStatus
  snapshot_xmin : Nat
  snapshot_xmax : Nat
deriving DecidableEq, Repr

/-! ## mvcc_transaction_manager.h -/

def MAX_TRANSACTIONS : Nat := 100

/-- The registry: `transactions` is the array of `MAX_TRANSACTIONS` slots. -/
structure TransactionManager where
  next_xid : Nat
  transactions : List Transaction
  active_count : Int
deriving DecidableEq, Repr

/-- The global `tx_manager` before `init_transaction_manager` runs: static storage,
all bytes zero (status 0 is `TX_IN_PROGRESS`). -/
def tx_manager_static : TransactionManager :=
  { next_xid := 0
    transactions := List.replicate MAX_TRANSACTIONS ⟨0, TX_IN_PROGRESS, 0, 0⟩
    active_count := 0 }

/-- `init_transaction_manager`: resets the counter and clears `xid` and `status` of
every slot (the snapshot fields are not written). -/
def init_transaction_manager (m : TransactionManager) : TransactionManager :=
  { next_xid := FIRST_NORMAL_XID
    transactions := m.transactions.map
      (fun t => { t with xid := INVALID_XID, status := TX_ABORTED })
    active_count := 0 }

/-- First loop of `begin_transaction`: the index of the first slot whose `xid` is
`INVALID_XID`, or `none` (the C code's `slot == -1`). -/
def find_free_slot : List Transaction → Option Nat
  | [] => none
  | t :: ts => if t.xid = INVALID_XID then some 0 else (find_free_slot ts).map (· + 1)

/-- Second loop of `begin_transaction`: `acc` is the running `tx->snapshot_xmin`. -/
def oldest_active (acc : Nat) : List Transaction → Nat
  | [] => acc
  | other :: rest =>
    if other.xid ≠ INVALID_XID ∧ other.status = TX_IN_PROGRESS ∧ other.xid < acc then
      oldest_active other.xid rest
    else
      oldest_active acc rest

/-- `begin_transaction`: `none` is the `NULL` result; otherwise the slot of the new
transaction and the new registry. -/
def begin_transaction (m : TransactionManager) : Option (Nat × TransactionManager) :=
  match find_free_slot m.transactions with
  | none => none
  | some slot =>
    let xid := m.next_xid
    let txs := m.transactions.set slot ⟨xid, TX_IN_PROGRESS, xid, xid⟩
    let smin := oldest_active xid txs
    some (slot,
      { next_xid := (m.next_xid + 1) % 2 ^ 64
        transactions := txs.set slot ⟨xid, TX_IN_PROGRESS, smin, xid⟩
        active_count := m.active_count + 1 })

/-- The slot written by `init_transaction_manager` on zeroed storage; also what `tx_at`
reads outside the array. -/
def empty_slot : Transaction := ⟨INVALID_XID, TX_ABORTED, 0, 0⟩

/-- Dereference of a `Transaction*` given as a slot index. -/
def tx_at (m : TransactionManager) (i : Nat) : Transaction :=
  m.transactions.getD i empty_slot

/-- Shared body of `commit_transaction` and `abort_transaction`: `tx` is the pointer
(`none` is `NULL`), `st` the status written. -/
def finish_transaction (st : TransactionStatus) (m : TransactionManager) :
    Option Nat → TransactionManager
  | none => m
  | some i =>
    match m.transactions[i]? with
    | none => m
    | some t =>
      if t.status = TX_IN_PROGRESS then
        { m with
          transactions := m.transactions.set i { t with status := st }
          active_count := m.active_count - 1 }
      else m

def commit_transaction (m : TransactionManager) (tx : Option Nat) : TransactionManager :=
  finish_transaction TX_COMMITTED m tx

def abort_transaction (m : TransactionManager) (tx : Option Nat) : TransactionManager :=
  finish_transaction TX_ABORTED m tx

/-- Loop of `get_transaction_status`. -/
def lookup_status (xid : Nat) : List Transaction → TransactionStatus
  | [] => TX_ABORTED
  | t :: ts => if t.xid = xid then t.status else lookup_status xid ts

def get_transaction_status (m : TransactionManager) (xid : Nat) :
    TransactionStatus :=
  lookup_status xid m.transactions

/-! ## mvcc_visibility.h -/

def is_tuple_visible (m : TransactionManager) (tx : Transaction) (tuple : Tuple) : Bool :=
  let xmin := tuple.xmin
  let xmax := tuple.xmax
  if xmin = tx.xid then
    if xmax = tx.xid then false else true
  else if xmin ≥ tx.snapshot_xmax then false
  else if xmin ≥ tx.snapshot_xmin ∧ get_transaction_status m xmin ≠ TX_COMMITTED then false
  else if xmax = INVALID_XID then true
  else if xmax = tx.xid then false
  else if xmax ≥ tx.snapshot_xmax then true
  else if xmax ≥ tx.snapshot_xmin ∧ get_transaction_status m xmax ≠ TX_COMMITTED then true
  else false

/-- `get_visible_version`: the position in the chain of the node returned, `none` for
`NULL`. -/
def get_visible_version (m : TransactionManager) (tx : Transaction) :
    List Tuple → Option Nat
  | [] => none
  | current :: rest =>
    if is_tuple_visible m tx current then some 0
    else (get_visible_version m tx rest).map (· + 1)

/-! ## mvcc_table.h -/

def MAX_TUPLES : Nat := 1000

/-- The table: `tuples` lists the chains of rows `0 .. tuple_count - 1`. -/
structure Table where
  tuples : List (List Tuple)
deriving DecidableEq, Repr

def Table.tuple_count (t : Table) : Int := t.tuples.length

def init_table : Table := ⟨[]⟩

def insert_tuple (t : Table) (tx : Transaction) (data : Int) (malloc_ok : Bool) :
    Bool × Table :=
  if t.tuple_count ≥ MAX_TUPLES then (false, t)
  else if ¬ malloc_ok then (false, t)
  else (true, ⟨t.tuples ++ [[⟨tx.xid, INVALID_XID, data⟩]]⟩)

/-- The assignment `visible->xmax = xid` on the node at position `i` of a chain. -/
def set_xmax (chain : List Tuple) (i : Nat) (xid : Nat) : List Tuple :=
  match chain[i]? with
  | none => chain
  | some v => chain.set i { v with xmax := xid }

def delete_tuple (m : TransactionManager) (t : Table) (tx : Transaction)
    (tuple_index : Int) : Bool × Table :=
  if tuple_index < 0 ∨ tuple_index ≥ t.tuple_count then (false, t)
  else
    let tuple := t.tuples.getD tuple_index.toNat []
    match get_visible_version m tx tuple with
    | none => (false, t)
    | some i =>
      if (tuple.getD i ⟨0, 0, 0⟩).xmax ≠ INVALID_XID then (false, t)
      else (true, ⟨t.tuples.set tuple_index.toNat (set_xmax tuple i tx.xid)⟩)

def update_tuple (m : TransactionManager) (t : Table) (tx : Transaction)
    (tuple_index : Int) (new_data : Int) (malloc_ok : Bool) : Bool × Table :=
  if tuple_index < 0 ∨ tuple_index ≥ t.tuple_count then (false, t)
  else
    let old_tuple := t.tuples.getD tuple_index.toNat []
    match get_visible_version m tx old_tuple with
    | none => (false, t)
    | some i =>
      if (old_tuple.getD i ⟨0, 0, 0⟩).xmax ≠ INVALID_XID then (false, t)
      else if ¬ malloc_ok then (false, t)
      else
        let new_version : Tuple := ⟨tx.xid, INVALID_XID, new_data⟩
        (true, ⟨t.tuples.set tuple_index.toNat
          (new_version :: set_xmax old_tuple i tx.xid)⟩)

/-- The rows printed by `select_all`, from row index `i` on. -/
def select_from (m : TransactionManager) (tx : Transaction) (i : Nat) :
    List (List Tuple) → List (Nat × Int)
  | [] => []
  | tuple :: rest =>
    match get_visible_version m tx tuple with
    | none => select_from m tx (i + 1) rest
    | some k => (i, (tuple.getD k ⟨0, 0, 0⟩).data) :: select_from m tx (i + 1) rest

/-- `select_all`: the `(index, data)` lines it prints, in order. -/
def select_all (m : TransactionManager) (t : Table) (tx : Transaction) : List (Nat × Int) :=
  select_from m tx 0 t.tuples

/-- The number printed by `vacuum_table`. -/
def vacuum_table (t : Table) : Nat :=
  (t.tuples.map List.length).sum

/-! ## Whole-system state and call sequences -/

structure State where
  mgr : TransactionManager
  tbl : Table
deriving DecidableEq, Repr

/-- State after `init_transaction_manager(); init_table();` as in `main`. -/
def init_state : State := ⟨init_transaction_manager tx_manager_static, init_table⟩

/-- One API call. Transactions are named by the slot `begin_transaction` returned. -/
inductive Op where
  | begin
  | commit (tx : Nat)
  | abort (tx : Nat)
  | insert (tx : Nat) (data : Int) (malloc_ok : Bool)
  | delete (tx : Nat) (tuple_index : Int)
  | update (tx : Nat) (tuple_index : Int) (new_data : Int) (malloc_ok : Bool)
deriving DecidableEq, Repr

def apply_op (s : State) : Op → State
  | .begin =>
    match begin_transaction s.mgr with
    | none => s
    | some (_, m') => ⟨m', s.tbl⟩
  | .commit tx => ⟨commit_transaction s.mgr (some tx), s.tbl⟩
  | .abort tx => ⟨abort_transaction s.mgr (some tx), s.tbl⟩
  | .insert tx data ok => ⟨s.mgr, (insert_tuple s.tbl (tx_at s.mgr tx) data ok).2⟩
  | .delete tx idx => ⟨s.mgr, (delete_tuple s.mgr s.tbl (tx_at s.mgr tx) idx).2⟩
  | .update tx idx d ok => ⟨s.mgr, (update_tuple s.mgr s.tbl (tx_at s.mgr tx) idx d ok).2⟩

/-- Slot `i` holds a transaction that `begin_transaction` has returned. -/
def is_handle (m : TransactionManager) (i : Nat) : Prop :=
  i < m.transactions.length ∧ (tx_at m i).xid ≠ INVALID_XID

instance (m : TransactionManager) (i : Nat) : Decidable (is_handle m i) := by
  unfold is_handle; infer_instance

/-- The call passes a pointer obtained from `begin_transaction`. -/
def op_ok (s : State) : Op → Prop
  | .begin => True
  | .commit tx => is_handle s.mgr tx
  | .abort tx => is_handle s.mgr tx
  | .insert tx _ _ => is_handle s.mgr tx
  | .delete tx _ => is_handle s.mgr tx
  | .update tx _ _ _ => is_handle s.mgr tx

instance (s : State) (op : Op) : Decidable (op_ok s op) := by
  cases op <;> unfold op_ok <;> infer_instance

def run_ops (s : State) : List Op → State
  | [] => s
  | op :: ops => run_ops (apply_op s op) ops

/-- Every call of the sequence, run from `s`, passes a transaction returned by begin. -/
def ops_ok (s : State) : List Op → Prop
  | [] => True
  | op :: ops => op_ok s op ∧ ops_ok (apply_op s op) ops

instance ops_ok_dec : (s : State) → (ops : List Op) → Decidable (ops_ok s ops)
  | _, [] => isTrue trivial
  | s, op :: ops =>
    have := ops_ok_dec (apply_op s op) ops
    by unfold ops_ok; infer_instance

/-- State `s'` is reached from `s` by a sequence of API calls. -/
def Reach (s s' : State) : Prop :=
  ∃ ops : List Op, ops_ok s ops ∧ run_ops s ops = s'

/-! ## The visibility rules as the specification words them -/

/-- The specification's ordered rule sequence for `is_visible`, over the specification's
names: `status_of` is the registry lookup, `id`, `low`, `high` are the transaction's id
and snapshot bounds, `created_by` and `deleted_by` the version's fields. -/
def spec_is_visible (status_of : Nat → TransactionStatus)
    (id low high created_by deleted_by : Nat) : Bool :=
  -- 1. Self-created
  if created_by = id then !decide (deleted_by = id)
  -- 2. Created too late
  else if created_by ≥ high then false
  -- 3. Created by a concurrently-running transaction
  else if created_by ≥ low ∧ status_of created_by ≠ TX_COMMITTED then false
  -- 4. Never deleted
  else if deleted_by = INVALID_XID then true
  -- 5. Self-deleted
  else if deleted_by = id then false
  -- 6. Deleted too late to matter
  else if deleted_by ≥ high then true
  -- 7. Deleted by a concurrently-running transaction
  else if deleted_by ≥ low ∧ status_of deleted_by ≠ TX_COMMITTED then true
  -- 8. Otherwise
  else false

/-! ## Invariants of reachable states -/

/-- Slot `k` of a registry whose counter is `next`: used slots hold the transaction with
id `k + 1`, the others are as `init_transaction_manager` left them. -/
def slot_wf (next : Nat) (k : Nat) (t : Transaction) : Prop :=
  (k + 1 < next →
    t.xid = k + 1 ∧ t.snapshot_xmax = k + 1 ∧ 1 ≤ t.snapshot_xmin ∧ t.snapshot_xmin ≤ k + 1) ∧
  (next ≤ k + 1 → t.xid = INVALID_XID ∧ t.status = TX_ABORTED)

/-- Registry invariant. -/
structure MgrInv (m : TransactionManager) : Prop where
  len : m.transactions.length = MAX_TRANSACTIONS
  next_pos : 1 ≤ m.next_xid
  next_le : m.next_xid ≤ MAX_TRANSACTIONS + 1
  slots : ∀ k, k < MAX_TRANSACTIONS → slot_wf m.next_xid k (tx_at m k)
  active_low : ∀ j k, j + 1 < m.next_xid → k + 1 < m.next_xid →
    (tx_at m j).status = TX_IN_PROGRESS → (tx_at m k).snapshot_xmin ≤ j + 1
  mono : ∀ j k, j ≤ k → k + 1 < m.next_xid →
    (tx_at m j).snapshot_xmin ≤ (tx_at m k).snapshot_xmin

/-- Registry `m'` extends `m`: transactions tracked in `m` keep their id and snapshot,
and a finished transaction keeps its status. -/
structure Ext (m m' : TransactionManager) : Prop where
  next_le : m.next_xid ≤ m'.next_xid
  keep : ∀ k, k + 1 < m.next_xid →
    (tx_at m' k).xid = (tx_at m k).xid ∧
    (tx_at m' k).snapshot_xmin = (tx_at m k).snapshot_xmin ∧
    (tx_at m' k).snapshot_xmax = (tx_at m k).snapshot_xmax ∧
    ((tx_at m k).status ≠ TX_IN_PROGRESS → (tx_at m' k).status = (tx_at m k).status)

/-- Transaction `y` counts as committed for a snapshot whose lower bound is `low`:
rules 3 and 7 of `is_tuple_visible` do not fire on it. -/
def looks_committed (m : TransactionManager) (low y : Nat) : Prop :=
  y < low ∨ get_transaction_status m y = TX_COMMITTED

/-- Transaction `x` could mark a version created by `y`: the version was visible to `x`
by the creation rules. -/
def link (m : TransactionManager) (x y : Nat) : Prop :=
  y = x ∨ (y < x ∧ looks_committed m (tx_at m (x - 1)).snapshot_xmin y)

/-- Invariant of one node of a chain. -/
def node_inv (m : TransactionManager) (v : Tuple) : Prop :=
  1 ≤ v.xmin ∧ v.xmin < m.next_xid ∧ v.xmax < m.next_xid ∧
  (v.xmax ≠ INVALID_XID → link m v.xmax v.xmin)

/-- Invariant of one chain: non-empty, and every node but the head was marked by the
creator of the node just before it. -/
def chain_inv (m : TransactionManager) (chain : List Tuple) : Prop :=
  chain ≠ [] ∧ (∀ v ∈ chain, node_inv m v) ∧
  List.Chain' (fun newer older => older.xmax = newer.xmin) chain

def TblInv (m : TransactionManager) (t : Table) : Prop :=
  ∀ chain ∈ t.tuples, chain_inv m chain

def Inv (s : State) : Prop := MgrInv s.mgr ∧ TblInv s.mgr s.tbl

/-! ## Counting transactions -/

/-- Number of slots of the registry that hold a transaction (`xid` is not
`INVALID_XID`). -/
def tracked_count (m : TransactionManager) : Nat :=
  m.transactions.countP (fun t => decide (t.xid ≠ INVALID_XID))

/-- Number of `begin_transaction` calls of the sequence, run from `s`, that returned a
transaction. -/
def begins_ok (s : State) : List Op → Nat
  | [] => 0
  | op :: ops =>
    (if op = Op.begin ∧ (begin_transaction s.mgr).isSome then 1 else 0) +
      begins_ok (apply_op s op) ops

/-! ## Further counting and naming for the claims on whole runs -/

/-- Number of tracked transactions whose status is `TX_IN_PROGRESS`. -/
def in_progress_count (m : TransactionManager) : Nat :=
  m.transactions.countP
    (fun t => decide (t.xid ≠ INVALID_XID ∧ t.status = TX_IN_PROGRESS))

/-- The transaction pointer an API call is made with (`begin_transaction` takes none). -/
def op_tx : Op → Option Nat
  | .begin => none
  | .commit tx => some tx
  | .abort tx => some tx
  | .insert tx _ _ => some tx
  | .delete tx _ => some tx
  | .update tx _ _ _ => some tx

/-- The node `get_visible_version` points to, `none` for `NULL`. -/
def resolve_version (m : TransactionManager) (tx : Transaction) (chain : List Tuple) :
    Option Tuple :=
  match get_visible_version m tx chain with
  | none => none
  | some k => chain[k]?

/-- Version `v'` is version `v` at a later time: same creator and payload, and `xmax`
kept once it is set. -/
def same_version (v v' : Tuple) : Prop :=
  v'.xmin = v.xmin ∧ v'.data = v.data ∧ (v.xmax ≠ INVALID_XID → v'.xmax = v.xmax)

/-- Chain `c'` is chain `c0` at a later time: the versions of `c0`, in the same order, below
the versions created since. -/
def chain_extends (c0 c' : List Tuple) : Prop :=
  ∃ pre c1 : List Tuple, c' = pre ++ c1 ∧ c1.length = c0.length ∧
    ∀ (n : Nat) (v : Tuple), c0[n]? = some v → ∃ v' : Tuple, c1[n]? = some v' ∧ same_version v v'

/-- The call `op`, made in state `s`, is a successful delete or update of row `r` by a
transaction whose id is `x`. -/
def marks (s : State) (op : Op) (r : Nat) (x : Nat) : Prop :=
  (∃ tx idx, op = Op.delete tx idx ∧ idx.toNat = r ∧
    (delete_tuple s.mgr s.tbl (tx_at s.mgr tx) idx).1 = true ∧ x = (tx_at s.mgr tx).xid) ∨
  (∃ tx idx d ok, op = Op.update tx idx d ok ∧ idx.toNat = r ∧
    (update_tuple s.mgr s.tbl (tx_at s.mgr tx) idx d ok).1 = true ∧
    x = (tx_at s.mgr tx).xid)

/-! ## Basic facts about the chain walk and `select_all` -/

theorem gvv_some_iff (m : TransactionManager) (tx : Transaction) (chain : List Tuple)
    (i : Nat) :
    get_visible_version m tx chain = some i ↔
      (∃ v, chain[i]? = some v ∧ is_tuple_visible m tx v = true) ∧
      ∀ j, j < i → ∀ w, chain[j]? = some w → is_tuple_visible m tx w = false := by
  induction chain generalizing i with
  | nil => simp [get_visible_version]
  | cons c rest ih =>
    unfold get_visible_version
    by_cases hc : is_tuple_visible m tx c = true
    · simp only [hc, if_true]
      constructor
      · intro h
        have h0 : i = 0 := by simpa using h.symm
        subst h0
        simp [hc]
      · rintro ⟨_, hall⟩
        rcases Nat.eq_zero_or_pos i with h0 | hpos
        · simp [h0]
        · have := hall 0 hpos c (by simp)
          simp [hc] at this
    · rw [if_neg hc]
      cases i with
      | zero =>
        constructor
        · intro h
          simp at h
        · rintro ⟨⟨v, hv, hvis⟩, _⟩
          simp only [List.getElem?_cons_zero, Option.some.injEq] at hv
          subst hv; exact absurd hvis hc
      | succ k =>
        have hk := ih k
        simp only [Option.map_eq_some', Nat.add_right_cancel_iff,
          exists_eq_right, List.getElem?_cons_succ]
        rw [hk]
        constructor
        · rintro ⟨hv, hall⟩
          refine ⟨hv, ?_⟩
          intro j hj w hw
          cases j with
          | zero =>
            simp only [List.getElem?_cons_zero, Option.some.injEq] at hw
            subst hw; simpa using hc
          | succ j => exact hall j (by omega) w (by simpa using hw)
        · rintro ⟨hv, hall⟩
          refine ⟨hv, ?_⟩
          intro j hj w hw
          exact hall (j + 1) (by omega) w (by simpa using hw)

theorem gvv_none_iff (m : TransactionManager) (tx : Transaction) (chain : List Tuple) :
    get_visible_version m tx chain = none ↔
      ∀ v ∈ chain, is_tuple_visible m tx v = false := by
  induction chain with
  | nil => simp [get_visible_version]
  | cons c rest ih =>
    unfold get_visible_version
    by_cases hc : is_tuple_visible m tx c = true
    · simp [hc]
    · simp only [hc, Bool.false_eq_true, if_false, Option.map_eq_none', ih, List.mem_cons,
        forall_eq_or_imp]
      simp only [Bool.not_eq_true] at hc
      simp [hc]

theorem gvv_head (m : TransactionManager) (tx : Transaction) (v : Tuple)
    (rest : List Tuple) (h : is_tuple_visible m tx v = true) :
    get_visible_version m tx (v :: rest) = some 0 := by
  simp [get_visible_version, h]

theorem mem_select_from (m : TransactionManager) (tx : Transaction)
    (rows : List (List Tuple)) (i : Nat) (p : Nat × Int) :
    p ∈ select_from m tx i rows ↔
      ∃ k chain j, rows[k]? = some chain ∧ get_visible_version m tx chain = some j ∧
        p = (i + k, (chain.getD j ⟨0, 0, 0⟩).data) := by
  induction rows generalizing i with
  | nil => simp [select_from]
  | cons c rest ih =>
    unfold select_from
    constructor
    · intro h
      cases hg : get_visible_version m tx c with
      | none =>
        rw [hg] at h
        obtain ⟨k, chain, j, h1, h2, h3⟩ := (ih (i + 1)).1 h
        exact ⟨k + 1, chain, j, by simpa using h1, h2, by rw [h3]; congr 1; omega⟩
      | some j0 =>
        rw [hg] at h
        rcases List.mem_cons.1 h with h | h
        · exact ⟨0, c, j0, by simp, hg, by simpa using h⟩
        · obtain ⟨k, chain, j, h1, h2, h3⟩ := (ih (i + 1)).1 h
          exact ⟨k + 1, chain, j, by simpa using h1, h2, by rw [h3]; congr 1; omega⟩
    · rintro ⟨k, chain, j, h1, h2, h3⟩
      cases k with
      | zero =>
        simp only [List.getElem?_cons_zero, Option.some.injEq] at h1
        subst h1
        rw [h2, h3]
        simp
      | succ k =>
        have hrec : p ∈ select_from m tx (i + 1) rest :=
          (ih (i + 1)).2 ⟨k, chain, j, by simpa using h1, h2, by rw [h3]; congr 1; omega⟩
        cases hg : get_visible_version m tx c with
        | none => simpa using hrec
        | some j0 => exact List.mem_cons_of_mem _ hrec

/-! ## Registry lemmas -/

@[simp] theorem INVALID_XID_eq : INVALID_XID = 0 := rfl

@[simp] theorem FIRST_NORMAL_XID_eq : FIRST_NORMAL_XID = 1 := rfl

theorem MAX_TRANSACTIONS_eq : MAX_TRANSACTIONS = 100 := rfl

theorem MAX_TUPLES_eq : MAX_TUPLES = 1000 := rfl

theorem getD_set (l : List Transaction) (i k : Nat) (a d : Transaction)
    (hi : i < l.length) :
    (l.set i a).getD k d = if k = i then a else l.getD k d := by
  simp only [List.getD_eq_getElem?_getD, List.getElem?_set]
  by_cases h : i = k
  · subst h; simp [hi]
  · simp [h, Ne.symm h]

theorem find_free_slot_some (l : List Transaction) (i : Nat)
    (h : find_free_slot l = some i) :
    i < l.length ∧ (l.getD i empty_slot).xid = INVALID_XID ∧
      ∀ j, j < i → (l.getD j empty_slot).xid ≠ INVALID_XID := by
  induction l generalizing i with
  | nil => simp [find_free_slot] at h
  | cons t ts ih =>
    unfold find_free_slot at h
    by_cases ht : t.xid = INVALID_XID
    · rw [if_pos ht] at h
      have h0 : i = 0 := by simpa using h.symm
      subst h0
      simp [ht]
    · rw [if_neg ht] at h
      obtain ⟨a, ha, hia⟩ := Option.map_eq_some'.1 h
      have hia' : i = a + 1 := hia.symm
      subst hia'
      obtain ⟨h1, h2, h3⟩ := ih a ha
      refine ⟨by simpa using h1, by simpa using h2, ?_⟩
      intro j hj
      cases j with
      | zero => simpa using ht
      | succ j => simpa using h3 j (by omega)

theorem find_free_slot_none (l : List Transaction) (h : find_free_slot l = none) :
    ∀ j, j < l.length → (l.getD j empty_slot).xid ≠ INVALID_XID := by
  induction l with
  | nil => simp
  | cons t ts ih =>
    unfold find_free_slot at h
    by_cases ht : t.xid = INVALID_XID
    · simp [ht] at h
    · rw [if_neg ht] at h
      have hts : find_free_slot ts = none := by simpa using h
      intro j hj
      cases j with
      | zero => simpa using ht
      | succ j => simpa using ih hts j (by simpa using hj)

theorem find_free_slot_isSome (l : List Transaction) (i : Nat) (hi : i < l.length)
    (h : (l.getD i empty_slot).xid = INVALID_XID) : ∃ j, find_free_slot l = some j := by
  cases hf : find_free_slot l with
  | none => exact absurd h (find_free_slot_none l hf i hi)
  | some j => exact ⟨j, rfl⟩

theorem oldest_active_le (acc : Nat) (l : List Transaction) :
    oldest_active acc l ≤ acc := by
  induction l generalizing acc with
  | nil => simp [oldest_active]
  | cons o os ih =>
    unfold oldest_active
    split
    · rename_i h
      exact le_trans (ih o.xid) (le_of_lt h.2.2)
    · exact ih acc

theorem oldest_active_lower (acc : Nat) (l : List Transaction) :
    ∀ t ∈ l, t.xid ≠ INVALID_XID → t.status = TX_IN_PROGRESS →
      oldest_active acc l ≤ t.xid := by
  induction l generalizing acc with
  | nil => simp
  | cons o os ih =>
    intro t ht hx hs
    unfold oldest_active
    rcases List.mem_cons.1 ht with rfl | ht
    · split
      · exact oldest_active_le _ _
      · rename_i h
        have : ¬ t.xid < acc := fun hlt => h ⟨hx, hs, hlt⟩
        exact le_trans (oldest_active_le _ _) (by omega)
    · split
      · exact ih _ t ht hx hs
      · exact ih _ t ht hx hs

theorem oldest_active_attained (acc : Nat) (l : List Transaction) :
    oldest_active acc l = acc ∨
      ∃ t ∈ l, t.xid ≠ INVALID_XID ∧ t.status = TX_IN_PROGRESS ∧
        oldest_active acc l = t.xid := by
  induction l generalizing acc with
  | nil => simp [oldest_active]
  | cons o os ih =>
    unfold oldest_active
    split
    · rename_i h
      rcases ih o.xid with h1 | ⟨t, ht, h2, h3, h4⟩
      · exact Or.inr ⟨o, by simp, h.1, h.2.1, h1⟩
      · exact Or.inr ⟨t, by simp [ht], h2, h3, h4⟩
    · rcases ih acc with h1 | ⟨t, ht, h2, h3, h4⟩
      · exact Or.inl h1
      · exact Or.inr ⟨t, by simp [ht], h2, h3, h4⟩

theorem lookup_status_at (x : Nat) (l : List Transaction) (i : Nat)
    (hi : i < l.length) (hx : (l.getD i empty_slot).xid = x)
    (hbefore : ∀ j, j < i → (l.getD j empty_slot).xid ≠ x) :
    lookup_status x l = (l.getD i empty_slot).status := by
  induction l generalizing i with
  | nil => simp at hi
  | cons t ts ih =>
    unfold lookup_status
    cases i with
    | zero =>
      have : t.xid = x := by simpa using hx
      simp [this]
    | succ i =>
      have h0 : t.xid ≠ x := by simpa using hbefore 0 (by omega)
      rw [if_neg h0]
      have := ih i (by simpa using hi) (by simpa using hx)
        (fun j hj => by simpa using hbefore (j + 1) (by omega))
      simpa using this

theorem mem_getD (l : List Transaction) (t : Transaction) (h : t ∈ l) :
    ∃ i, i < l.length ∧ l.getD i empty_slot = t := by
  obtain ⟨i, hi, rfl⟩ := List.mem_iff_getElem.1 h
  exact ⟨i, hi, by simp [List.getD_eq_getElem?_getD, List.getElem?_eq_getElem hi]⟩

/-- Under the registry invariant a used slot is found by its id. -/
theorem status_of_tracked (m : TransactionManager) (hm : MgrInv m) (x : Nat)
    (h1 : 1 ≤ x) (h2 : x < m.next_xid) :
    get_transaction_status m x = (tx_at m (x - 1)).status := by
  have h100 := MAX_TRANSACTIONS_eq
  have hnext := hm.next_le
  have hlen := hm.len
  unfold get_transaction_status tx_at
  apply lookup_status_at
  · omega
  · have := (hm.slots (x - 1) (by omega)).1 (by omega)
    unfold tx_at at this
    rw [this.1]; omega
  · intro j hj
    have := (hm.slots j (by omega)).1 (by omega)
    unfold tx_at at this
    rw [this.1]; omega

/-- A slot holding a begun transaction is a used slot, so its id is its index plus one. -/
theorem handle_tracked (m : TransactionManager) (hm : MgrInv m) (i : Nat)
    (h : is_handle m i) :
    i + 1 < m.next_xid ∧ (tx_at m i).xid = i + 1 ∧ (tx_at m i).snapshot_xmax = i + 1 ∧
      1 ≤ (tx_at m i).snapshot_xmin ∧ (tx_at m i).snapshot_xmin ≤ i + 1 := by
  obtain ⟨hi, hx⟩ := h
  rw [hm.len] at hi
  have hs := hm.slots i hi
  have hlt : i + 1 < m.next_xid := by
    by_contra hc
    exact hx (hs.2 (by omega)).1
  exact ⟨hlt, hs.1 hlt⟩

theorem tracked_handle (m : TransactionManager) (hm : MgrInv m) (i : Nat)
    (h : i + 1 < m.next_xid) : is_handle m i := by
  have h100 := MAX_TRANSACTIONS_eq
  have hnext := hm.next_le
  have hi : i < MAX_TRANSACTIONS := by omega
  refine ⟨by rw [hm.len]; exact hi, ?_⟩
  rw [((hm.slots i hi).1 h).1]
  simp

theorem ext_refl (m : TransactionManager) : Ext m m :=
  ⟨le_refl _, fun _ _ => ⟨rfl, rfl, rfl, fun _ => rfl⟩⟩

theorem ext_trans {m1 m2 m3 : TransactionManager} (h12 : Ext m1 m2) (h23 : Ext m2 m3) :
    Ext m1 m3 := by
  refine ⟨le_trans h12.next_le h23.next_le, ?_⟩
  intro k hk
  obtain ⟨a1, a2, a3, a4⟩ := h12.keep k hk
  obtain ⟨b1, b2, b3, b4⟩ := h23.keep k (lt_of_lt_of_le hk h12.next_le)
  refine ⟨b1.trans a1, b2.trans a2, b3.trans a3, ?_⟩
  intro hst
  have h2 := a4 hst
  rw [b4 (by rw [h2]; exact hst), h2]

/-! ## The registry operations preserve the registry invariant -/

theorem tx_at_init (k : Nat) (hk : k < MAX_TRANSACTIONS) :
    tx_at (init_transaction_manager tx_manager_static) k = empty_slot := by
  unfold tx_at init_transaction_manager tx_manager_static empty_slot
  simp [List.getD_eq_getElem?_getD, List.getElem?_map, List.getElem?_replicate, hk]

theorem mgr_inv_init : MgrInv (init_transaction_manager tx_manager_static) := by
  refine ⟨by simp [init_transaction_manager, tx_manager_static], by decide, by decide,
    ?_, ?_, ?_⟩
  · intro k hk
    rw [tx_at_init k hk]
    refine ⟨?_, fun _ => ⟨rfl, rfl⟩⟩
    intro h
    simp [init_transaction_manager] at h
  · intro j k hj
    simp [init_transaction_manager] at hj
  · intro j k _ hk
    simp [init_transaction_manager] at hk

/-- What a successful `begin_transaction` does to a registry satisfying the invariant. -/
theorem begin_spec (m : TransactionManager) (hm : MgrInv m) (i : Nat)
    (m' : TransactionManager) (h : begin_transaction m = some (i, m')) :
    i + 1 = m.next_xid ∧ i < MAX_TRANSACTIONS ∧ m'.next_xid = m.next_xid + 1 ∧
    m'.transactions.length = MAX_TRANSACTIONS ∧
    m'.active_count = m.active_count + 1 ∧
    (∀ k, k ≠ i → tx_at m' k = tx_at m k) ∧
    (tx_at m' i).xid = i + 1 ∧ (tx_at m' i).status = TX_IN_PROGRESS ∧
    (tx_at m' i).snapshot_xmax = i + 1 ∧
    1 ≤ (tx_at m' i).snapshot_xmin ∧ (tx_at m' i).snapshot_xmin ≤ i + 1 ∧
    (∀ j, j + 1 < m.next_xid → (tx_at m j).status = TX_IN_PROGRESS →
      (tx_at m' i).snapshot_xmin ≤ j + 1) ∧
    (∀ k, k + 1 < m.next_xid → (tx_at m k).snapshot_xmin ≤ (tx_at m' i).snapshot_xmin) := by
  have h100 := MAX_TRANSACTIONS_eq
  have hlen := hm.len
  have hnp := hm.next_pos
  have hnl := hm.next_le
  unfold begin_transaction at h
  cases hf : find_free_slot m.transactions with
  | none => rw [hf] at h; simp at h
  | some slot =>
    rw [hf] at h
    simp only [Option.some.injEq, Prod.mk.injEq] at h
    obtain ⟨hslot, hm'⟩ := h
    subst hslot
    obtain ⟨hi, hx0, hbefore⟩ := find_free_slot_some _ _ hf
    have hi100 : slot < MAX_TRANSACTIONS := by omega
    have hnext : slot + 1 = m.next_xid := by
      have h1 : m.next_xid ≤ slot + 1 := by
        by_contra hc
        have := ((hm.slots slot hi100).1 (by omega)).1
        unfold tx_at at this
        rw [this] at hx0
        simp at hx0
      rcases Nat.eq_zero_or_pos slot with h0 | hpos
      · omega
      · have h2 : slot - 1 + 1 < m.next_xid := by
          by_contra hc
          have := ((hm.slots (slot - 1) (by omega)).2 (by omega)).1
          exact hbefore (slot - 1) (by omega) this
        omega
    -- the slot contents after the call
    have hat : ∀ k, tx_at m' k =
        if k = slot then ⟨m.next_xid, TX_IN_PROGRESS,
          oldest_active m.next_xid
            (m.transactions.set slot ⟨m.next_xid, TX_IN_PROGRESS, m.next_xid, m.next_xid⟩),
          m.next_xid⟩
        else tx_at m k := by
      intro k
      rw [← hm']
      unfold tx_at
      simp only
      rw [getD_set _ _ _ _ _ (by simpa using hi)]
      by_cases hk : k = slot
      · simp [hk]
      · rw [if_neg hk, if_neg hk, getD_set _ _ _ _ _ hi, if_neg hk]
    have hself := hat slot
    rw [if_pos rfl] at hself
    have hle := oldest_active_le m.next_xid
      (m.transactions.set slot ⟨m.next_xid, TX_IN_PROGRESS, m.next_xid, m.next_xid⟩)
    -- members of the scanned array
    have hmem : ∀ t ∈ m.transactions.set slot
        ⟨m.next_xid, TX_IN_PROGRESS, m.next_xid, m.next_xid⟩,
        t.xid ≠ INVALID_XID → t.xid = m.next_xid ∨
          ∃ j, j + 1 < m.next_xid ∧ t = tx_at m j := by
      intro t ht hx
      rcases List.mem_or_eq_of_mem_set ht with ht | ht
      · obtain ⟨j, hj, hjt⟩ := mem_getD _ _ ht
        right
        refine ⟨j, ?_, by unfold tx_at; exact hjt.symm⟩
        by_contra hc
        have := ((hm.slots j (by omega)).2 (by omega)).1
        unfold tx_at at this
        rw [hjt] at this
        exact hx this
      · left; rw [ht]
    refine ⟨hnext, hi100, ?_, ?_, ?_, ?_, ?_, ?_, ?_, ?_, ?_, ?_, ?_⟩
    · rw [← hm']
      show (m.next_xid + 1) % 2 ^ 64 = m.next_xid + 1
      apply Nat.mod_eq_of_lt
      have : (200 : Nat) < 2 ^ 64 := by norm_num
      omega
    · rw [← hm']; simp [hlen]
    · rw [← hm']
    · intro k hk
      rw [hat k, if_neg hk]
    · rw [hself]; simp only; omega
    · rw [hself]
    · rw [hself]; simp only; omega
    · rw [hself]
      show 1 ≤ oldest_active _ _
      rcases oldest_active_attained m.next_xid
        (m.transactions.set slot ⟨m.next_xid, TX_IN_PROGRESS, m.next_xid, m.next_xid⟩)
        with h1 | ⟨t, ht, h2, _, h4⟩
      · omega
      · rw [h4]
        simp only [INVALID_XID_eq] at h2
        omega
    · rw [hself]
      show oldest_active _ _ ≤ slot + 1
      omega
    · intro j hj hst
      rw [hself]
      show oldest_active _ _ ≤ j + 1
      have hj100 : j < MAX_TRANSACTIONS := by omega
      have hjx := ((hm.slots j hj100).1 hj).1
      have hjmem : tx_at m j ∈ m.transactions.set slot
          ⟨m.next_xid, TX_IN_PROGRESS, m.next_xid, m.next_xid⟩ := by
        rw [List.mem_iff_getElem?]
        refine ⟨j, ?_⟩
        rw [List.getElem?_set_ne (by omega)]
        unfold tx_at
        rw [List.getD_eq_getElem?_getD, List.getElem?_eq_getElem (by omega)]
        simp
      have := oldest_active_lower m.next_xid _ (tx_at m j) hjmem
        (by rw [hjx]; simp) hst
      rw [hjx] at this
      exact this
    · intro k hk
      rw [hself]
      show _ ≤ oldest_active _ _
      have hk100 : k < MAX_TRANSACTIONS := by omega
      have hks := (hm.slots k hk100).1 hk
      rcases oldest_active_attained m.next_xid
        (m.transactions.set slot ⟨m.next_xid, TX_IN_PROGRESS, m.next_xid, m.next_xid⟩)
        with h1 | ⟨t, ht, h2, h3, h4⟩
      · omega
      · rw [h4]
        rcases hmem t ht h2 with h5 | ⟨j, hj, h5⟩
        · omega
        · subst h5
          have hjx := ((hm.slots j (by omega)).1 hj).1
          rw [hjx]
          exact hm.active_low j k hj hk h3

theorem begin_inv (m : TransactionManager) (hm : MgrInv m) (i : Nat)
    (m' : TransactionManager) (h : begin_transaction m = some (i, m')) :
    MgrInv m' ∧ Ext m m' := by
  have h100 := MAX_TRANSACTIONS_eq
  obtain ⟨h1, h2, h3, h4, _, h6, h7, h8, h9, h10, h11, h12, h13⟩ := begin_spec m hm i m' h
  constructor
  · refine ⟨h4, by omega, by omega, ?_, ?_, ?_⟩
    · intro k hk
      by_cases hki : k = i
      · subst hki
        exact ⟨fun _ => ⟨h7, h9, h10, h11⟩, fun hc => by omega⟩
      · rw [h6 k hki]
        have hs := hm.slots k hk
        exact ⟨fun hlt => hs.1 (by omega), fun hge => hs.2 (by omega)⟩
    · intro j k hj hk hst
      by_cases hki : k = i
      · subst hki
        by_cases hji : j = k
        · subst hji; exact h11
        · rw [h6 j hji] at hst
          exact h12 j (by omega) hst
      · rw [h6 k hki]
        by_cases hji : j = i
        · subst hji
          have := ((hm.slots k (by omega)).1 (by omega)).2.2.2
          omega
        · rw [h6 j hji] at hst
          exact hm.active_low j k (by omega) (by omega) hst
    · intro j k hjk hk
      by_cases hki : k = i
      · subst hki
        by_cases hji : j = k
        · subst hji; exact le_refl _
        · rw [h6 j hji]
          exact h13 j (by omega)
      · rw [h6 k hki, h6 j (by omega)]
        exact hm.mono j k hjk (by omega)
  · refine ⟨by omega, ?_⟩
    intro k hk
    rw [h6 k (by omega)]
    exact ⟨rfl, rfl, rfl, fun _ => rfl⟩

/-- What `commit_transaction` / `abort_transaction` do to the slots. -/
theorem finish_spec (st : TransactionStatus) (m : TransactionManager) (i : Nat) :
    (finish_transaction st m (some i)).next_xid = m.next_xid ∧
    (finish_transaction st m (some i)).transactions.length = m.transactions.length ∧
    ∀ k, (tx_at (finish_transaction st m (some i)) k).xid = (tx_at m k).xid ∧
      (tx_at (finish_transaction st m (some i)) k).snapshot_xmin =
        (tx_at m k).snapshot_xmin ∧
      (tx_at (finish_transaction st m (some i)) k).snapshot_xmax =
        (tx_at m k).snapshot_xmax ∧
      ((tx_at (finish_transaction st m (some i)) k).status = (tx_at m k).status ∨
        (k = i ∧ (tx_at m k).status = TX_IN_PROGRESS ∧
          (tx_at (finish_transaction st m (some i)) k).status = st)) := by
  cases hg : m.transactions[i]? with
  | none =>
    have : finish_transaction st m (some i) = m := by
      unfold finish_transaction; simp only [hg]
    rw [this]
    exact ⟨rfl, rfl, fun k => ⟨rfl, rfl, rfl, Or.inl rfl⟩⟩
  | some t =>
    unfold finish_transaction
    simp only [hg]
    by_cases hst : t.status = TX_IN_PROGRESS
    · rw [if_pos hst]
      have hi : i < m.transactions.length := by
        by_contra hc
        rw [List.getElem?_eq_none (by omega)] at hg
        simp at hg
      have hti : tx_at m i = t := by
        unfold tx_at
        rw [List.getD_eq_getElem?_getD, hg]; rfl
      refine ⟨rfl, by simp, ?_⟩
      intro k
      unfold tx_at at hti ⊢
      simp only
      rw [getD_set _ _ _ _ _ hi]
      by_cases hk : k = i
      · subst hk
        rw [if_pos rfl, hti]
        exact ⟨rfl, rfl, rfl, Or.inr ⟨rfl, hst, rfl⟩⟩
      · rw [if_neg hk]
        exact ⟨rfl, rfl, rfl, Or.inl rfl⟩
    · rw [if_neg hst]
      exact ⟨rfl, rfl, fun k => ⟨rfl, rfl, rfl, Or.inl rfl⟩⟩

theorem finish_inv (st : TransactionStatus) (hst : st ≠ TX_IN_PROGRESS)
    (m : TransactionManager) (hm : MgrInv m) (i : Nat) :
    MgrInv (finish_transaction st m (some i)) ∧ Ext m (finish_transaction st m (some i)) := by
  obtain ⟨h1, h2, h3⟩ := finish_spec st m i
  constructor
  · refine ⟨by rw [h2]; exact hm.len, by rw [h1]; exact hm.next_pos,
      by rw [h1]; exact hm.next_le, ?_, ?_, ?_⟩
    · intro k hk
      obtain ⟨a1, a2, a3, a4⟩ := h3 k
      have hs := hm.slots k hk
      rw [h1]
      refine ⟨fun hlt => ?_, fun hge => ?_⟩
      · rw [a1, a2, a3]; exact hs.1 hlt
      · rw [a1]
        refine ⟨(hs.2 hge).1, ?_⟩
        rcases a4 with a4 | ⟨_, a5, _⟩
        · rw [a4]; exact (hs.2 hge).2
        · rw [(hs.2 hge).2] at a5
          exact absurd a5 (by decide)
    · intro j k hj hk hip
      rw [h1] at hj hk
      rw [(h3 k).2.1]
      apply hm.active_low j k hj hk
      rcases (h3 j).2.2.2 with a4 | ⟨_, _, a6⟩
      · rw [← a4]; exact hip
      · rw [a6] at hip; exact absurd hip hst
    · intro j k hjk hk
      rw [h1] at hk
      rw [(h3 k).2.1, (h3 j).2.1]
      exact hm.mono j k hjk hk
  · refine ⟨by rw [h1], ?_⟩
    intro k _
    obtain ⟨a1, a2, a3, a4⟩ := h3 k
    refine ⟨a1, a2, a3, ?_⟩
    intro hne
    rcases a4 with a4 | ⟨_, a5, _⟩
    · exact a4
    · exact absurd a5 hne

/-! ## Visibility, restated -/

/-- The decision of `is_tuple_visible` as one formula. -/
theorem visible_iff (m : TransactionManager) (tx : Transaction) (v : Tuple) :
    is_tuple_visible m tx v = true ↔
      (v.xmin = tx.xid ∧ v.xmax ≠ tx.xid) ∨
      (v.xmin ≠ tx.xid ∧ v.xmin < tx.snapshot_xmax ∧
        (v.xmin < tx.snapshot_xmin ∨ get_transaction_status m v.xmin = TX_COMMITTED) ∧
        (v.xmax = INVALID_XID ∨
          (v.xmax ≠ tx.xid ∧
            (v.xmax ≥ tx.snapshot_xmax ∨
              (v.xmax ≥ tx.snapshot_xmin ∧
                get_transaction_status m v.xmax ≠ TX_COMMITTED))))) := by
  unfold is_tuple_visible
  simp only [INVALID_XID_eq]
  by_cases h1 : v.xmin = tx.xid
  · by_cases h1' : v.xmax = tx.xid <;> simp [h1, h1']
  · rw [if_neg h1]
    by_cases h2 : v.xmin ≥ tx.snapshot_xmax
    · rw [if_pos h2]
      have : ¬ v.xmin < tx.snapshot_xmax := by omega
      simp [h1, this]
    · rw [if_neg h2]
      have h2' : v.xmin < tx.snapshot_xmax := by omega
      by_cases h3 : v.xmin ≥ tx.snapshot_xmin ∧
          get_transaction_status m v.xmin ≠ TX_COMMITTED
      · rw [if_pos h3]
        have : ¬ (v.xmin < tx.snapshot_xmin ∨
            get_transaction_status m v.xmin = TX_COMMITTED) := by
          rintro (h | h)
          · omega
          · exact h3.2 h
        simp [h1, this]
      · rw [if_neg h3]
        have h3' : v.xmin < tx.snapshot_xmin ∨
            get_transaction_status m v.xmin = TX_COMMITTED := by
          by_cases h : v.xmin < tx.snapshot_xmin
          · exact Or.inl h
          · right
            by_contra hc
            exact h3 ⟨by omega, hc⟩
        by_cases h4 : v.xmax = 0
        · simp [h1, h2', h3', h4]
        · rw [if_neg h4]
          by_cases h5 : v.xmax = tx.xid
          · rw [if_pos h5]
            simp only [Bool.false_eq_true, false_iff]
            rintro (⟨a, _⟩ | ⟨_, _, _, b | ⟨c, _⟩⟩)
            · exact h1 a
            · exact h4 b
            · exact c h5
          · rw [if_neg h5]
            by_cases h6 : v.xmax ≥ tx.snapshot_xmax
            · simp [h1, h2', h3', h5, h6]
            · rw [if_neg h6]
              by_cases h7 : v.xmax ≥ tx.snapshot_xmin ∧
                  get_transaction_status m v.xmax ≠ TX_COMMITTED
              · simp [h1, h2', h3', h5, h7]
              · rw [if_neg h7]
                have h6' : ¬ v.xmax ≥ tx.snapshot_xmax := h6
                simp only [Bool.false_eq_true, false_iff, not_or, not_and]
                refine ⟨fun h => absurd h h1, fun _ _ _ => ?_⟩
                refine ⟨h4, fun _ => ⟨h6', fun h8 h9 => h7 ⟨h8, h9⟩⟩⟩

/-! ## The table operations, case by case -/

theorem insert_cases (t : Table) (tx : Transaction) (data : Int) (ok : Bool) :
    (insert_tuple t tx data ok = (false, t) ∧
      (t.tuples.length ≥ MAX_TUPLES ∨ ok = false)) ∨
    (insert_tuple t tx data ok = (true, ⟨t.tuples ++ [[⟨tx.xid, INVALID_XID, data⟩]]⟩) ∧
      t.tuples.length < MAX_TUPLES ∧ ok = true) := by
  unfold insert_tuple Table.tuple_count
  by_cases h1 : (t.tuples.length : Int) ≥ (MAX_TUPLES : Int)
  · rw [if_pos h1]
    exact Or.inl ⟨rfl, Or.inl (by exact_mod_cast h1)⟩
  · rw [if_neg h1]
    cases ok with
    | false => exact Or.inl ⟨by simp, Or.inr rfl⟩
    | true =>
      refine Or.inr ⟨by simp, ?_, rfl⟩
      have : ¬ (t.tuples.length ≥ MAX_TUPLES) := fun h => h1 (by exact_mod_cast h)
      omega

/-- Outcome of `delete_tuple`: either the table is returned unchanged with `false`, or
the resolved node `k` of row `r` had `xmax = INVALID_XID` and is marked. -/
theorem delete_cases (m : TransactionManager) (t : Table) (tx : Transaction) (idx : Int) :
    delete_tuple m t tx idx = (false, t) ∨
    ∃ (r : Nat) (chain : List Tuple) (k : Nat) (v : Tuple), idx = (r : Int) ∧ t.tuples[r]? = some chain ∧
      get_visible_version m tx chain = some k ∧ chain[k]? = some v ∧
      v.xmax = INVALID_XID ∧
      delete_tuple m t tx idx =
        (true, ⟨t.tuples.set r (chain.set k { v with xmax := tx.xid })⟩) := by
  unfold delete_tuple Table.tuple_count
  by_cases h1 : idx < 0 ∨ idx ≥ (t.tuples.length : Int)
  · rw [if_pos h1]; exact Or.inl rfl
  · rw [if_neg h1]
    have hr : idx = (idx.toNat : Int) := by omega
    have hlt : idx.toNat < t.tuples.length := by omega
    have hget : t.tuples[idx.toNat]? = some (t.tuples.getD idx.toNat []) := by
      rw [List.getD_eq_getElem?_getD, List.getElem?_eq_getElem hlt]; rfl
    simp only
    cases hg : get_visible_version m tx (t.tuples.getD idx.toNat []) with
    | none => exact Or.inl rfl
    | some k =>
      simp only
      obtain ⟨⟨v, hv, _⟩, _⟩ := (gvv_some_iff m tx _ k).1 hg
      have hvd : (t.tuples.getD idx.toNat []).getD k ⟨0, 0, 0⟩ = v := by
        rw [List.getD_eq_getElem?_getD, hv]; rfl
      rw [hvd]
      by_cases hx : v.xmax ≠ INVALID_XID
      · rw [if_pos hx]; exact Or.inl rfl
      · rw [if_neg hx]
        right
        refine ⟨idx.toNat, _, k, v, hr, hget, hg, hv, by simpa using hx, ?_⟩
        simp only [set_xmax, hv]

/-- Outcome of `update_tuple`, as for `delete_tuple`, with the new head pushed. -/
theorem update_cases (m : TransactionManager) (t : Table) (tx : Transaction) (idx : Int)
    (d : Int) (ok : Bool) :
    update_tuple m t tx idx d ok = (false, t) ∨
    ∃ (r : Nat) (chain : List Tuple) (k : Nat) (v : Tuple), idx = (r : Int) ∧ t.tuples[r]? = some chain ∧
      get_visible_version m tx chain = some k ∧ chain[k]? = some v ∧
      v.xmax = INVALID_XID ∧ ok = true ∧
      update_tuple m t tx idx d ok =
        (true, ⟨t.tuples.set r
          (⟨tx.xid, INVALID_XID, d⟩ :: chain.set k { v with xmax := tx.xid })⟩) := by
  unfold update_tuple Table.tuple_count
  by_cases h1 : idx < 0 ∨ idx ≥ (t.tuples.length : Int)
  · rw [if_pos h1]; exact Or.inl rfl
  · rw [if_neg h1]
    have hr : idx = (idx.toNat : Int) := by omega
    have hlt : idx.toNat < t.tuples.length := by omega
    have hget : t.tuples[idx.toNat]? = some (t.tuples.getD idx.toNat []) := by
      rw [List.getD_eq_getElem?_getD, List.getElem?_eq_getElem hlt]; rfl
    simp only
    cases hg : get_visible_version m tx (t.tuples.getD idx.toNat []) with
    | none => exact Or.inl rfl
    | some k =>
      simp only
      obtain ⟨⟨v, hv, _⟩, _⟩ := (gvv_some_iff m tx _ k).1 hg
      have hvd : (t.tuples.getD idx.toNat []).getD k ⟨0, 0, 0⟩ = v := by
        rw [List.getD_eq_getElem?_getD, hv]; rfl
      rw [hvd]
      by_cases hx : v.xmax ≠ INVALID_XID
      · rw [if_pos hx]; exact Or.inl rfl
      · rw [if_neg hx]
        cases ok with
        | false => exact Or.inl (by simp)
        | true =>
          right
          refine ⟨idx.toNat, _, k, v, hr, hget, hg, hv, by simpa using hx, rfl, ?_⟩
          simp only [set_xmax, hv, not_true_eq_false, if_false]

/-! ## The table invariant is stable under registry extension -/

theorem looks_committed_ext (m m' : TransactionManager) (hm : MgrInv m) (hm' : MgrInv m')
    (he : Ext m m') (low y : Nat) (hy1 : 1 ≤ y) (hy : y < m.next_xid)
    (h : looks_committed m low y) : looks_committed m' low y := by
  rcases h with h | h
  · exact Or.inl h
  · right
    have hn := he.next_le
    rw [status_of_tracked m hm y hy1 hy] at h
    rw [status_of_tracked m' hm' y hy1 (by omega)]
    have := (he.keep (y - 1) (by omega)).2.2.2 (by rw [h]; decide)
    rw [this, h]

theorem link_ext (m m' : TransactionManager) (hm : MgrInv m) (hm' : MgrInv m')
    (he : Ext m m') (x y : Nat) (hx : x < m.next_xid) (hy1 : 1 ≤ y)
    (h : link m x y) : link m' x y := by
  rcases h with h | ⟨h1, h2⟩
  · exact Or.inl h
  · right
    refine ⟨h1, ?_⟩
    rw [(he.keep (x - 1) (by omega)).2.1]
    exact looks_committed_ext m m' hm hm' he _ y hy1 (by omega) h2

theorem node_inv_ext (m m' : TransactionManager) (hm : MgrInv m) (hm' : MgrInv m')
    (he : Ext m m') (v : Tuple) (h : node_inv m v) : node_inv m' v := by
  obtain ⟨h1, h2, h3, h4⟩ := h
  have hn := he.next_le
  exact ⟨h1, by omega, by omega, fun hx => link_ext m m' hm hm' he _ _ h3 h1 (h4 hx)⟩

theorem tbl_inv_ext (m m' : TransactionManager) (hm : MgrInv m) (hm' : MgrInv m')
    (he : Ext m m') (t : Table) (h : TblInv m t) : TblInv m' t := by
  intro chain hc
  obtain ⟨h1, h2, h3⟩ := h chain hc
  exact ⟨h1, fun v hv => node_inv_ext m m' hm hm' he v (h2 v hv), h3⟩

/-! ## The table operations preserve the table invariant -/

theorem chain_nonhead_marked (chain : List Tuple)
    (hc : List.Chain' (fun newer older : Tuple => older.xmax = newer.xmin) chain)
    (hpos : ∀ v ∈ chain, 1 ≤ v.xmin) :
    ∀ k v, chain[k + 1]? = some v → v.xmax ≠ INVALID_XID := by
  induction chain with
  | nil => intro k v h; simp at h
  | cons a rest ih =>
    intro k v h
    cases rest with
    | nil => simp at h
    | cons b rest' =>
      rw [List.chain'_cons] at hc
      cases k with
      | zero =>
        simp only [zero_add, List.getElem?_cons_succ, List.getElem?_cons_zero,
          Option.some.injEq] at h
        subst h
        have := hpos a (by simp)
        rw [hc.1]
        simp only [INVALID_XID_eq]
        omega
      | succ k =>
        exact ih hc.2 (fun w hw => hpos w (List.mem_cons_of_mem _ hw)) k v
          (by simpa using h)

/-- In a chain satisfying the invariant only the head can be unmarked. -/
theorem unmarked_is_head (m : TransactionManager) (chain : List Tuple)
    (hc : chain_inv m chain) (k : Nat) (v : Tuple) (hv : chain[k]? = some v)
    (hx : v.xmax = INVALID_XID) : k = 0 := by
  cases k with
  | zero => rfl
  | succ k =>
    exact absurd hx (chain_nonhead_marked chain hc.2.2 (fun w hw => (hc.2.1 w hw).1) k v hv)

theorem visible_link (m : TransactionManager) (hm : MgrInv m) (i : Nat)
    (hh : is_handle m i) (v : Tuple)
    (hvis : is_tuple_visible m (tx_at m i) v = true) :
    link m (i + 1) v.xmin := by
  obtain ⟨_, h2, h3, _, _⟩ := handle_tracked m hm i hh
  rcases (visible_iff m (tx_at m i) v).1 hvis with ⟨a, _⟩ | ⟨_, b, c, _⟩
  · left; rw [a, h2]
  · right
    rw [h3] at b
    exact ⟨b, by simpa [looks_committed] using c⟩

/-- The chain after a successful delete (`xmax` of the resolved node set) and after a
successful update (the same, with a new head) again satisfies the invariant; the
resolved node is the head. -/
theorem mark_chain (m : TransactionManager) (hm : MgrInv m) (i : Nat)
    (hh : is_handle m i) (chain : List Tuple) (hc : chain_inv m chain) (k : Nat)
    (v : Tuple) (hg : get_visible_version m (tx_at m i) chain = some k)
    (hv : chain[k]? = some v) (hx : v.xmax = INVALID_XID) :
    ∃ rest, k = 0 ∧ chain = v :: rest ∧
      chain_inv m ({ v with xmax := (tx_at m i).xid } :: rest) ∧
      ∀ d, chain_inv m
        (⟨(tx_at m i).xid, INVALID_XID, d⟩ :: { v with xmax := (tx_at m i).xid } :: rest) := by
  have hk := unmarked_is_head m chain hc k v hv hx
  subst hk
  obtain ⟨ht, hxid, _, _, _⟩ := handle_tracked m hm i hh
  obtain ⟨⟨v', hv', hvis⟩, _⟩ := (gvv_some_iff m _ chain 0).1 hg
  rw [hv] at hv'
  have hvv : v' = v := by simpa using hv'.symm
  subst hvv
  cases chain with
  | nil => simp at hv
  | cons a rest =>
    have hav : a = v' := by simpa using hv
    subst hav
    obtain ⟨_, hnodes, hch⟩ := hc
    have hnv := hnodes a (by simp)
    have hmarked : node_inv m { a with xmax := (tx_at m i).xid } := by
      refine ⟨hnv.1, hnv.2.1, ?_, ?_⟩
      · show (tx_at m i).xid < m.next_xid
        omega
      · intro _
        show link m (tx_at m i).xid a.xmin
        rw [hxid]
        exact visible_link m hm i hh a hvis
    have hch' : List.Chain' (fun newer older : Tuple => older.xmax = newer.xmin)
        ({ a with xmax := (tx_at m i).xid } :: rest) := by
      cases rest with
      | nil => simp
      | cons b rest' =>
        rw [List.chain'_cons] at hch ⊢
        exact hch
    have hrest : ∀ w ∈ rest, node_inv m w := fun w hw =>
      hnodes w (List.mem_cons_of_mem _ hw)
    refine ⟨rest, rfl, rfl, ⟨by simp, ?_, hch'⟩, ?_⟩
    · intro w hw
      rcases List.mem_cons.1 hw with rfl | hw
      · exact hmarked
      · exact hrest w hw
    · intro d
      refine ⟨by simp, ?_, ?_⟩
      · intro w hw
        rcases List.mem_cons.1 hw with rfl | hw
        · refine ⟨?_, ?_, ?_, ?_⟩
          · show 1 ≤ (tx_at m i).xid
            omega
          · show (tx_at m i).xid < m.next_xid
            omega
          · show INVALID_XID < m.next_xid
            simp only [INVALID_XID_eq]; omega
          · intro hne; exact absurd rfl hne
        · rcases List.mem_cons.1 hw with rfl | hw
          · exact hmarked
          · exact hrest w hw
      · rw [List.chain'_cons]
        exact ⟨rfl, hch'⟩

theorem tbl_inv_set (m : TransactionManager) (t : Table) (h : TblInv m t) (r : Nat)
    (c : List Tuple) (hc : chain_inv m c) : TblInv m ⟨t.tuples.set r c⟩ := by
  intro chain hmem
  rcases List.mem_or_eq_of_mem_set hmem with h1 | h1
  · exact h chain h1
  · rw [h1]; exact hc

theorem insert_inv (m : TransactionManager) (hm : MgrInv m) (t : Table) (h : TblInv m t)
    (i : Nat) (hh : is_handle m i) (d : Int) (ok : Bool) :
    TblInv m (insert_tuple t (tx_at m i) d ok).2 := by
  rcases insert_cases t (tx_at m i) d ok with ⟨h1, _⟩ | ⟨h1, _⟩
  · rw [h1]; exact h
  · rw [h1]
    obtain ⟨ht, hxid, _, _, _⟩ := handle_tracked m hm i hh
    intro chain hmem
    rcases List.mem_append.1 hmem with h2 | h2
    · exact h chain h2
    · have : chain = [⟨(tx_at m i).xid, INVALID_XID, d⟩] := by simpa using h2
      subst this
      refine ⟨by simp, ?_, by simp⟩
      intro w hw
      have : w = ⟨(tx_at m i).xid, INVALID_XID, d⟩ := by simpa using hw
      subst this
      refine ⟨?_, ?_, ?_, ?_⟩
      · show 1 ≤ (tx_at m i).xid
        omega
      · show (tx_at m i).xid < m.next_xid
        omega
      · show INVALID_XID < m.next_xid
        simp only [INVALID_XID_eq]; omega
      · intro hne; exact absurd rfl hne

theorem delete_inv (m : TransactionManager) (hm : MgrInv m) (t : Table) (h : TblInv m t)
    (i : Nat) (hh : is_handle m i) (idx : Int) :
    TblInv m (delete_tuple m t (tx_at m i) idx).2 := by
  rcases delete_cases m t (tx_at m i) idx with h1 | ⟨r, chain, k, v, _, h2, h3, h4, h5, h6⟩
  · rw [h1]; exact h
  · rw [h6]
    have hc := h chain (List.mem_iff_getElem?.2 ⟨r, h2⟩)
    obtain ⟨rest, hk, hch, hc1, _⟩ := mark_chain m hm i hh chain hc k v h3 h4 h5
    subst hk
    subst hch
    exact tbl_inv_set m t h r _ hc1

theorem update_inv (m : TransactionManager) (hm : MgrInv m) (t : Table) (h : TblInv m t)
    (i : Nat) (hh : is_handle m i) (idx : Int) (d : Int) (ok : Bool) :
    TblInv m (update_tuple m t (tx_at m i) idx d ok).2 := by
  rcases update_cases m t (tx_at m i) idx d ok with
    h1 | ⟨r, chain, k, v, _, h2, h3, h4, h5, _, h6⟩
  · rw [h1]; exact h
  · rw [h6]
    have hc := h chain (List.mem_iff_getElem?.2 ⟨r, h2⟩)
    obtain ⟨rest, hk, hch, _, hc2⟩ := mark_chain m hm i hh chain hc k v h3 h4 h5
    subst hk
    subst hch
    exact tbl_inv_set m t h r _ (hc2 d)

/-! ## Reachable states satisfy the invariant -/

theorem inv_init : Inv init_state := by
  refine ⟨mgr_inv_init, ?_⟩
  intro chain hc
  simp [init_state, init_table] at hc

theorem inv_step (s : State) (hs : Inv s) (op : Op) (hok : op_ok s op) :
    Inv (apply_op s op) ∧ Ext s.mgr (apply_op s op).mgr := by
  obtain ⟨hm, ht⟩ := hs
  cases op with
  | begin =>
    unfold apply_op
    cases hb : begin_transaction s.mgr with
    | none => exact ⟨⟨hm, ht⟩, ext_refl _⟩
    | some p =>
      obtain ⟨i, m'⟩ := p
      obtain ⟨h1, h2⟩ := begin_inv s.mgr hm i m' hb
      exact ⟨⟨h1, tbl_inv_ext s.mgr m' hm h1 h2 s.tbl ht⟩, h2⟩
  | commit tx =>
    obtain ⟨h1, h2⟩ := finish_inv TX_COMMITTED (by decide) s.mgr hm tx
    exact ⟨⟨h1, tbl_inv_ext s.mgr _ hm h1 h2 s.tbl ht⟩, h2⟩
  | abort tx =>
    obtain ⟨h1, h2⟩ := finish_inv TX_ABORTED (by decide) s.mgr hm tx
    exact ⟨⟨h1, tbl_inv_ext s.mgr _ hm h1 h2 s.tbl ht⟩, h2⟩
  | insert tx d ok => exact ⟨⟨hm, insert_inv s.mgr hm s.tbl ht tx hok d ok⟩, ext_refl _⟩
  | delete tx idx => exact ⟨⟨hm, delete_inv s.mgr hm s.tbl ht tx hok idx⟩, ext_refl _⟩
  | update tx idx d ok =>
    exact ⟨⟨hm, update_inv s.mgr hm s.tbl ht tx hok idx d ok⟩, ext_refl _⟩

theorem inv_run (ops : List Op) : ∀ s : State, Inv s → ops_ok s ops →
    Inv (run_ops s ops) ∧ Ext s.mgr (run_ops s ops).mgr := by
  induction ops with
  | nil => intro s hs _; exact ⟨hs, ext_refl _⟩
  | cons op ops ih =>
    intro s hs hok
    obtain ⟨h1, h2⟩ := inv_step s hs op hok.1
    obtain ⟨h3, h4⟩ := ih (apply_op s op) h1 hok.2
    exact ⟨h3, ext_trans h2 h4⟩

theorem inv_reach (s s' : State) (hs : Inv s) (h : Reach s s') :
    Inv s' ∧ Ext s.mgr s'.mgr := by
  obtain ⟨ops, hok, hrun⟩ := h
  rw [← hrun]
  exact inv_run ops s hs hok

/-! ## Marked chains are hidden from later snapshots -/

theorem link_trans (m : TransactionManager) (hm : MgrInv m) (x z y : Nat)
    (hx : x < m.next_xid) (hz : 1 ≤ z)
    (h1 : link m x z) (h2 : link m z y) : link m x y := by
  rcases h1 with h1 | ⟨h1, h1'⟩
  · rw [← h1]; exact h2
  · rcases h2 with h2 | ⟨h2, h2'⟩
    · rw [h2]; exact Or.inr ⟨h1, h1'⟩
    · right
      refine ⟨by omega, ?_⟩
      rcases h2' with h3 | h3
      · left
        have := hm.mono (z - 1) (x - 1) (by omega) (by omega)
        omega
      · exact Or.inr h3

/-- A version marked by a transaction that the snapshot of slot `j` treats as finished
(or by the transaction of slot `j` itself) is not visible to slot `j`. -/
theorem marked_invisible (m : TransactionManager) (hm : MgrInv m) (j : Nat)
    (hj : is_handle m j) (v : Tuple) (h0 : v.xmax ≠ INVALID_XID)
    (hl : link m (j + 1) v.xmax) (hle : v.xmin ≤ v.xmax) :
    is_tuple_visible m (tx_at m j) v = false := by
  obtain ⟨_, h2, h3, _, _⟩ := handle_tracked m hm j hj
  by_contra hc
  have hvis : is_tuple_visible m (tx_at m j) v = true := by simpa using hc
  have hsub : j + 1 - 1 = j := by omega
  unfold link looks_committed at hl
  rw [hsub] at hl
  rcases (visible_iff m (tx_at m j) v).1 hvis with ⟨a, b⟩ | ⟨_, _, _, c | ⟨c1, c2⟩⟩
  · rw [h2] at a b
    rcases hl with hl | ⟨hl, _⟩
    · exact b hl
    · omega
  · exact h0 c
  · rw [h2] at c1
    rw [h3] at c2
    rcases hl with hl | ⟨hl, hl'⟩
    · exact c1 hl
    · rcases c2 with c2 | ⟨c2, c3⟩
      · omega
      · rcases hl' with hl' | hl'
        · omega
        · exact c3 hl'

theorem node_le (m : TransactionManager) (v : Tuple) (hv : node_inv m v)
    (h0 : v.xmax ≠ INVALID_XID) : v.xmin ≤ v.xmax := by
  rcases hv.2.2.2 h0 with h | ⟨h, _⟩ <;> omega

/-- If the head of a chain is marked by a transaction hidden from slot `j`, no version
of the chain is visible to slot `j`. -/
theorem chain_hidden (m : TransactionManager) (hm : MgrInv m) (j : Nat)
    (hj : is_handle m j) (chain : List Tuple) :
    (∀ v ∈ chain, node_inv m v) →
    List.Chain' (fun newer older : Tuple => older.xmax = newer.xmin) chain →
    (∀ a, chain.head? = some a → a.xmax ≠ INVALID_XID ∧ link m (j + 1) a.xmax) →
    ∀ v ∈ chain, is_tuple_visible m (tx_at m j) v = false := by
  obtain ⟨hjt, _⟩ := handle_tracked m hm j hj
  induction chain with
  | nil => intro _ _ _ v hv; simp at hv
  | cons a rest ih =>
    intro hnodes hch hhead v hv
    obtain ⟨ha0, hal⟩ := hhead a rfl
    have hna := hnodes a (by simp)
    rcases List.mem_cons.1 hv with rfl | hv
    · exact marked_invisible m hm j hj _ ha0 hal (node_le m _ hna ha0)
    · apply ih (fun w hw => hnodes w (List.mem_cons_of_mem _ hw)) _ _ v hv
      · cases rest with
        | nil => simp
        | cons b rest' => exact (List.chain'_cons.1 hch).2
      · intro b hb
        cases rest with
        | nil => simp at hb
        | cons b' rest' =>
          have hbb : b' = b := by simpa using hb
          subst hbb
          have hbx : b'.xmax = a.xmin := (List.chain'_cons.1 hch).1
          rw [hbx]
          refine ⟨by simp only [INVALID_XID_eq]; have := hna.1; omega, ?_⟩
          have hax1 : 1 ≤ a.xmax := by
            simp only [INVALID_XID_eq] at ha0; omega
          exact link_trans m hm (j + 1) a.xmax a.xmin hjt hax1 hal (hna.2.2.2 ha0)

theorem gvv_none_not_selected (m : TransactionManager) (t : Table) (tx : Transaction)
    (r : Nat) (h : get_visible_version m tx (t.tuples.getD r []) = none) :
    ∀ p, (r, p) ∉ select_all m t tx := by
  intro p hp
  unfold select_all at hp
  obtain ⟨k, chain, jj, h1, h2, h3⟩ := (mem_select_from m tx t.tuples 0 (r, p)).1 hp
  have hk : r = k := by
    have := congrArg Prod.fst h3
    simpa using this
  subst hk
  rw [List.getD_eq_getElem?_getD, h1] at h
  simp only [Option.getD_some] at h
  rw [h] at h2
  simp at h2

/-! ## A row whose head is marked never changes again -/

theorem frozen_step (s : State) (hs : Inv s) (op : Op) (hok : op_ok s op) (r : Nat)
    (a : Tuple) (rest : List Tuple) (hrow : s.tbl.tuples[r]? = some (a :: rest))
    (ha : a.xmax ≠ INVALID_XID) :
    (apply_op s op).tbl.tuples[r]? = some (a :: rest) := by
  obtain ⟨hm, ht⟩ := hs
  have hrlt : r < s.tbl.tuples.length := by
    by_contra hc
    rw [List.getElem?_eq_none (by omega)] at hrow
    simp at hrow
  cases op with
  | begin =>
    unfold apply_op
    cases hb : begin_transaction s.mgr with
    | none => exact hrow
    | some p => exact hrow
  | commit tx => exact hrow
  | abort tx => exact hrow
  | insert tx d ok =>
    show (insert_tuple s.tbl (tx_at s.mgr tx) d ok).2.tuples[r]? = _
    rcases insert_cases s.tbl (tx_at s.mgr tx) d ok with ⟨h1, _⟩ | ⟨h1, _⟩
    · rw [h1]; exact hrow
    · rw [h1]
      show (s.tbl.tuples ++ _)[r]? = _
      rw [List.getElem?_append_left hrlt]
      exact hrow
  | delete tx idx =>
    show (delete_tuple s.mgr s.tbl (tx_at s.mgr tx) idx).2.tuples[r]? = _
    rcases delete_cases s.mgr s.tbl (tx_at s.mgr tx) idx with
      h1 | ⟨r', chain, k, v, _, h2, h3, h4, h5, h6⟩
    · rw [h1]; exact hrow
    · rw [h6]
      show (s.tbl.tuples.set r' _)[r]? = _
      by_cases hrr : r' = r
      · subst hrr
        rw [hrow] at h2
        have hch : chain = a :: rest := by simpa using h2.symm
        subst hch
        have hk := unmarked_is_head s.mgr _
          (ht _ (List.mem_iff_getElem?.2 ⟨r', hrow⟩)) k v h4 h5
        subst hk
        have : a = v := by simpa using h4
        subst this
        exact absurd h5 ha
      · rw [List.getElem?_set_ne hrr]
        exact hrow
  | update tx idx d ok =>
    show (update_tuple s.mgr s.tbl (tx_at s.mgr tx) idx d ok).2.tuples[r]? = _
    rcases update_cases s.mgr s.tbl (tx_at s.mgr tx) idx d ok with
      h1 | ⟨r', chain, k, v, _, h2, h3, h4, h5, _, h6⟩
    · rw [h1]; exact hrow
    · rw [h6]
      show (s.tbl.tuples.set r' _)[r]? = _
      by_cases hrr : r' = r
      · subst hrr
        rw [hrow] at h2
        have hch : chain = a :: rest := by simpa using h2.symm
        subst hch
        have hk := unmarked_is_head s.mgr _
          (ht _ (List.mem_iff_getElem?.2 ⟨r', hrow⟩)) k v h4 h5
        subst hk
        have : a = v := by simpa using h4
        subst this
        exact absurd h5 ha
      · rw [List.getElem?_set_ne hrr]
        exact hrow

theorem frozen_run (ops : List Op) : ∀ s : State, Inv s → ops_ok s ops →
    ∀ (r : Nat) (a : Tuple) (rest : List Tuple), s.tbl.tuples[r]? = some (a :: rest) →
      a.xmax ≠ INVALID_XID → (run_ops s ops).tbl.tuples[r]? = some (a :: rest) := by
  induction ops with
  | nil => intro s _ _ r a rest hrow _; exact hrow
  | cons op ops ih =>
    intro s hs hok r a rest hrow ha
    exact ih (apply_op s op) (inv_step s hs op hok.1).1 hok.2 r a rest
      (frozen_step s hs op hok.1 r a rest hrow ha) ha

theorem frozen_reach (s s' : State) (hs : Inv s) (h : Reach s s') (r : Nat) (a : Tuple)
    (rest : List Tuple) (hrow : s.tbl.tuples[r]? = some (a :: rest))
    (ha : a.xmax ≠ INVALID_XID) : s'.tbl.tuples[r]? = some (a :: rest) := by
  obtain ⟨ops, hok, hrun⟩ := h
  rw [← hrun]
  exact frozen_run ops s hs hok r a rest hrow ha

/-- A successful `delete_tuple` by the transaction of slot `i` in a state satisfying the
invariant marks the head of the row. -/
theorem delete_success (s : State) (hs : Inv s) (i : Nat) (hi : is_handle s.mgr i)
    (idx : Int) (h : (delete_tuple s.mgr s.tbl (tx_at s.mgr i) idx).1 = true) :
    ∃ (a : Tuple) (rest : List Tuple),
      s.tbl.tuples[idx.toNat]? = some (a :: rest) ∧ a.xmax = INVALID_XID ∧
      (delete_tuple s.mgr s.tbl (tx_at s.mgr i) idx).2.tuples[idx.toNat]? =
        some ({ a with xmax := i + 1 } :: rest) ∧
      (delete_tuple s.mgr s.tbl (tx_at s.mgr i) idx).2.tuples.getD idx.toNat [] =
        { a with xmax := i + 1 } :: rest := by
  obtain ⟨hm, ht⟩ := hs
  obtain ⟨_, hxid, _, _, _⟩ := handle_tracked s.mgr hm i hi
  rcases delete_cases s.mgr s.tbl (tx_at s.mgr i) idx with
    h1 | ⟨r, chain, k, v, hr, h2, h3, h4, h5, h6⟩
  · rw [h1] at h; simp at h
  · have hrn : idx.toNat = r := by omega
    rw [hrn, h6]
    have hc := ht chain (List.mem_iff_getElem?.2 ⟨r, h2⟩)
    obtain ⟨rest, hk, hch, _, _⟩ := mark_chain s.mgr hm i hi chain hc k v h3 h4 h5
    subst hk
    subst hch
    have hrlt : r < s.tbl.tuples.length := by
      by_contra hc'
      rw [List.getElem?_eq_none (by omega)] at h2
      simp at h2
    have hget : (s.tbl.tuples.set r
        (List.set (v :: rest) 0 { v with xmax := (tx_at s.mgr i).xid }))[r]? =
        some ({ v with xmax := i + 1 } :: rest) := by
      rw [List.getElem?_set_self hrlt, hxid]
      rfl
    refine ⟨v, rest, h2, h5, hget, ?_⟩
    show (s.tbl.tuples.set r _).getD r [] = _
    rw [List.getD_eq_getElem?_getD, hget]
    rfl

/-! ## A transaction begun in a reachable state, seen from any later state -/

theorem reach_refl (s : State) : Reach s s := ⟨[], trivial, rfl⟩

theorem ops_ok_append (ops1 : List Op) : ∀ (s : State) (ops2 : List Op),
    ops_ok s ops1 → ops_ok (run_ops s ops1) ops2 → ops_ok s (ops1 ++ ops2) := by
  induction ops1 with
  | nil => intro s ops2 _ h; exact h
  | cons op ops ih =>
    intro s ops2 h1 h2
    exact ⟨h1.1, ih (apply_op s op) ops2 h1.2 h2⟩

theorem run_ops_append (ops1 : List Op) : ∀ (s : State) (ops2 : List Op),
    run_ops s (ops1 ++ ops2) = run_ops (run_ops s ops1) ops2 := by
  induction ops1 with
  | nil => intro s ops2; rfl
  | cons op ops ih => intro s ops2; exact ih (apply_op s op) ops2

theorem reach_trans {s1 s2 s3 : State} (h12 : Reach s1 s2) (h23 : Reach s2 s3) :
    Reach s1 s3 := by
  obtain ⟨ops1, hok1, hrun1⟩ := h12
  obtain ⟨ops2, hok2, hrun2⟩ := h23
  refine ⟨ops1 ++ ops2, ops_ok_append ops1 s1 ops2 hok1 (by rw [hrun1]; exact hok2), ?_⟩
  rw [run_ops_append, hrun1, hrun2]

/-- Facts about the transaction begun at `s0` (slot `j`) and about the transactions
tracked at `s0`, in a state `s2` reached afterwards. -/
theorem after_begin (s0 s2 : State) (j : Nat) (m1 : TransactionManager) (hs0 : Inv s0)
    (hb : begin_transaction s0.mgr = some (j, m1)) (h2 : Reach ⟨m1, s0.tbl⟩ s2) :
    Inv ⟨m1, s0.tbl⟩ ∧ Inv s2 ∧ j + 1 = s0.mgr.next_xid ∧ is_handle s2.mgr j ∧
    ∀ i, i + 1 < s0.mgr.next_xid →
      i < j ∧ (tx_at s2.mgr i).xid = i + 1 ∧ i + 1 < s2.mgr.next_xid ∧
      get_transaction_status s2.mgr (i + 1) = (tx_at s2.mgr i).status ∧
      ((tx_at s0.mgr i).status ≠ TX_IN_PROGRESS →
        (tx_at s2.mgr i).status = (tx_at s0.mgr i).status) ∧
      ((tx_at s0.mgr i).status = TX_IN_PROGRESS →
        (tx_at s2.mgr j).snapshot_xmin ≤ i + 1) ∧
      (tx_at s0.mgr i).snapshot_xmin ≤ (tx_at s2.mgr j).snapshot_xmin := by
  obtain ⟨hm0, ht0⟩ := hs0
  obtain ⟨b1, b2, b3, _, _, b6, _, _, _, _, _, b12, b13⟩ := begin_spec s0.mgr hm0 j m1 hb
  obtain ⟨hm1, he01⟩ := begin_inv s0.mgr hm0 j m1 hb
  have hs1 : Inv ⟨m1, s0.tbl⟩ := ⟨hm1, tbl_inv_ext s0.mgr m1 hm0 hm1 he01 s0.tbl ht0⟩
  obtain ⟨hs2, he12⟩ := inv_reach ⟨m1, s0.tbl⟩ s2 hs1 h2
  have hn12 := he12.next_le
  have hn12' : m1.next_xid ≤ s2.mgr.next_xid := hn12
  have hkj := he12.keep j (by show j + 1 < m1.next_xid; omega)
  refine ⟨hs1, hs2, b1, tracked_handle s2.mgr hs2.1 j (by omega), ?_⟩
  intro i hi
  have hk1 := he01.keep i hi
  have hk2 := he12.keep i (by show i + 1 < m1.next_xid; omega)
  have hxi := ((hm0.slots i (by omega)).1 hi).1
  refine ⟨by omega, ?_, by omega, ?_, ?_, ?_, ?_⟩
  · rw [hk2.1, hk1.1, hxi]
  · have := status_of_tracked s2.mgr hs2.1 (i + 1) (by omega) (by omega)
    simpa using this
  · intro hne
    have h1 := hk1.2.2.2 hne
    rw [hk2.2.2.2 (by rw [h1]; exact hne), h1]
  · intro hip
    rw [hkj.2.1]
    exact b12 i hi hip
  · rw [hkj.2.1]
    exact b13 i hi

/-! ## Claims C1 to C10 -/

/-- Claim C1. For every registry, transaction and version, `is_tuple_visible` is the
result of the specification's ordered eight-rule sequence, and it is true exactly when
the version is self-created and not self-deleted, or created by another transaction
below `snapshot_high` that is below `snapshot_low` or committed, and either never
deleted or deleted by another transaction that is at or above `snapshot_high`, or at or
above `snapshot_low` and not committed. -/
theorem is_tuple_visible_rule_sequence (m : TransactionManager) (tx : Transaction)
    (v : Tuple) :
    is_tuple_visible m tx v =
      spec_is_visible (get_transaction_status m) tx.xid tx.snapshot_xmin tx.snapshot_xmax
        v.xmin v.xmax ∧
    (is_tuple_visible m tx v = true ↔
      (v.xmin = tx.xid ∧ v.xmax ≠ tx.xid) ∨
      (v.xmin ≠ tx.xid ∧ v.xmin < tx.snapshot_xmax ∧
        (v.xmin < tx.snapshot_xmin ∨ get_transaction_status m v.xmin = TX_COMMITTED) ∧
        (v.xmax = INVALID_XID ∨
          (v.xmax ≠ tx.xid ∧
            (v.xmax ≥ tx.snapshot_xmax ∨
              (v.xmax ≥ tx.snapshot_xmin ∧
                get_transaction_status m v.xmax ≠ TX_COMMITTED)))))) := by
  refine ⟨?_, visible_iff m tx v⟩
  unfold is_tuple_visible spec_is_visible
  by_cases h1 : v.xmin = tx.xid
  · by_cases h2 : v.xmax = tx.xid <;> simp [h1, h2]
  · simp only [h1, if_false]

/-- Claim C2. For every transaction and chain (the empty one included),
`get_visible_version` returns position `i` exactly when the version at `i` is visible
and every version before it is not, and returns `none` exactly when no version of the
chain is visible; it always returns one of the two. -/
theorem get_visible_version_first_visible (m : TransactionManager) (tx : Transaction)
    (chain : List Tuple) :
    (∀ i, get_visible_version m tx chain = some i ↔
      (∃ v, chain[i]? = some v ∧ is_tuple_visible m tx v = true) ∧
      ∀ j, j < i → ∀ w, chain[j]? = some w → is_tuple_visible m tx w = false) ∧
    (get_visible_version m tx chain = none ↔
      ∀ v ∈ chain, is_tuple_visible m tx v = false) ∧
    get_visible_version m tx [] = none :=
  ⟨fun i => gvv_some_iff m tx chain i, gvv_none_iff m tx chain, rfl⟩

/-- Claim C3. If `insert_tuple` by a transaction (its id is not the invalid id) succeeds,
the new row, at index the former row count, is the one-version chain just created; the
transaction resolves it to that version at once, whatever the registry state, so
`select_all` lists the row with its payload. After begin and inserts of 100, 200, 300
into the empty table, `select_all` for that transaction yields those rows in order. -/
theorem insert_visible_to_self (m : TransactionManager) (t : Table) (tx : Transaction)
    (p : Int) (ok : Bool) (hx : tx.xid ≠ INVALID_XID)
    (hs : (insert_tuple t tx p ok).1 = true) :
    (insert_tuple t tx p ok).2.tuples[t.tuples.length]? =
      some [⟨tx.xid, INVALID_XID, p⟩] ∧
    (insert_tuple t tx p ok).2.tuples.length = t.tuples.length + 1 ∧
    get_visible_version m tx [⟨tx.xid, INVALID_XID, p⟩] = some 0 ∧
    (t.tuples.length, p) ∈ select_all m (insert_tuple t tx p ok).2 tx ∧
    select_all
      (run_ops init_state [.begin, .insert 0 100 true, .insert 0 200 true,
        .insert 0 300 true]).mgr
      (run_ops init_state [.begin, .insert 0 100 true, .insert 0 200 true,
        .insert 0 300 true]).tbl
      (tx_at (run_ops init_state [.begin, .insert 0 100 true, .insert 0 200 true,
        .insert 0 300 true]).mgr 0) = [(0, 100), (1, 200), (2, 300)] := by
  have hvis : is_tuple_visible m tx ⟨tx.xid, INVALID_XID, p⟩ = true := by
    rw [visible_iff]
    exact Or.inl ⟨rfl, fun h => hx h.symm⟩
  have hg : get_visible_version m tx [⟨tx.xid, INVALID_XID, p⟩] = some 0 :=
    gvv_head m tx _ _ hvis
  rcases insert_cases t tx p ok with ⟨h1, _⟩ | ⟨h1, _⟩
  · rw [h1] at hs; simp at hs
  · rw [h1]
    have hrow : (t.tuples ++ [[(⟨tx.xid, INVALID_XID, p⟩ : Tuple)]])[t.tuples.length]? =
        some [⟨tx.xid, INVALID_XID, p⟩] := by
      rw [List.getElem?_append_right (le_refl _)]
      simp
    refine ⟨hrow, by simp, hg, ?_, by decide⟩
    unfold select_all
    rw [mem_select_from]
    exact ⟨t.tuples.length, _, 0, hrow, hg, by simp⟩

theorem insert_visible_to_self_witness :
    (3, (42 : Int)) ∈ select_all (init_transaction_manager tx_manager_static)
      (insert_tuple ⟨[[⟨1, 0, 7⟩], [], [⟨2, 1, 5⟩]]⟩ ⟨4, TX_IN_PROGRESS, 2, 4⟩ 42 true).2
      ⟨4, TX_IN_PROGRESS, 2, 4⟩ :=
  (insert_visible_to_self (init_transaction_manager tx_manager_static)
    ⟨[[⟨1, 0, 7⟩], [], [⟨2, 1, 5⟩]]⟩ ⟨4, TX_IN_PROGRESS, 2, 4⟩ 42 true
    (by decide) (by decide)).2.2.2.1

/-- Claim C4. In a state reached from the initial state, let slot `i` hold an in-progress
transaction T and let `begin_transaction` return T' in slot `j`. In every state reached
afterwards in which T is not committed, no version whose `xmin` is the id of T is
visible to T'. With T1 and T2 both in progress after one insert each, `select_all` of a
newly begun T3 yields no row. -/
theorem uncommitted_insert_invisible (s0 s2 : State) (i j : Nat)
    (m1 : TransactionManager) (h0 : Reach init_state s0) (hi : is_handle s0.mgr i)
    (hip : (tx_at s0.mgr i).status = TX_IN_PROGRESS)
    (hb : begin_transaction s0.mgr = some (j, m1)) (h2 : Reach ⟨m1, s0.tbl⟩ s2)
    (hnc : (tx_at s2.mgr i).status ≠ TX_COMMITTED) :
    (∀ v : Tuple, v.xmin = (tx_at s2.mgr i).xid →
      is_tuple_visible s2.mgr (tx_at s2.mgr j) v = false) ∧
    select_all
      (run_ops init_state [.begin, .insert 0 1 true, .begin, .insert 1 2 true, .begin]).mgr
      (run_ops init_state [.begin, .insert 0 1 true, .begin, .insert 1 2 true, .begin]).tbl
      (tx_at (run_ops init_state
        [.begin, .insert 0 1 true, .begin, .insert 1 2 true, .begin]).mgr 2) = [] := by
  refine ⟨?_, by decide⟩
  intro v hv
  have hs0 := (inv_reach init_state s0 inv_init h0).1
  obtain ⟨hit, _⟩ := handle_tracked s0.mgr hs0.1 i hi
  obtain ⟨_, hs2, _, hj, hall⟩ := after_begin s0 s2 j m1 hs0 hb h2
  obtain ⟨a1, a2, _, a4, _, a6, _⟩ := hall i hit
  obtain ⟨_, c2, _, _, _⟩ := handle_tracked s2.mgr hs2.1 j hj
  have hlow := a6 hip
  rw [a2] at hv
  by_contra hc
  have hvis : is_tuple_visible s2.mgr (tx_at s2.mgr j) v = true := by simpa using hc
  rcases (visible_iff s2.mgr (tx_at s2.mgr j) v).1 hvis with ⟨b1, _⟩ | ⟨_, _, b3 | b3, _⟩
  · rw [c2, hv] at b1; omega
  · rw [hv] at b3; omega
  · rw [hv, a4] at b3; exact hnc b3

theorem uncommitted_insert_invisible_witness :
    is_tuple_visible (run_ops init_state [.begin, .insert 0 1 true, .begin, .abort 0]).mgr
      (tx_at (run_ops init_state [.begin, .insert 0 1 true, .begin, .abort 0]).mgr 1)
      ⟨1, 0, 1⟩ = false :=
  (uncommitted_insert_invisible (run_ops init_state [.begin, .insert 0 1 true])
    (run_ops init_state [.begin, .insert 0 1 true, .begin, .abort 0]) 0 1
    (run_ops init_state [.begin, .insert 0 1 true, .begin]).mgr
    ⟨[.begin, .insert 0 1 true], by decide, rfl⟩ (by decide) (by decide) (by rfl)
    ⟨[.abort 0], by decide, rfl⟩ (by decide)).1 ⟨1, 0, 1⟩ (by decide)

/-- Claim C5, evaluated on the code. In the scenario begin T1; insert(T1, 100); begin T2,
`select_all` for T2 yields no row before T1 commits, and after `commit_transaction` of
T1 it yields the row inserted by T1: rule 3 reads the creator's current status. -/
theorem commit_reveals_insert_to_older_snapshot :
    select_all (run_ops init_state [.begin, .insert 0 100 true, .begin]).mgr
      (run_ops init_state [.begin, .insert 0 100 true, .begin]).tbl
      (tx_at (run_ops init_state [.begin, .insert 0 100 true, .begin]).mgr 1) = [] ∧
    select_all (run_ops init_state [.begin, .insert 0 100 true, .begin, .commit 0]).mgr
      (run_ops init_state [.begin, .insert 0 100 true, .begin, .commit 0]).tbl
      (tx_at (run_ops init_state [.begin, .insert 0 100 true, .begin, .commit 0]).mgr 1)
      = [(0, 100)] ∧
    ops_ok init_state [.begin, .insert 0 100 true, .begin, .commit 0] := by
  decide

/-- Claim C6. In a state reached from the initial state, let slot `i` hold a committed
transaction T and let `begin_transaction` return T' in slot `j`. In every state reached
afterwards, a row whose head was created by T and is not marked deleted resolves for T'
to that head, and `select_all` for T' lists it. After begin T1; insert(T1, 100);
commit T1; begin T2, `select_all` for T2 is exactly the row with payload 100. -/
theorem committed_head_visible_to_later (s0 s2 : State) (i j : Nat)
    (m1 : TransactionManager) (h0 : Reach init_state s0) (hi : is_handle s0.mgr i)
    (hc : (tx_at s0.mgr i).status = TX_COMMITTED)
    (hb : begin_transaction s0.mgr = some (j, m1)) (h2 : Reach ⟨m1, s0.tbl⟩ s2)
    (r : Nat) (head : Tuple) (rest : List Tuple)
    (hrow : s2.tbl.tuples[r]? = some (head :: rest))
    (hmin : head.xmin = (tx_at s2.mgr i).xid) (hmax : head.xmax = INVALID_XID) :
    get_visible_version s2.mgr (tx_at s2.mgr j) (head :: rest) = some 0 ∧
    (r, head.data) ∈ select_all s2.mgr s2.tbl (tx_at s2.mgr j) ∧
    select_all (run_ops init_state [.begin, .insert 0 100 true, .commit 0, .begin]).mgr
      (run_ops init_state [.begin, .insert 0 100 true, .commit 0, .begin]).tbl
      (tx_at (run_ops init_state [.begin, .insert 0 100 true, .commit 0, .begin]).mgr 1)
      = [(0, 100)] := by
  have hs0 := (inv_reach init_state s0 inv_init h0).1
  obtain ⟨hit, _⟩ := handle_tracked s0.mgr hs0.1 i hi
  obtain ⟨_, hs2, _, hj, hall⟩ := after_begin s0 s2 j m1 hs0 hb h2
  obtain ⟨a1, a2, _, a4, a5, _, _⟩ := hall i hit
  obtain ⟨_, c2, c3, _, _⟩ := handle_tracked s2.mgr hs2.1 j hj
  have hst : (tx_at s2.mgr i).status = TX_COMMITTED := by
    rw [a5 (by rw [hc]; decide), hc]
  rw [a2] at hmin
  have hvis : is_tuple_visible s2.mgr (tx_at s2.mgr j) head = true := by
    rw [visible_iff]
    right
    refine ⟨by rw [hmin, c2]; omega, by rw [hmin, c3]; omega, Or.inr ?_, Or.inl hmax⟩
    rw [hmin, a4, hst]
  have hg := gvv_head s2.mgr (tx_at s2.mgr j) head rest hvis
  refine ⟨hg, ?_, by decide⟩
  unfold select_all
  rw [mem_select_from]
  exact ⟨r, _, 0, hrow, hg, by simp⟩

theorem committed_head_visible_to_later_witness :
    get_visible_version
      (run_ops init_state [.begin, .insert 0 100 true, .commit 0, .begin, .begin]).mgr
      (tx_at (run_ops init_state
        [.begin, .insert 0 100 true, .commit 0, .begin, .begin]).mgr 1)
      [⟨1, 0, 100⟩] = some 0 :=
  (committed_head_visible_to_later
    (run_ops init_state [.begin, .insert 0 100 true, .commit 0])
    (run_ops init_state [.begin, .insert 0 100 true, .commit 0, .begin, .begin]) 0 1
    (run_ops init_state [.begin, .insert 0 100 true, .commit 0, .begin]).mgr
    ⟨[.begin, .insert 0 100 true, .commit 0], by decide, rfl⟩ (by decide) (by decide)
    (by rfl) ⟨[.begin], by decide, rfl⟩ 0 ⟨1, 0, 100⟩ [] (by decide) (by decide)
    (by decide)).1

/-- Claim C7, evaluated on the code. In the scenario commit T1 with row 100; begin T2;
update(T2, row 0, 200); begin T3, `select_all` for T3 yields 100 before T2 commits and
200 after `commit_transaction` of T2: the snapshot of T3 does not keep the old payload. -/
theorem commit_reveals_update_to_older_snapshot :
    select_all
      (run_ops init_state
        [.begin, .insert 0 100 true, .commit 0, .begin, .update 1 0 200 true, .begin]).mgr
      (run_ops init_state
        [.begin, .insert 0 100 true, .commit 0, .begin, .update 1 0 200 true, .begin]).tbl
      (tx_at (run_ops init_state
        [.begin, .insert 0 100 true, .commit 0, .begin, .update 1 0 200 true, .begin]).mgr 2)
      = [(0, 100)] ∧
    select_all
      (run_ops init_state [.begin, .insert 0 100 true, .commit 0, .begin,
        .update 1 0 200 true, .begin, .commit 1]).mgr
      (run_ops init_state [.begin, .insert 0 100 true, .commit 0, .begin,
        .update 1 0 200 true, .begin, .commit 1]).tbl
      (tx_at (run_ops init_state [.begin, .insert 0 100 true, .commit 0, .begin,
        .update 1 0 200 true, .begin, .commit 1]).mgr 2)
      = [(0, 200)] ∧
    ops_ok init_state [.begin, .insert 0 100 true, .commit 0, .begin,
      .update 1 0 200 true, .begin, .commit 1] := by
  decide

/-- Claim C8. In a state reached from the initial state let the transaction D of slot `d`
delete row `r` with success; let D be committed in a state reached afterwards, in which
`begin_transaction` returns T' in slot `j`. In every state reached after that, the row
still has the version D marked at its head, no version of its chain is visible to T',
the row resolves to none for T', and `select_all` for T' has no line for it. -/
theorem committed_delete_hides_row (sa sc se : State) (d j : Nat) (r : Int)
    (mj : TransactionManager) (ha : Reach init_state sa) (hd : is_handle sa.mgr d)
    (hdel : (delete_tuple sa.mgr sa.tbl (tx_at sa.mgr d) r).1 = true)
    (hbc : Reach ⟨sa.mgr, (delete_tuple sa.mgr sa.tbl (tx_at sa.mgr d) r).2⟩ sc)
    (hcom : (tx_at sc.mgr d).status = TX_COMMITTED)
    (hb : begin_transaction sc.mgr = some (j, mj)) (hce : Reach ⟨mj, sc.tbl⟩ se) :
    (∃ a rest, se.tbl.tuples.getD r.toNat [] = a :: rest ∧
      a.xmax = (tx_at se.mgr d).xid) ∧
    (∀ v ∈ se.tbl.tuples.getD r.toNat [],
      is_tuple_visible se.mgr (tx_at se.mgr j) v = false) ∧
    get_visible_version se.mgr (tx_at se.mgr j) (se.tbl.tuples.getD r.toNat []) = none ∧
    ∀ p, (r.toNat, p) ∉ select_all se.mgr se.tbl (tx_at se.mgr j) := by
  have hsa := (inv_reach init_state sa inv_init ha).1
  obtain ⟨hdt, _⟩ := handle_tracked sa.mgr hsa.1 d hd
  obtain ⟨a, rest, _, _, hrowb, _⟩ := delete_success sa hsa d hd r hdel
  have hsb : Inv ⟨sa.mgr, (delete_tuple sa.mgr sa.tbl (tx_at sa.mgr d) r).2⟩ :=
    (inv_step sa hsa (.delete d r) hd).1
  have hmark : ({ a with xmax := d + 1 } : Tuple).xmax ≠ INVALID_XID := by
    simp
  obtain ⟨hsc, hext⟩ := inv_reach _ sc hsb hbc
  have hrowc := frozen_reach _ sc hsb hbc r.toNat _ rest hrowb hmark
  have hdc : d + 1 < sc.mgr.next_xid := lt_of_lt_of_le hdt hext.next_le
  obtain ⟨hsd, hse, _, hj, hall⟩ := after_begin sc se j mj hsc hb hce
  obtain ⟨a1, a2, _, a4, a5, _, _⟩ := hall d hdc
  have hrowe := frozen_reach _ se hsd hce r.toNat _ rest hrowc hmark
  have hst : (tx_at se.mgr d).status = TX_COMMITTED := by
    rw [a5 (by rw [hcom]; decide), hcom]
  have hgetD : se.tbl.tuples.getD r.toNat [] = { a with xmax := d + 1 } :: rest := by
    rw [List.getD_eq_getElem?_getD, hrowe]; rfl
  have hci := hse.2 _ (List.mem_iff_getElem?.2 ⟨r.toNat, hrowe⟩)
  have hinv : ∀ v ∈ se.tbl.tuples.getD r.toNat [],
      is_tuple_visible se.mgr (tx_at se.mgr j) v = false := by
    rw [hgetD]
    apply chain_hidden se.mgr hse.1 j hj _ hci.2.1 hci.2.2
    intro b hb'
    have hbb : b = { a with xmax := d + 1 } := by simpa using hb'.symm
    subst hbb
    refine ⟨hmark, Or.inr ⟨?_, Or.inr ?_⟩⟩
    · show d + 1 < j + 1
      omega
    · show get_transaction_status se.mgr (d + 1) = TX_COMMITTED
      rw [a4, hst]
  have hnone := (gvv_none_iff se.mgr (tx_at se.mgr j) _).2 hinv
  exact ⟨⟨_, rest, hgetD, by rw [a2]⟩, hinv, hnone,
    gvv_none_not_selected se.mgr se.tbl _ r.toNat hnone⟩

theorem committed_delete_hides_row_witness :
    get_visible_version
      (run_ops init_state
        [.begin, .insert 0 5 true, .commit 0, .begin, .delete 1 0, .commit 1, .begin]).mgr
      (tx_at (run_ops init_state
        [.begin, .insert 0 5 true, .commit 0, .begin, .delete 1 0, .commit 1, .begin]).mgr 2)
      ((run_ops init_state
        [.begin, .insert 0 5 true, .commit 0, .begin, .delete 1 0, .commit 1,
          .begin]).tbl.tuples.getD (0 : Int).toNat []) = none :=
  (committed_delete_hides_row
    (run_ops init_state [.begin, .insert 0 5 true, .commit 0, .begin])
    (run_ops init_state [.begin, .insert 0 5 true, .commit 0, .begin, .delete 1 0,
      .commit 1])
    (run_ops init_state [.begin, .insert 0 5 true, .commit 0, .begin, .delete 1 0,
      .commit 1, .begin]) 1 2 0
    (run_ops init_state [.begin, .insert 0 5 true, .commit 0, .begin, .delete 1 0,
      .commit 1, .begin]).mgr
    ⟨[.begin, .insert 0 5 true, .commit 0, .begin], by decide, rfl⟩ (by decide)
    (by decide) ⟨[.commit 1], by decide, rfl⟩ (by decide) (by rfl)
    ⟨[], trivial, rfl⟩).2.2.1

/-- Claim C9. In a state reached from the initial state, right after `delete_tuple` by
the transaction T of slot `i` succeeds on row `r`, the head of the row is the version T
marked, no version of the row's chain is visible to T, the row resolves to none for T,
and `select_all` for T has no line for it. -/
theorem own_delete_hides_row (s : State) (i : Nat) (r : Int) (h0 : Reach init_state s)
    (hi : is_handle s.mgr i)
    (hdel : (delete_tuple s.mgr s.tbl (tx_at s.mgr i) r).1 = true) :
    (∃ a rest,
      (delete_tuple s.mgr s.tbl (tx_at s.mgr i) r).2.tuples.getD r.toNat [] = a :: rest ∧
      a.xmax = (tx_at s.mgr i).xid) ∧
    (∀ v ∈ (delete_tuple s.mgr s.tbl (tx_at s.mgr i) r).2.tuples.getD r.toNat [],
      is_tuple_visible s.mgr (tx_at s.mgr i) v = false) ∧
    get_visible_version s.mgr (tx_at s.mgr i)
      ((delete_tuple s.mgr s.tbl (tx_at s.mgr i) r).2.tuples.getD r.toNat []) = none ∧
    ∀ p, (r.toNat, p) ∉
      select_all s.mgr (delete_tuple s.mgr s.tbl (tx_at s.mgr i) r).2 (tx_at s.mgr i) := by
  have hs := (inv_reach init_state s inv_init h0).1
  obtain ⟨_, hxid, _, _, _⟩ := handle_tracked s.mgr hs.1 i hi
  obtain ⟨a, rest, _, _, hrowb, hgetD⟩ := delete_success s hs i hi r hdel
  have hsb : Inv ⟨s.mgr, (delete_tuple s.mgr s.tbl (tx_at s.mgr i) r).2⟩ :=
    (inv_step s hs (.delete i r) hi).1
  have hci := hsb.2 _ (List.mem_iff_getElem?.2 ⟨r.toNat, hrowb⟩)
  have hinv : ∀ v ∈ (delete_tuple s.mgr s.tbl (tx_at s.mgr i) r).2.tuples.getD r.toNat [],
      is_tuple_visible s.mgr (tx_at s.mgr i) v = false := by
    rw [hgetD]
    apply chain_hidden s.mgr hs.1 i hi _ hci.2.1 hci.2.2
    intro b hb'
    have hbb : b = { a with xmax := i + 1 } := by simpa using hb'.symm
    subst hbb
    exact ⟨by simp, Or.inl rfl⟩
  have hnone := (gvv_none_iff s.mgr (tx_at s.mgr i) _).2 hinv
  exact ⟨⟨_, rest, hgetD, by rw [hxid]⟩, hinv, hnone,
    gvv_none_not_selected s.mgr _ _ r.toNat hnone⟩

theorem own_delete_hides_row_witness :
    get_visible_version (run_ops init_state [.begin, .insert 0 5 true, .commit 0, .begin]).mgr
      (tx_at (run_ops init_state [.begin, .insert 0 5 true, .commit 0, .begin]).mgr 1)
      ((delete_tuple (run_ops init_state [.begin, .insert 0 5 true, .commit 0, .begin]).mgr
        (run_ops init_state [.begin, .insert 0 5 true, .commit 0, .begin]).tbl
        (tx_at (run_ops init_state [.begin, .insert 0 5 true, .commit 0, .begin]).mgr 1)
        0).2.tuples.getD (0 : Int).toNat []) = none :=
  (own_delete_hides_row (run_ops init_state [.begin, .insert 0 5 true, .commit 0, .begin])
    1 0 ⟨[.begin, .insert 0 5 true, .commit 0, .begin], by decide, rfl⟩ (by decide)
    (by decide)).2.2.1

/-- Claim C10, evaluated on the code. After begin T1; insert(T1, 7); abort T1; begin T2,
`select_all` for T2 yields the row T1 inserted: the version created by the aborted T1 is
visible to T2, because rule 3 asks for the creator's status only when its id is at or
above `snapshot_xmin`. -/
theorem aborted_insert_visible_to_later :
    (tx_at (run_ops init_state [.begin, .insert 0 7 true, .abort 0, .begin]).mgr 0).status
      = TX_ABORTED ∧
    is_tuple_visible (run_ops init_state [.begin, .insert 0 7 true, .abort 0, .begin]).mgr
      (tx_at (run_ops init_state [.begin, .insert 0 7 true, .abort 0, .begin]).mgr 1)
      ⟨1, 0, 7⟩ = true ∧
    select_all (run_ops init_state [.begin, .insert 0 7 true, .abort 0, .begin]).mgr
      (run_ops init_state [.begin, .insert 0 7 true, .abort 0, .begin]).tbl
      (tx_at (run_ops init_state [.begin, .insert 0 7 true, .abort 0, .begin]).mgr 1)
      = [(0, 7)] ∧
    ops_ok init_state [.begin, .insert 0 7 true, .abort 0, .begin] := by
  decide

/-! ## More on the registry: begin, capacity, status lookup -/

theorem begin_eq (m : TransactionManager) (i : Nat) (m' : TransactionManager)
    (h : begin_transaction m = some (i, m')) :
    find_free_slot m.transactions = some i ∧
    m' = { next_xid := (m.next_xid + 1) % 2 ^ 64
           transactions :=
             (m.transactions.set i ⟨m.next_xid, TX_IN_PROGRESS, m.next_xid, m.next_xid⟩).set i
               ⟨m.next_xid, TX_IN_PROGRESS,
                oldest_active m.next_xid
                  (m.transactions.set i
                    ⟨m.next_xid, TX_IN_PROGRESS, m.next_xid, m.next_xid⟩),
                m.next_xid⟩
           active_count := m.active_count + 1 } := by
  unfold begin_transaction at h
  cases hf : find_free_slot m.transactions with
  | none => rw [hf] at h; simp at h
  | some slot =>
    rw [hf] at h
    simp only [Option.some.injEq, Prod.mk.injEq] at h
    obtain ⟨h1, h2⟩ := h
    subst h1
    exact ⟨rfl, h2.symm⟩

theorem begin_none_iff (m : TransactionManager) :
    begin_transaction m = none ↔ find_free_slot m.transactions = none := by
  unfold begin_transaction
  cases hf : find_free_slot m.transactions <;> simp

theorem find_free_slot_none_iff (l : List Transaction) :
    find_free_slot l = none ↔ ∀ t ∈ l, t.xid ≠ INVALID_XID := by
  induction l with
  | nil => simp [find_free_slot]
  | cons t ts ih =>
    unfold find_free_slot
    by_cases ht : t.xid = INVALID_XID
    · rw [if_pos ht]
      simp only [List.mem_cons, forall_eq_or_imp, false_iff, not_and, reduceCtorEq]
      intro h; exact absurd ht h
    · rw [if_neg ht]
      simp only [Option.map_eq_none', ih, List.mem_cons, forall_eq_or_imp]
      exact ⟨fun h => ⟨ht, h⟩, fun h => h.2⟩

/-- For any registry: `begin_transaction` returns `NULL` exactly when every slot holds a
transaction. -/
theorem begin_none_iff_full (m : TransactionManager) :
    begin_transaction m = none ↔ tracked_count m = m.transactions.length := by
  rw [begin_none_iff, find_free_slot_none_iff]
  unfold tracked_count
  rw [List.countP_eq_length]
  simp

theorem count_used_prefix (l : List Transaction) : ∀ n, n ≤ l.length →
    (∀ k, k < n → (l.getD k empty_slot).xid ≠ INVALID_XID) →
    (∀ k, n ≤ k → k < l.length → (l.getD k empty_slot).xid = INVALID_XID) →
    l.countP (fun t => decide (t.xid ≠ INVALID_XID)) = n := by
  induction l with
  | nil => intro n hn _ _; simp at hn; simp [hn]
  | cons a rest ih =>
    intro n hn h1 h2
    cases n with
    | zero =>
      rw [List.countP_eq_zero]
      intro t ht
      obtain ⟨k, hk, hkt⟩ := mem_getD _ _ ht
      have := h2 k (by omega) hk
      rw [hkt] at this
      simp [this]
    | succ n =>
      have ha : a.xid ≠ INVALID_XID := by simpa using h1 0 (by omega)
      rw [List.countP_cons_of_pos _ _ (by simpa using ha)]
      congr 1
      apply ih n (by simpa using hn)
      · intro k hk
        simpa using h1 (k + 1) (by omega)
      · intro k hk1 hk2
        simpa using h2 (k + 1) (by omega) (by simpa using hk2)

/-- Under the registry invariant the tracked transactions are those with ids
`1 .. next_xid - 1`. -/
theorem tracked_count_inv (m : TransactionManager) (hm : MgrInv m) :
    tracked_count m + 1 = m.next_xid := by
  have h100 := MAX_TRANSACTIONS_eq
  have hlen := hm.len
  have hnp := hm.next_pos
  have hnl := hm.next_le
  have : tracked_count m = m.next_xid - 1 := by
    unfold tracked_count
    apply count_used_prefix _ _ (by omega)
    · intro k hk
      have := ((hm.slots k (by omega)).1 (by omega)).1
      unfold tx_at at this
      rw [this]; simp
    · intro k hk1 hk2
      have := ((hm.slots k (by omega)).2 (by omega)).1
      unfold tx_at at this
      exact this
  omega

/-- In a reachable registry `begin_transaction` fails exactly when `MAX_TRANSACTIONS`
transactions are tracked. -/
theorem begin_none_iff_inv (m : TransactionManager) (hm : MgrInv m) :
    begin_transaction m = none ↔ tracked_count m = MAX_TRANSACTIONS := by
  rw [begin_none_iff_full, hm.len]

theorem begins_ok_cons (s : State) (op : Op) (ops : List Op) :
    begins_ok s (op :: ops) =
      (if op = Op.begin ∧ (begin_transaction s.mgr).isSome then 1 else 0) +
        begins_ok (apply_op s op) ops := rfl

theorem next_xid_step (s : State) (hs : Inv s) (op : Op) :
    (apply_op s op).mgr.next_xid =
      s.mgr.next_xid + (if op = Op.begin ∧ (begin_transaction s.mgr).isSome then 1 else 0) := by
  cases op with
  | begin =>
    cases hb : begin_transaction s.mgr with
    | none =>
      have : apply_op s Op.begin = s := by unfold apply_op; rw [hb]
      rw [this]; simp
    | some p =>
      obtain ⟨i, m'⟩ := p
      have h3 := (begin_spec s.mgr hs.1 i m' hb).2.2.1
      have : (apply_op s Op.begin).mgr = m' := by unfold apply_op; rw [hb]
      rw [this, h3]
      simp
  | commit tx =>
    have : (apply_op s (Op.commit tx)).mgr.next_xid = s.mgr.next_xid :=
      (finish_spec TX_COMMITTED s.mgr tx).1
    rw [this]; simp
  | abort tx =>
    have : (apply_op s (Op.abort tx)).mgr.next_xid = s.mgr.next_xid :=
      (finish_spec TX_ABORTED s.mgr tx).1
    rw [this]; simp
  | insert tx d ok => simp [apply_op]
  | delete tx idx => simp [apply_op]
  | update tx idx d ok => simp [apply_op]

theorem next_xid_run (ops : List Op) : ∀ s : State, Inv s → ops_ok s ops →
    (run_ops s ops).mgr.next_xid = s.mgr.next_xid + begins_ok s ops := by
  induction ops with
  | nil => intro s _ _; rfl
  | cons op ops ih =>
    intro s hs hok
    have hstep := (inv_step s hs op hok.1).1
    have hrec := ih (apply_op s op) hstep hok.2
    show (run_ops (apply_op s op) ops).mgr.next_xid = _
    rw [hrec, begins_ok_cons, next_xid_step s hs op]
    omega

theorem lookup_status_absent (x : Nat) (l : List Transaction)
    (h : ∀ t ∈ l, t.xid = x → t.status = TX_ABORTED) :
    lookup_status x l = TX_ABORTED := by
  induction l with
  | nil => rfl
  | cons t ts ih =>
    unfold lookup_status
    by_cases ht : t.xid = x
    · rw [if_pos ht]; exact h t (by simp) ht
    · rw [if_neg ht]
      exact ih (fun u hu => h u (List.mem_cons_of_mem _ hu))

/-- In a reachable registry an id that no tracked transaction has is reported
`TX_ABORTED`. -/
theorem status_of_untracked (m : TransactionManager) (hm : MgrInv m) (x : Nat)
    (h : x = INVALID_XID ∨ m.next_xid ≤ x) :
    get_transaction_status m x = TX_ABORTED := by
  have h100 := MAX_TRANSACTIONS_eq
  have hlen := hm.len
  unfold get_transaction_status
  apply lookup_status_absent
  intro t ht htx
  obtain ⟨k, hk, hkt⟩ := mem_getD _ _ ht
  have hs := hm.slots k (by omega)
  unfold tx_at at hs
  rw [hkt] at hs
  by_cases hused : k + 1 < m.next_xid
  · have := (hs.1 hused).1
    rcases h with h | h
    · rw [h, INVALID_XID_eq] at htx; omega
    · omega
  · exact (hs.2 (by omega)).2

theorem lookup_status_congr (x : Nat) (l l' : List Transaction)
    (hlen : l'.length = l.length)
    (h : ∀ k, (l'.getD k empty_slot).xid = (l.getD k empty_slot).xid ∧
      ((l.getD k empty_slot).xid = x →
        (l'.getD k empty_slot).status = (l.getD k empty_slot).status)) :
    lookup_status x l' = lookup_status x l := by
  induction l generalizing l' with
  | nil =>
    have : l' = [] := List.length_eq_zero.1 (by simpa using hlen)
    rw [this]
  | cons t ts ih =>
    cases l' with
    | nil => simp at hlen
    | cons t' ts' =>
      have h0 := h 0
      simp only [List.getD_cons_zero] at h0
      unfold lookup_status
      rw [h0.1]
      by_cases ht : t.xid = x
      · rw [if_pos ht, if_pos ht]; exact h0.2 ht
      · rw [if_neg ht, if_neg ht]
        apply ih ts' (by simpa using hlen)
        intro k
        simpa using h (k + 1)

/-- Visibility for a transaction does not depend on that transaction's own registry
status: the status is looked up only for ids other than the caller's. -/
theorem visible_congr (m m' : TransactionManager) (tx tx' : Transaction) (v : Tuple)
    (h1 : tx'.xid = tx.xid) (h2 : tx'.snapshot_xmin = tx.snapshot_xmin)
    (h3 : tx'.snapshot_xmax = tx.snapshot_xmax)
    (h4 : ∀ y, y ≠ tx.xid → get_transaction_status m' y = get_transaction_status m y) :
    is_tuple_visible m' tx' v = is_tuple_visible m tx v := by
  unfold is_tuple_visible
  simp only [h1, h2, h3]
  by_cases hmin : v.xmin = tx.xid
  · simp [hmin]
  · rw [if_neg hmin, if_neg hmin, h4 v.xmin hmin]
    by_cases hmax : v.xmax = tx.xid
    · simp [hmax]
    · rw [h4 v.xmax hmax]

theorem gvv_congr (m m' : TransactionManager) (tx tx' : Transaction)
    (h : ∀ v, is_tuple_visible m' tx' v = is_tuple_visible m tx v) (chain : List Tuple) :
    get_visible_version m' tx' chain = get_visible_version m tx chain := by
  induction chain with
  | nil => rfl
  | cons c rest ih =>
    unfold get_visible_version
    rw [h c, ih]

theorem begin_attained (m : TransactionManager) (hm : MgrInv m) (i : Nat)
    (m' : TransactionManager) (h : begin_transaction m = some (i, m')) :
    (tx_at m' i).snapshot_xmin = i + 1 ∨
    ∃ k, k + 1 < m.next_xid ∧ (tx_at m k).status = TX_IN_PROGRESS ∧
      (tx_at m' i).snapshot_xmin = k + 1 := by
  have h100 := MAX_TRANSACTIONS_eq
  have hlen := hm.len
  obtain ⟨hf, hm'⟩ := begin_eq m i m' h
  obtain ⟨hi, _, _⟩ := find_free_slot_some _ _ hf
  have hnext := (begin_spec m hm i m' h).1
  have hself : (tx_at m' i).snapshot_xmin = oldest_active m.next_xid
      (m.transactions.set i ⟨m.next_xid, TX_IN_PROGRESS, m.next_xid, m.next_xid⟩) := by
    rw [hm']
    unfold tx_at
    simp only
    rw [getD_set _ _ _ _ _ (by simpa using hi), if_pos rfl]
  rw [hself]
  rcases oldest_active_attained m.next_xid
    (m.transactions.set i ⟨m.next_xid, TX_IN_PROGRESS, m.next_xid, m.next_xid⟩)
    with h1 | ⟨t, ht, h2, h3, h4⟩
  · left; omega
  · rcases List.mem_or_eq_of_mem_set ht with ht | ht
    · obtain ⟨k, hk, hkt⟩ := mem_getD _ _ ht
      have hs := hm.slots k (by omega)
      unfold tx_at at hs
      rw [hkt] at hs
      have hused : k + 1 < m.next_xid := by
        by_contra hc
        exact h2 (hs.2 (by omega)).1
      right
      refine ⟨k, hused, ?_, ?_⟩
      · unfold tx_at; rw [hkt]; exact h3
      · rw [h4, (hs.1 hused).1]
    · left
      rw [h4, ht]
      show m.next_xid = i + 1
      omega

/-! ## Complete case analysis of delete and update -/

/-- The three failure conditions shared by `delete_tuple` and `update_tuple`: the index is
out of range, no version of the row resolves, or the resolved version is already
marked. -/
theorem delete_spec (m : TransactionManager) (t : Table) (tx : Transaction) (idx : Int) :
    ((idx < 0 ∨ idx ≥ t.tuple_count ∨
        get_visible_version m tx (t.tuples.getD idx.toNat []) = none ∨
        ∃ k v, get_visible_version m tx (t.tuples.getD idx.toNat []) = some k ∧
          (t.tuples.getD idx.toNat [])[k]? = some v ∧ v.xmax ≠ INVALID_XID) →
      delete_tuple m t tx idx = (false, t)) ∧
    (¬ (idx < 0 ∨ idx ≥ t.tuple_count ∨
        get_visible_version m tx (t.tuples.getD idx.toNat []) = none ∨
        ∃ k v, get_visible_version m tx (t.tuples.getD idx.toNat []) = some k ∧
          (t.tuples.getD idx.toNat [])[k]? = some v ∧ v.xmax ≠ INVALID_XID) →
      idx.toNat < t.tuples.length ∧
      ∃ k v, get_visible_version m tx (t.tuples.getD idx.toNat []) = some k ∧
        (t.tuples.getD idx.toNat [])[k]? = some v ∧ v.xmax = INVALID_XID ∧
        delete_tuple m t tx idx =
          (true, ⟨t.tuples.set idx.toNat
            ((t.tuples.getD idx.toNat []).set k { v with xmax := tx.xid })⟩)) := by
  unfold delete_tuple Table.tuple_count
  by_cases h1 : idx < 0 ∨ idx ≥ (t.tuples.length : Int)
  · rw [if_pos h1]
    refine ⟨fun _ => rfl, fun hn => ?_⟩
    exfalso; apply hn
    rcases h1 with h | h
    · exact Or.inl h
    · exact Or.inr (Or.inl h)
  · rw [if_neg h1]
    have hlt : idx.toNat < t.tuples.length := by omega
    simp only
    cases hg : get_visible_version m tx (t.tuples.getD idx.toNat []) with
    | none =>
      refine ⟨fun _ => rfl, fun hn => ?_⟩
      exfalso; exact hn (Or.inr (Or.inr (Or.inl rfl)))
    | some k =>
      simp only
      obtain ⟨⟨v, hv, _⟩, _⟩ := (gvv_some_iff m tx _ k).1 hg
      have hvd : (t.tuples.getD idx.toNat []).getD k ⟨0, 0, 0⟩ = v := by
        rw [List.getD_eq_getElem?_getD, hv]; rfl
      rw [hvd]
      by_cases hx : v.xmax ≠ INVALID_XID
      · rw [if_pos hx]
        refine ⟨fun _ => rfl, fun hn => ?_⟩
        exfalso
        exact hn (Or.inr (Or.inr (Or.inr ⟨k, v, rfl, hv, hx⟩)))
      · rw [if_neg hx]
        have hx0 : v.xmax = INVALID_XID := by simpa using hx
        constructor
        · rintro (h | h | h | ⟨k', v', hk', hv', hx'⟩)
          · exact absurd (Or.inl h) h1
          · exact absurd (Or.inr h) h1
          · simp at h
          · have hkk : k = k' := by simpa using hk'
            subst hkk
            rw [hv] at hv'
            have : v = v' := by simpa using hv'
            subst this
            exact absurd hx0 hx'
        · intro _
          refine ⟨hlt, k, v, rfl, hv, hx0, ?_⟩
          simp only [set_xmax, hv]

theorem update_spec (m : TransactionManager) (t : Table) (tx : Transaction) (idx : Int)
    (d : Int) (ok : Bool) :
    (((idx < 0 ∨ idx ≥ t.tuple_count ∨
        get_visible_version m tx (t.tuples.getD idx.toNat []) = none ∨
        ∃ k v, get_visible_version m tx (t.tuples.getD idx.toNat []) = some k ∧
          (t.tuples.getD idx.toNat [])[k]? = some v ∧ v.xmax ≠ INVALID_XID) ∨
        ok = false) →
      update_tuple m t tx idx d ok = (false, t)) ∧
    (¬ ((idx < 0 ∨ idx ≥ t.tuple_count ∨
        get_visible_version m tx (t.tuples.getD idx.toNat []) = none ∨
        ∃ k v, get_visible_version m tx (t.tuples.getD idx.toNat []) = some k ∧
          (t.tuples.getD idx.toNat [])[k]? = some v ∧ v.xmax ≠ INVALID_XID) ∨
        ok = false) →
      idx.toNat < t.tuples.length ∧
      ∃ k v, get_visible_version m tx (t.tuples.getD idx.toNat []) = some k ∧
        (t.tuples.getD idx.toNat [])[k]? = some v ∧ v.xmax = INVALID_XID ∧
        update_tuple m t tx idx d ok =
          (true, ⟨t.tuples.set idx.toNat
            (⟨tx.xid, INVALID_XID, d⟩ ::
              (t.tuples.getD idx.toNat []).set k { v with xmax := tx.xid })⟩)) := by
  unfold update_tuple Table.tuple_count
  by_cases h1 : idx < 0 ∨ idx ≥ (t.tuples.length : Int)
  · rw [if_pos h1]
    refine ⟨fun _ => rfl, fun hn => ?_⟩
    exfalso; apply hn
    rcases h1 with h | h
    · exact Or.inl (Or.inl h)
    · exact Or.inl (Or.inr (Or.inl h))
  · rw [if_neg h1]
    have hlt : idx.toNat < t.tuples.length := by omega
    simp only
    cases hg : get_visible_version m tx (t.tuples.getD idx.toNat []) with
    | none =>
      refine ⟨fun _ => rfl, fun hn => ?_⟩
      exfalso; exact hn (Or.inl (Or.inr (Or.inr (Or.inl rfl))))
    | some k =>
      simp only
      obtain ⟨⟨v, hv, _⟩, _⟩ := (gvv_some_iff m tx _ k).1 hg
      have hvd : (t.tuples.getD idx.toNat []).getD k ⟨0, 0, 0⟩ = v := by
        rw [List.getD_eq_getElem?_getD, hv]; rfl
      rw [hvd]
      by_cases hx : v.xmax ≠ INVALID_XID
      · rw [if_pos hx]
        refine ⟨fun _ => rfl, fun hn => ?_⟩
        exfalso
        exact hn (Or.inl (Or.inr (Or.inr (Or.inr ⟨k, v, rfl, hv, hx⟩))))
      · rw [if_neg hx]
        have hx0 : v.xmax = INVALID_XID := by simpa using hx
        cases ok with
        | false =>
          refine ⟨fun _ => by simp, fun hn => ?_⟩
          exfalso; exact hn (Or.inr rfl)
        | true =>
          constructor
          · rintro ((h | h | h | ⟨k', v', hk', hv', hx'⟩) | h)
            · exact absurd (Or.inl h) h1
            · exact absurd (Or.inr h) h1
            · simp at h
            · have hkk : k = k' := by simpa using hk'
              subst hkk
              rw [hv] at hv'
              have : v = v' := by simpa using hv'
              subst this
              exact absurd hx0 hx'
            · simp at h
          · intro _
            refine ⟨hlt, k, v, rfl, hv, hx0, ?_⟩
            simp only [set_xmax, hv, not_true_eq_false, if_false]

/-! ## The caller's own status is never read -/

theorem status_after_finish (st : TransactionStatus) (m : TransactionManager) (i : Nat)
    (y : Nat) (hy : y ≠ (tx_at m i).xid) :
    get_transaction_status (finish_transaction st m (some i)) y =
      get_transaction_status m y := by
  obtain ⟨_, h2, h3⟩ := finish_spec st m i
  unfold get_transaction_status
  apply lookup_status_congr _ _ _ h2
  intro k
  obtain ⟨a1, _, _, a4⟩ := h3 k
  unfold tx_at at a1 a4 hy
  refine ⟨a1, fun hk => ?_⟩
  rcases a4 with a4 | ⟨hki, _, _⟩
  · exact a4
  · subst hki
    exact absurd hk.symm hy

theorem visible_after_finish (st : TransactionStatus) (m : TransactionManager) (i : Nat)
    (v : Tuple) :
    is_tuple_visible (finish_transaction st m (some i))
      (tx_at (finish_transaction st m (some i)) i) v =
    is_tuple_visible m (tx_at m i) v := by
  obtain ⟨a1, a2, a3, _⟩ := (finish_spec st m i).2.2 i
  exact visible_congr m _ _ _ v a1 a2 a3 (fun y hy => status_after_finish st m i y hy)

/-- After `commit_transaction` or `abort_transaction` of the transaction in slot `i`, the
three row operations called with that transaction return what they returned before. -/
theorem row_ops_after_finish (st : TransactionStatus) (m : TransactionManager) (i : Nat)
    (t : Table) (idx d : Int) (ok : Bool) :
    insert_tuple t (tx_at (finish_transaction st m (some i)) i) d ok =
      insert_tuple t (tx_at m i) d ok ∧
    delete_tuple (finish_transaction st m (some i)) t
        (tx_at (finish_transaction st m (some i)) i) idx =
      delete_tuple m t (tx_at m i) idx ∧
    update_tuple (finish_transaction st m (some i)) t
        (tx_at (finish_transaction st m (some i)) i) idx d ok =
      update_tuple m t (tx_at m i) idx d ok := by
  have hx : (tx_at (finish_transaction st m (some i)) i).xid = (tx_at m i).xid :=
    ((finish_spec st m i).2.2 i).1
  have hg : ∀ chain, get_visible_version (finish_transaction st m (some i))
      (tx_at (finish_transaction st m (some i)) i) chain =
      get_visible_version m (tx_at m i) chain :=
    gvv_congr m _ _ _ (fun v => visible_after_finish st m i v)
  refine ⟨?_, ?_, ?_⟩
  · unfold insert_tuple; rw [hx]
  · unfold delete_tuple; simp only [hg, hx]
  · unfold update_tuple; simp only [hg, hx]

/-! ## Commit and abort, exactly -/

theorem finish_eq (st : TransactionStatus) (m : TransactionManager) (i : Nat)
    (t : Transaction) (h : m.transactions[i]? = some t) :
    finish_transaction st m (some i) =
      if t.status = TX_IN_PROGRESS then
        { m with
          transactions := m.transactions.set i { t with status := st }
          active_count := m.active_count - 1 }
      else m := by
  unfold finish_transaction
  simp only [h]

theorem handle_get (m : TransactionManager) (i : Nat) (hi : i < m.transactions.length) :
    m.transactions[i]? = some (tx_at m i) := by
  unfold tx_at
  rw [List.getD_eq_getElem?_getD, List.getElem?_eq_getElem hi]
  rfl

theorem finish_twice (st st' : TransactionStatus) (hst : st ≠ TX_IN_PROGRESS)
    (m : TransactionManager) (i : Nat) :
    finish_transaction st' (finish_transaction st m (some i)) (some i) =
      finish_transaction st m (some i) := by
  cases hg : m.transactions[i]? with
  | none =>
    have : finish_transaction st m (some i) = m := by
      unfold finish_transaction; simp only [hg]
    rw [this]
    unfold finish_transaction; simp only [hg]
  | some t =>
    have hi : i < m.transactions.length := by
      by_contra hc
      rw [List.getElem?_eq_none (by omega)] at hg
      simp at hg
    rw [finish_eq st m i t hg]
    by_cases hip : t.status = TX_IN_PROGRESS
    · rw [if_pos hip]
      rw [finish_eq st' _ i { t with status := st }
        (by simp only; rw [List.getElem?_set_self hi])]
      rw [if_neg (by simpa using hst)]
    · rw [if_neg hip, finish_eq st' m i t hg, if_neg hip]

theorem tracked_count_finish (st : TransactionStatus) (m : TransactionManager)
    (tx : Option Nat) :
    tracked_count (finish_transaction st m tx) = tracked_count m := by
  cases tx with
  | none => rfl
  | some i =>
    cases hg : m.transactions[i]? with
    | none =>
      have : finish_transaction st m (some i) = m := by
        unfold finish_transaction; simp only [hg]
      rw [this]
    | some t =>
      rw [finish_eq st m i t hg]
      by_cases hip : t.status = TX_IN_PROGRESS
      · rw [if_pos hip]
        unfold tracked_count
        simp only
        rw [List.set_eq_take_append_cons_drop]
        have hi : i < m.transactions.length := by
          by_contra hc
          rw [List.getElem?_eq_none (by omega)] at hg
          simp at hg
        rw [if_pos hi]
        conv_rhs => rw [← List.take_append_drop i m.transactions]
        rw [List.countP_append, List.countP_append]
        congr 1
        rw [List.drop_eq_getElem_cons hi]
        have : m.transactions[i] = t := by
          rw [List.getElem?_eq_getElem hi] at hg
          simpa using hg
        rw [this, List.countP_cons, List.countP_cons]
      · rw [if_neg hip]

/-! ## Claims C11 to C20 -/

/-- Claim C11, evaluated on the code. After commit T1 with row 9; begin T2;
delete(T2, row 0); abort T2; begin T3, the version is marked by T2, whose status is
`TX_ABORTED`, yet `is_tuple_visible` for T3 falls through to the final rule and returns
false, and `select_all` for T3 yields no row: rule 7 asks for the deleter's status only
when its id is at or above `snapshot_xmin`. -/
theorem aborted_delete_hides_row :
    (run_ops init_state
      [.begin, .insert 0 9 true, .commit 0, .begin, .delete 1 0, .abort 1, .begin]).tbl
      = ⟨[[⟨1, 2, 9⟩]]⟩ ∧
    get_transaction_status (run_ops init_state
      [.begin, .insert 0 9 true, .commit 0, .begin, .delete 1 0, .abort 1, .begin]).mgr 2
      = TX_ABORTED ∧
    is_tuple_visible (run_ops init_state
      [.begin, .insert 0 9 true, .commit 0, .begin, .delete 1 0, .abort 1, .begin]).mgr
      (tx_at (run_ops init_state
        [.begin, .insert 0 9 true, .commit 0, .begin, .delete 1 0, .abort 1, .begin]).mgr 2)
      ⟨1, 2, 9⟩ = false ∧
    select_all (run_ops init_state
      [.begin, .insert 0 9 true, .commit 0, .begin, .delete 1 0, .abort 1, .begin]).mgr
      (run_ops init_state
        [.begin, .insert 0 9 true, .commit 0, .begin, .delete 1 0, .abort 1, .begin]).tbl
      (tx_at (run_ops init_state
        [.begin, .insert 0 9 true, .commit 0, .begin, .delete 1 0, .abort 1, .begin]).mgr 2)
      = [] ∧
    ops_ok init_state
      [.begin, .insert 0 9 true, .commit 0, .begin, .delete 1 0, .abort 1, .begin] := by
  decide

/-- Claim C12. Let `s` be reached from the initial state by the calls `ops`, and let
`begin_transaction` succeed in `s`, returning slot `j`. The new transaction's id is one
more than the number of earlier successful begins (so the k-th gets id k), is not the
invalid id and exceeds the id of every tracked transaction; its status is in progress,
`snapshot_xmax` is its id, `snapshot_xmin` is the least id among the transactions in
progress in `s` and its own id (its own id if none is in progress); the active count
grows by one, the slot was free, and no other slot changes. -/
theorem begin_returns_kth (ops : List Op) (s : State) (j : Nat) (m' : TransactionManager)
    (hok : ops_ok init_state ops) (hs : run_ops init_state ops = s)
    (hb : begin_transaction s.mgr = some (j, m')) :
    (tx_at m' j).xid = begins_ok init_state ops + 1 ∧
    (tx_at m' j).xid ≠ INVALID_XID ∧
    (∀ i, is_handle s.mgr i → (tx_at s.mgr i).xid < (tx_at m' j).xid) ∧
    (tx_at m' j).status = TX_IN_PROGRESS ∧
    (tx_at m' j).snapshot_xmax = (tx_at m' j).xid ∧
    (tx_at m' j).snapshot_xmin ≤ (tx_at m' j).xid ∧
    (∀ i, is_handle s.mgr i → (tx_at s.mgr i).status = TX_IN_PROGRESS →
      (tx_at m' j).snapshot_xmin ≤ (tx_at s.mgr i).xid) ∧
    ((tx_at m' j).snapshot_xmin = (tx_at m' j).xid ∨
      ∃ i, is_handle s.mgr i ∧ (tx_at s.mgr i).status = TX_IN_PROGRESS ∧
        (tx_at m' j).snapshot_xmin = (tx_at s.mgr i).xid) ∧
    m'.active_count = s.mgr.active_count + 1 ∧
    ¬ is_handle s.mgr j ∧
    m'.transactions.length = s.mgr.transactions.length ∧
    (∀ k, k ≠ j → tx_at m' k = tx_at s.mgr k) := by
  have hinv : Inv s := by
    rw [← hs]; exact (inv_run ops init_state inv_init hok).1
  have hnext : s.mgr.next_xid = 1 + begins_ok init_state ops := by
    rw [← hs, next_xid_run ops init_state inv_init hok]
    rfl
  obtain ⟨b1, _, _, b4, b5, b6, b7, b8, b9, _, b11, b12, _⟩ :=
    begin_spec s.mgr hinv.1 j m' hb
  have hxid : ∀ i, is_handle s.mgr i →
      i + 1 < s.mgr.next_xid ∧ (tx_at s.mgr i).xid = i + 1 := fun i hi =>
    ⟨(handle_tracked s.mgr hinv.1 i hi).1, (handle_tracked s.mgr hinv.1 i hi).2.1⟩
  refine ⟨by omega, by rw [b7]; simp, ?_, b8, by rw [b9, b7], by rw [b7]; exact b11, ?_,
    ?_, b5, ?_, by rw [b4, hinv.1.len], b6⟩
  · intro i hi
    rw [(hxid i hi).2, b7]
    have := (hxid i hi).1
    omega
  · intro i hi hip
    rw [(hxid i hi).2]
    exact b12 i (hxid i hi).1 hip
  · rcases begin_attained s.mgr hinv.1 j m' hb with h | ⟨k, hk, hip, h⟩
    · left; rw [h, b7]
    · right
      have hh := tracked_handle s.mgr hinv.1 k hk
      exact ⟨k, hh, hip, by rw [h, (hxid k hh).2]⟩
  · intro hh
    have := (hxid j hh).1
    omega

theorem begin_returns_kth_witness :
    (tx_at (run_ops init_state [.begin, .begin, .commit 0, .begin]).mgr 2).xid = 3 ∧
    (tx_at (run_ops init_state [.begin, .begin, .commit 0, .begin]).mgr 2).snapshot_xmin
      = 2 :=
  ⟨(begin_returns_kth [.begin, .begin, .commit 0]
      (run_ops init_state [.begin, .begin, .commit 0]) 2
      (run_ops init_state [.begin, .begin, .commit 0, .begin]).mgr
      (by decide) rfl (by rfl)).1, by decide⟩

/-- Claim C13. In a state reached from the initial state every tracked transaction has
`1 ≤ snapshot_xmin ≤ snapshot_xmax = xid`, and in every state reached later it is still
tracked in the same slot with the same `xid`, `snapshot_xmin` and `snapshot_xmax`. -/
theorem snapshot_bounds_fixed (s s' : State) (i : Nat) (h0 : Reach init_state s)
    (hi : is_handle s.mgr i) (h1 : Reach s s') :
    1 ≤ (tx_at s.mgr i).snapshot_xmin ∧
    (tx_at s.mgr i).snapshot_xmin ≤ (tx_at s.mgr i).snapshot_xmax ∧
    (tx_at s.mgr i).snapshot_xmax = (tx_at s.mgr i).xid ∧
    is_handle s'.mgr i ∧
    (tx_at s'.mgr i).xid = (tx_at s.mgr i).xid ∧
    (tx_at s'.mgr i).snapshot_xmin = (tx_at s.mgr i).snapshot_xmin ∧
    (tx_at s'.mgr i).snapshot_xmax = (tx_at s.mgr i).snapshot_xmax := by
  have hs := (inv_reach init_state s inv_init h0).1
  obtain ⟨hs', he⟩ := inv_reach s s' hs h1
  obtain ⟨a1, a2, a3, a4, a5⟩ := handle_tracked s.mgr hs.1 i hi
  obtain ⟨k1, k2, k3, _⟩ := he.keep i a1
  have hn := he.next_le
  exact ⟨a4, by omega, by rw [a3, a2], tracked_handle s'.mgr hs'.1 i (by omega), k1, k2, k3⟩

theorem snapshot_bounds_fixed_witness :
    (tx_at (run_ops init_state [.begin, .begin, .commit 0, .begin, .abort 1]).mgr 1).snapshot_xmin
      = (tx_at (run_ops init_state [.begin, .begin]).mgr 1).snapshot_xmin :=
  (snapshot_bounds_fixed (run_ops init_state [.begin, .begin])
    (run_ops init_state [.begin, .begin, .commit 0, .begin, .abort 1]) 1
    ⟨[.begin, .begin], by decide, rfl⟩ (by decide)
    ⟨[.commit 0, .begin, .abort 1], by decide, rfl⟩).2.2.2.2.2.1

/-- Claim C14. In a state reached from the initial state, `get_transaction_status x` is
the status of the tracked transaction whose id is `x` when there is one, and
`TX_ABORTED` when no tracked transaction has id `x`; in particular for `INVALID_XID`,
also while free slots (whose `xid` is `INVALID_XID`) exist. -/
theorem status_lookup_correct (s : State) (x : Nat) (h0 : Reach init_state s) :
    (∀ i, is_handle s.mgr i → (tx_at s.mgr i).xid = x →
      get_transaction_status s.mgr x = (tx_at s.mgr i).status) ∧
    ((∀ i, is_handle s.mgr i → (tx_at s.mgr i).xid ≠ x) →
      get_transaction_status s.mgr x = TX_ABORTED) ∧
    get_transaction_status s.mgr INVALID_XID = TX_ABORTED := by
  have hs := (inv_reach init_state s inv_init h0).1
  refine ⟨?_, ?_, status_of_untracked s.mgr hs.1 _ (Or.inl rfl)⟩
  · intro i hi hx
    obtain ⟨a1, a2, _⟩ := handle_tracked s.mgr hs.1 i hi
    rw [a2] at hx
    subst hx
    exact status_of_tracked s.mgr hs.1 (i + 1) (by omega) a1
  · intro hno
    apply status_of_untracked s.mgr hs.1
    by_contra hc
    have hx1 : x ≠ INVALID_XID := fun h => hc (Or.inl h)
    have hx2 : x < s.mgr.next_xid := by
      by_contra h; exact hc (Or.inr (by omega))
    simp only [INVALID_XID_eq] at hx1
    have hh := tracked_handle s.mgr hs.1 (x - 1) (by omega)
    have := (handle_tracked s.mgr hs.1 (x - 1) hh).2.1
    exact hno (x - 1) hh (by omega)

theorem status_lookup_correct_witness :
    get_transaction_status (run_ops init_state [.begin, .begin, .commit 1]).mgr 2
      = TX_COMMITTED :=
  ((status_lookup_correct (run_ops init_state [.begin, .begin, .commit 1]) 2
    ⟨[.begin, .begin, .commit 1], by decide, rfl⟩).1 1 (by decide) (by decide)).trans
    (by decide)

/-- Claim C15. For a tracked transaction in a state reached from the initial state:
if it is in progress, `commit_transaction` (`abort_transaction`) writes `TX_COMMITTED`
(`TX_ABORTED`) into its status, decrements the active count and changes nothing else;
if it is not in progress, or the pointer is `NULL`, the registry is returned unchanged.
A finished transaction keeps its status in every state reached later; commit after
abort leaves it aborted, and a second commit or abort changes nothing. -/
theorem finish_transitions (s s' : State) (i : Nat) (h0 : Reach init_state s)
    (hi : is_handle s.mgr i) (h1 : Reach s s') :
    ((tx_at s.mgr i).status = TX_IN_PROGRESS →
      commit_transaction s.mgr (some i) =
        { s.mgr with
          transactions := s.mgr.transactions.set i
            { tx_at s.mgr i with status := TX_COMMITTED }
          active_count := s.mgr.active_count - 1 } ∧
      abort_transaction s.mgr (some i) =
        { s.mgr with
          transactions := s.mgr.transactions.set i
            { tx_at s.mgr i with status := TX_ABORTED }
          active_count := s.mgr.active_count - 1 } ∧
      (tx_at (commit_transaction s.mgr (some i)) i).status = TX_COMMITTED ∧
      (tx_at (abort_transaction s.mgr (some i)) i).status = TX_ABORTED) ∧
    ((tx_at s.mgr i).status ≠ TX_IN_PROGRESS →
      commit_transaction s.mgr (some i) = s.mgr ∧
      abort_transaction s.mgr (some i) = s.mgr) ∧
    commit_transaction s.mgr none = s.mgr ∧ abort_transaction s.mgr none = s.mgr ∧
    ((tx_at s.mgr i).status ≠ TX_IN_PROGRESS →
      (tx_at s'.mgr i).status = (tx_at s.mgr i).status) ∧
    commit_transaction (abort_transaction s.mgr (some i)) (some i) =
      abort_transaction s.mgr (some i) ∧
    commit_transaction (commit_transaction s.mgr (some i)) (some i) =
      commit_transaction s.mgr (some i) ∧
    abort_transaction (commit_transaction s.mgr (some i)) (some i) =
      commit_transaction s.mgr (some i) := by
  have hs := (inv_reach init_state s inv_init h0).1
  obtain ⟨_, he⟩ := inv_reach s s' hs h1
  obtain ⟨a1, _⟩ := handle_tracked s.mgr hs.1 i hi
  have hget := handle_get s.mgr i hi.1
  refine ⟨?_, ?_, rfl, rfl, (he.keep i a1).2.2.2, ?_, ?_, ?_⟩
  · intro hip
    have hc : commit_transaction s.mgr (some i) = _ :=
      (finish_eq TX_COMMITTED s.mgr i _ hget).trans (if_pos hip)
    have ha : abort_transaction s.mgr (some i) = _ :=
      (finish_eq TX_ABORTED s.mgr i _ hget).trans (if_pos hip)
    refine ⟨hc, ha, ?_, ?_⟩
    · rw [hc]; unfold tx_at; simp only
      rw [getD_set _ _ _ _ _ hi.1, if_pos rfl]
    · rw [ha]; unfold tx_at; simp only
      rw [getD_set _ _ _ _ _ hi.1, if_pos rfl]
  · intro hnip
    exact ⟨(finish_eq TX_COMMITTED s.mgr i _ hget).trans (if_neg hnip),
      (finish_eq TX_ABORTED s.mgr i _ hget).trans (if_neg hnip)⟩
  · exact finish_twice TX_ABORTED TX_COMMITTED (by decide) s.mgr i
  · exact finish_twice TX_COMMITTED TX_COMMITTED (by decide) s.mgr i
  · exact finish_twice TX_COMMITTED TX_ABORTED (by decide) s.mgr i

theorem finish_transitions_witness :
    (tx_at (run_ops init_state [.begin, .abort 0, .begin, .commit 0, .commit 1]).mgr 0).status
      = TX_ABORTED :=
  ((finish_transitions (run_ops init_state [.begin, .abort 0])
    (run_ops init_state [.begin, .abort 0, .begin, .commit 0, .commit 1]) 0
    ⟨[.begin, .abort 0], by decide, rfl⟩ (by decide)
    ⟨[.begin, .commit 0, .commit 1], by decide, rfl⟩).2.2.2.2.1 (by decide)).trans
    (by decide)

/-- Claim C16. Let `s` be reached from the initial state by the calls `ops`.
`begin_transaction` fails in `s` exactly when `MAX_TRANSACTIONS` (100) transactions are
tracked, and then the call leaves the state unchanged. The number of tracked
transactions is the number of successful begins so far and is not changed by commit or
abort, so begin succeeds exactly while fewer than 100 begins have succeeded, whatever
the statuses. -/
theorem begin_capacity (ops : List Op) (s : State) (hok : ops_ok init_state ops)
    (hs : run_ops init_state ops = s) :
    MAX_TRANSACTIONS = 100 ∧
    (begin_transaction s.mgr = none ↔ tracked_count s.mgr = MAX_TRANSACTIONS) ∧
    (begin_transaction s.mgr = none → apply_op s Op.begin = s) ∧
    tracked_count s.mgr = begins_ok init_state ops ∧
    (∀ tx, tracked_count (commit_transaction s.mgr tx) = tracked_count s.mgr ∧
      tracked_count (abort_transaction s.mgr tx) = tracked_count s.mgr) ∧
    ((begin_transaction s.mgr).isSome = true ↔ begins_ok init_state ops < MAX_TRANSACTIONS) ∧
    (begin_transaction s.mgr = none ↔ begins_ok init_state ops = MAX_TRANSACTIONS) := by
  have h100 := MAX_TRANSACTIONS_eq
  have hinv : Inv s := by
    rw [← hs]; exact (inv_run ops init_state inv_init hok).1
  have hnext : s.mgr.next_xid = 1 + begins_ok init_state ops := by
    rw [← hs, next_xid_run ops init_state inv_init hok]
    rfl
  have htc := tracked_count_inv s.mgr hinv.1
  have hcount : tracked_count s.mgr = begins_ok init_state ops := by omega
  have hle := hinv.1.next_le
  have hiff := begin_none_iff_inv s.mgr hinv.1
  refine ⟨rfl, hiff, ?_, hcount, ?_, ?_, ?_⟩
  · intro hb
    unfold apply_op; rw [hb]
  · intro tx
    exact ⟨tracked_count_finish TX_COMMITTED s.mgr tx,
      tracked_count_finish TX_ABORTED s.mgr tx⟩
  · cases hb : begin_transaction s.mgr with
    | none =>
      have := hiff.1 hb
      simp only [Option.isSome_none, Bool.false_eq_true, false_iff]
      omega
    | some p =>
      have hne : ¬ tracked_count s.mgr = MAX_TRANSACTIONS := fun h => by
        have := hiff.2 h
        rw [hb] at this
        simp at this
      simp only [Option.isSome_some, true_iff]
      omega
  · rw [hiff, hcount]

theorem begin_capacity_witness :
    tracked_count (run_ops init_state [.begin, .begin, .commit 0, .begin]).mgr = 3 :=
  (begin_capacity [.begin, .begin, .commit 0, .begin]
    (run_ops init_state [.begin, .begin, .commit 0, .begin]) (by decide) rfl).2.2.2.1.trans
    (by decide)

/-- Claim C17. With the allocation succeeding, `insert_tuple` fails exactly when the table
already holds `MAX_TUPLES` (1000) rows, and then returns the table unchanged (as it does
when the allocation fails). Otherwise it succeeds: the table is the old one with the
one-version chain `(tx.xid, INVALID_XID, p)` appended at index the former row count, the
row count grows by one, every existing row is unchanged, and the registry is not
touched. -/
theorem insert_effect (t : Table) (tx : Transaction) (p : Int) :
    MAX_TUPLES = 1000 ∧
    ((insert_tuple t tx p true).1 = false ↔ t.tuple_count ≥ MAX_TUPLES) ∧
    ((insert_tuple t tx p true).1 = false → (insert_tuple t tx p true).2 = t) ∧
    insert_tuple t tx p false = (false, t) ∧
    ((insert_tuple t tx p true).1 = true →
      (insert_tuple t tx p true).2.tuples = t.tuples ++ [[⟨tx.xid, INVALID_XID, p⟩]] ∧
      (insert_tuple t tx p true).2.tuples[t.tuples.length]? =
        some [⟨tx.xid, INVALID_XID, p⟩] ∧
      (insert_tuple t tx p true).2.tuple_count = t.tuple_count + 1 ∧
      ∀ r, r < t.tuples.length → (insert_tuple t tx p true).2.tuples[r]? = t.tuples[r]?) ∧
    (∀ (s : State) (i : Nat) (ok : Bool), (apply_op s (Op.insert i p ok)).mgr = s.mgr) := by
  have h1000 := MAX_TUPLES_eq
  refine ⟨rfl, ?_, ?_, ?_, ?_, fun _ _ _ => rfl⟩
  · rcases insert_cases t tx p true with ⟨h1, h2⟩ | ⟨h1, h2, _⟩
    · rw [h1]
      rcases h2 with h2 | h2
      · simp only [true_iff]
        unfold Table.tuple_count
        exact_mod_cast h2
      · simp at h2
    · rw [h1]
      simp only [Bool.true_eq_false, false_iff, not_le, ge_iff_le]
      unfold Table.tuple_count
      exact_mod_cast h2
  · intro hf
    rcases insert_cases t tx p true with ⟨h1, _⟩ | ⟨h1, _⟩
    · rw [h1]
    · rw [h1] at hf; simp at hf
  · rcases insert_cases t tx p false with ⟨h1, _⟩ | ⟨_, _, h3⟩
    · exact h1
    · simp at h3
  · intro hsucc
    rcases insert_cases t tx p true with ⟨h1, _⟩ | ⟨h1, _⟩
    · rw [h1] at hsucc; simp at hsucc
    · rw [h1]
      refine ⟨rfl, ?_, ?_, ?_⟩
      · show (t.tuples ++ _)[t.tuples.length]? = _
        rw [List.getElem?_append_right (le_refl _)]
        simp
      · unfold Table.tuple_count
        simp
      · intro r hr
        show (t.tuples ++ _)[r]? = _
        exact List.getElem?_append_left hr

/-- Claim C18. `delete_tuple` fails exactly when the index is negative or at least the row
count, or no version of the row resolves for the transaction, or the resolved version is
already marked; it then returns the table unchanged. Otherwise it succeeds and the new
table differs only in the resolved node, whose `xmax` is now `tx.xid`: the row count,
every other row, the length of the chain, every other node, and the node's `xmin` and
`data` are unchanged. The registry is not touched. -/
theorem delete_effect (m : TransactionManager) (t : Table) (tx : Transaction) (idx : Int) :
    ((delete_tuple m t tx idx).1 = false ↔
      (idx < 0 ∨ idx ≥ t.tuple_count ∨
        get_visible_version m tx (t.tuples.getD idx.toNat []) = none ∨
        ∃ k v, get_visible_version m tx (t.tuples.getD idx.toNat []) = some k ∧
          (t.tuples.getD idx.toNat [])[k]? = some v ∧ v.xmax ≠ INVALID_XID)) ∧
    ((delete_tuple m t tx idx).1 = false → (delete_tuple m t tx idx).2 = t) ∧
    ((delete_tuple m t tx idx).1 = true →
      ∃ k v, get_visible_version m tx (t.tuples.getD idx.toNat []) = some k ∧
        (t.tuples.getD idx.toNat [])[k]? = some v ∧ v.xmax = INVALID_XID ∧
        (delete_tuple m t tx idx).2.tuples =
          t.tuples.set idx.toNat
            ((t.tuples.getD idx.toNat []).set k ⟨v.xmin, tx.xid, v.data⟩) ∧
        (delete_tuple m t tx idx).2.tuple_count = t.tuple_count ∧
        (∀ r, r ≠ idx.toNat → (delete_tuple m t tx idx).2.tuples[r]? = t.tuples[r]?) ∧
        (delete_tuple m t tx idx).2.tuples[idx.toNat]? =
          some ((t.tuples.getD idx.toNat []).set k ⟨v.xmin, tx.xid, v.data⟩) ∧
        ((t.tuples.getD idx.toNat []).set k ⟨v.xmin, tx.xid, v.data⟩).length =
          (t.tuples.getD idx.toNat []).length ∧
        (∀ n, n ≠ k →
          ((t.tuples.getD idx.toNat []).set k ⟨v.xmin, tx.xid, v.data⟩)[n]? =
            (t.tuples.getD idx.toNat [])[n]?) ∧
        ((t.tuples.getD idx.toNat []).set k ⟨v.xmin, tx.xid, v.data⟩)[k]? =
          some ⟨v.xmin, tx.xid, v.data⟩) ∧
    (∀ (s : State) (i : Nat), (apply_op s (Op.delete i idx)).mgr = s.mgr) := by
  obtain ⟨hfail, hsucc⟩ := delete_spec m t tx idx
  refine ⟨?_, ?_, ?_, fun _ _ => rfl⟩
  · constructor
    · intro h
      by_contra hc
      obtain ⟨_, k, v, _, _, _, h6⟩ := hsucc hc
      rw [h6] at h
      simp at h
    · intro h
      rw [hfail h]
  · intro h
    by_cases hc : (idx < 0 ∨ idx ≥ t.tuple_count ∨
        get_visible_version m tx (t.tuples.getD idx.toNat []) = none ∨
        ∃ k v, get_visible_version m tx (t.tuples.getD idx.toNat []) = some k ∧
          (t.tuples.getD idx.toNat [])[k]? = some v ∧ v.xmax ≠ INVALID_XID)
    · rw [hfail hc]
    · obtain ⟨_, k, v, _, _, _, h6⟩ := hsucc hc
      rw [h6] at h
      simp at h
  · intro h
    by_cases hc : (idx < 0 ∨ idx ≥ t.tuple_count ∨
        get_visible_version m tx (t.tuples.getD idx.toNat []) = none ∨
        ∃ k v, get_visible_version m tx (t.tuples.getD idx.toNat []) = some k ∧
          (t.tuples.getD idx.toNat [])[k]? = some v ∧ v.xmax ≠ INVALID_XID)
    · rw [hfail hc] at h
      simp at h
    · obtain ⟨hlt, k, v, h3, h4, h5, h6⟩ := hsucc hc
      have hk : k < (t.tuples.getD idx.toNat []).length := by
        by_contra hcon
        rw [List.getElem?_eq_none (by omega)] at h4
        simp at h4
      refine ⟨k, v, h3, h4, h5, ?_, ?_, ?_, ?_, ?_, ?_, ?_⟩
      · rw [h6]
      · rw [h6]; unfold Table.tuple_count; simp
      · intro r hr
        rw [h6]
        exact List.getElem?_set_ne (Ne.symm hr)
      · rw [h6]
        exact List.getElem?_set_self hlt
      · simp
      · intro n hn
        exact List.getElem?_set_ne (Ne.symm hn)
      · exact List.getElem?_set_self hk

/-- Claim C19, refuted as stated. Right after begin T1 and insert(T1, 100), row 0 is in
range, resolves for T1 to an unmarked version, and `delete_tuple` would succeed; none of
the three conditions holds, yet `update_tuple` fails, leaving the table unchanged, when
the allocation of the new version fails. -/
theorem update_fails_on_allocation :
    ¬ ((0 : Int) < 0 ∨
      (0 : Int) ≥ (run_ops init_state [.begin, .insert 0 100 true]).tbl.tuple_count) ∧
    get_visible_version (run_ops init_state [.begin, .insert 0 100 true]).mgr
      (tx_at (run_ops init_state [.begin, .insert 0 100 true]).mgr 0)
      ((run_ops init_state [.begin, .insert 0 100 true]).tbl.tuples.getD 0 []) = some 0 ∧
    ((run_ops init_state [.begin, .insert 0 100 true]).tbl.tuples.getD 0 [])[0]? =
      some ⟨1, INVALID_XID, 100⟩ ∧
    (delete_tuple (run_ops init_state [.begin, .insert 0 100 true]).mgr
      (run_ops init_state [.begin, .insert 0 100 true]).tbl
      (tx_at (run_ops init_state [.begin, .insert 0 100 true]).mgr 0) 0).1 = true ∧
    update_tuple (run_ops init_state [.begin, .insert 0 100 true]).mgr
      (run_ops init_state [.begin, .insert 0 100 true]).tbl
      (tx_at (run_ops init_state [.begin, .insert 0 100 true]).mgr 0) 0 200 false =
      (false, (run_ops init_state [.begin, .insert 0 100 true]).tbl) := by
  decide

/-- Claim C19, amended. `update_tuple` fails exactly when one of the three failure
conditions of `delete_tuple` holds or the allocation of the new version fails (so, with
the allocation succeeding, exactly when `delete_tuple` fails), and then returns the table
unchanged. On success the row's chain is the new head `(tx.xid, INVALID_XID, d)` followed
by the whole former chain in which only the resolved node changed, its `xmax` now
`tx.xid`: the chain is one node longer, the row count and every other row are unchanged,
and a transaction whose id is not the invalid id then resolves the row to the new head,
with payload `d`. -/
theorem update_effect (m : TransactionManager) (t : Table) (tx : Transaction) (idx : Int)
    (d : Int) (ok : Bool) :
    ((update_tuple m t tx idx d ok).1 = false ↔
      ((idx < 0 ∨ idx ≥ t.tuple_count ∨
        get_visible_version m tx (t.tuples.getD idx.toNat []) = none ∨
        ∃ k v, get_visible_version m tx (t.tuples.getD idx.toNat []) = some k ∧
          (t.tuples.getD idx.toNat [])[k]? = some v ∧ v.xmax ≠ INVALID_XID) ∨
        ok = false)) ∧
    ((update_tuple m t tx idx d true).1 = false ↔ (delete_tuple m t tx idx).1 = false) ∧
    ((update_tuple m t tx idx d ok).1 = false → (update_tuple m t tx idx d ok).2 = t) ∧
    ((update_tuple m t tx idx d ok).1 = true →
      ∃ k v, get_visible_version m tx (t.tuples.getD idx.toNat []) = some k ∧
        (t.tuples.getD idx.toNat [])[k]? = some v ∧ v.xmax = INVALID_XID ∧
        (update_tuple m t tx idx d ok).2.tuples =
          t.tuples.set idx.toNat
            (⟨tx.xid, INVALID_XID, d⟩ ::
              (t.tuples.getD idx.toNat []).set k ⟨v.xmin, tx.xid, v.data⟩) ∧
        (update_tuple m t tx idx d ok).2.tuple_count = t.tuple_count ∧
        (∀ r, r ≠ idx.toNat → (update_tuple m t tx idx d ok).2.tuples[r]? = t.tuples[r]?) ∧
        (update_tuple m t tx idx d ok).2.tuples.getD idx.toNat [] =
          ⟨tx.xid, INVALID_XID, d⟩ ::
            (t.tuples.getD idx.toNat []).set k ⟨v.xmin, tx.xid, v.data⟩ ∧
        ((update_tuple m t tx idx d ok).2.tuples.getD idx.toNat []).length =
          (t.tuples.getD idx.toNat []).length + 1 ∧
        (∀ n, n ≠ k →
          ((t.tuples.getD idx.toNat []).set k ⟨v.xmin, tx.xid, v.data⟩)[n]? =
            (t.tuples.getD idx.toNat [])[n]?) ∧
        ((t.tuples.getD idx.toNat []).set k ⟨v.xmin, tx.xid, v.data⟩)[k]? =
          some ⟨v.xmin, tx.xid, v.data⟩ ∧
        (tx.xid ≠ INVALID_XID →
          get_visible_version m tx
            ((update_tuple m t tx idx d ok).2.tuples.getD idx.toNat []) = some 0 ∧
          (((update_tuple m t tx idx d ok).2.tuples.getD idx.toNat []).getD 0
            ⟨0, 0, 0⟩).data = d)) := by
  obtain ⟨hfail, hsucc⟩ := update_spec m t tx idx d ok
  have hiff : (update_tuple m t tx idx d ok).1 = false ↔
      ((idx < 0 ∨ idx ≥ t.tuple_count ∨
        get_visible_version m tx (t.tuples.getD idx.toNat []) = none ∨
        ∃ k v, get_visible_version m tx (t.tuples.getD idx.toNat []) = some k ∧
          (t.tuples.getD idx.toNat [])[k]? = some v ∧ v.xmax ≠ INVALID_XID) ∨
        ok = false) := by
    constructor
    · intro h
      by_contra hc
      obtain ⟨_, k, v, _, _, _, h6⟩ := hsucc hc
      rw [h6] at h
      simp at h
    · intro h
      rw [hfail h]
  refine ⟨hiff, ?_, ?_, ?_⟩
  · obtain ⟨hfail', hsucc'⟩ := update_spec m t tx idx d true
    obtain ⟨dfail, dsucc⟩ := delete_spec m t tx idx
    constructor
    · intro h
      by_contra hc
      have hnc : ¬ (idx < 0 ∨ idx ≥ t.tuple_count ∨
          get_visible_version m tx (t.tuples.getD idx.toNat []) = none ∨
          ∃ k v, get_visible_version m tx (t.tuples.getD idx.toNat []) = some k ∧
            (t.tuples.getD idx.toNat [])[k]? = some v ∧ v.xmax ≠ INVALID_XID) :=
        fun hcond => hc (by rw [dfail hcond])
      obtain ⟨_, k, v, _, _, _, h6⟩ := hsucc' (by
        rintro (h' | h')
        · exact hnc h'
        · simp at h')
      rw [h6] at h
      simp at h
    · intro h
      by_contra hc
      have hnc : ¬ (idx < 0 ∨ idx ≥ t.tuple_count ∨
          get_visible_version m tx (t.tuples.getD idx.toNat []) = none ∨
          ∃ k v, get_visible_version m tx (t.tuples.getD idx.toNat []) = some k ∧
            (t.tuples.getD idx.toNat [])[k]? = some v ∧ v.xmax ≠ INVALID_XID) :=
        fun hcond => hc (by rw [hfail' (Or.inl hcond)])
      obtain ⟨_, k, v, _, _, _, h6⟩ := dsucc hnc
      rw [h6] at h
      simp at h
  · intro h
    rw [hfail (hiff.1 h)]
  · intro h
    have hc : ¬ ((idx < 0 ∨ idx ≥ t.tuple_count ∨
        get_visible_version m tx (t.tuples.getD idx.toNat []) = none ∨
        ∃ k v, get_visible_version m tx (t.tuples.getD idx.toNat []) = some k ∧
          (t.tuples.getD idx.toNat [])[k]? = some v ∧ v.xmax ≠ INVALID_XID) ∨
        ok = false) := by
      intro hcond
      rw [hfail hcond] at h
      simp at h
    obtain ⟨hlt, k, v, h3, h4, h5, h6⟩ := hsucc hc
    have hk : k < (t.tuples.getD idx.toNat []).length := by
      by_contra hcon
      rw [List.getElem?_eq_none (by omega)] at h4
      simp at h4
    have hrow : (update_tuple m t tx idx d ok).2.tuples.getD idx.toNat [] =
        ⟨tx.xid, INVALID_XID, d⟩ ::
          (t.tuples.getD idx.toNat []).set k ⟨v.xmin, tx.xid, v.data⟩ := by
      rw [h6]
      show (t.tuples.set idx.toNat _).getD idx.toNat [] = _
      rw [List.getD_eq_getElem?_getD, List.getElem?_set_self hlt]
      rfl
    refine ⟨k, v, h3, h4, h5, ?_, ?_, ?_, hrow, ?_, ?_, ?_, ?_⟩
    · rw [h6]
    · rw [h6]; unfold Table.tuple_count; simp
    · intro r hr
      rw [h6]
      exact List.getElem?_set_ne (Ne.symm hr)
    · rw [hrow]; simp
    · intro n hn
      exact List.getElem?_set_ne (Ne.symm hn)
    · exact List.getElem?_set_self hk
    · intro hx
      rw [hrow]
      refine ⟨gvv_head m tx _ _ ?_, rfl⟩
      rw [visible_iff]
      exact Or.inl ⟨rfl, fun h => hx h.symm⟩

/-- Claim C20, refuted as stated. After begin T1 and commit T1, `insert_tuple` called
with the committed T1 succeeds and adds a row; after begin T1; insert; abort T1, both
`delete_tuple` and `update_tuple` called with the aborted T1 succeed and change the
table. -/
theorem finished_transaction_can_write :
    (tx_at (run_ops init_state [.begin, .commit 0]).mgr 0).status = TX_COMMITTED ∧
    insert_tuple (run_ops init_state [.begin, .commit 0]).tbl
      (tx_at (run_ops init_state [.begin, .commit 0]).mgr 0) 9 true =
      (true, ⟨[[⟨1, 0, 9⟩]]⟩) ∧
    (run_ops init_state [.begin, .commit 0]).tbl = ⟨[]⟩ ∧
    (tx_at (run_ops init_state [.begin, .insert 0 9 true, .abort 0]).mgr 0).status
      = TX_ABORTED ∧
    delete_tuple (run_ops init_state [.begin, .insert 0 9 true, .abort 0]).mgr
      (run_ops init_state [.begin, .insert 0 9 true, .abort 0]).tbl
      (tx_at (run_ops init_state [.begin, .insert 0 9 true, .abort 0]).mgr 0) 0 =
      (true, ⟨[[⟨1, 1, 9⟩]]⟩) ∧
    update_tuple (run_ops init_state [.begin, .insert 0 9 true, .abort 0]).mgr
      (run_ops init_state [.begin, .insert 0 9 true, .abort 0]).tbl
      (tx_at (run_ops init_state [.begin, .insert 0 9 true, .abort 0]).mgr 0) 0 5 true =
      (true, ⟨[[⟨1, 0, 5⟩, ⟨1, 1, 9⟩]]⟩) := by
  decide

/-- Claim C20, amended. No row operation reads the caller's status: `insert_tuple`,
`delete_tuple` and `update_tuple` give the same result whatever the status field of the
transaction passed, and called with a transaction after its `commit_transaction` or
`abort_transaction` they return exactly what the same call returned before it; insert by
a finished transaction succeeds whenever the table is not full and the allocation
succeeds. -/
theorem row_ops_ignore_status (m : TransactionManager) (t : Table) (i : Nat)
    (tx : Transaction) (st : TransactionStatus) (idx d : Int) (ok : Bool) :
    (insert_tuple t { tx with status := st } d ok = insert_tuple t tx d ok ∧
      delete_tuple m t { tx with status := st } idx = delete_tuple m t tx idx ∧
      update_tuple m t { tx with status := st } idx d ok = update_tuple m t tx idx d ok) ∧
    (insert_tuple t (tx_at (commit_transaction m (some i)) i) d ok =
        insert_tuple t (tx_at m i) d ok ∧
      delete_tuple (commit_transaction m (some i)) t
          (tx_at (commit_transaction m (some i)) i) idx =
        delete_tuple m t (tx_at m i) idx ∧
      update_tuple (commit_transaction m (some i)) t
          (tx_at (commit_transaction m (some i)) i) idx d ok =
        update_tuple m t (tx_at m i) idx d ok) ∧
    (insert_tuple t (tx_at (abort_transaction m (some i)) i) d ok =
        insert_tuple t (tx_at m i) d ok ∧
      delete_tuple (abort_transaction m (some i)) t
          (tx_at (abort_transaction m (some i)) i) idx =
        delete_tuple m t (tx_at m i) idx ∧
      update_tuple (abort_transaction m (some i)) t
          (tx_at (abort_transaction m (some i)) i) idx d ok =
        update_tuple m t (tx_at m i) idx d ok) ∧
    ((insert_tuple t { tx with status := st } d true).1 = true ↔
      t.tuple_count < MAX_TUPLES) := by
  have hg : ∀ chain, get_visible_version m { tx with status := st } chain =
      get_visible_version m tx chain :=
    gvv_congr m m tx _ (fun v => visible_congr m m tx _ v rfl rfl rfl (fun _ _ => rfl))
  refine ⟨⟨rfl, ?_, ?_⟩, row_ops_after_finish TX_COMMITTED m i t idx d ok,
    row_ops_after_finish TX_ABORTED m i t idx d ok, ?_⟩
  · unfold delete_tuple; simp only [hg]
  · unfold update_tuple; simp only [hg]
  · rcases insert_cases t { tx with status := st } d true with ⟨h1, h2⟩ | ⟨h1, h2, _⟩
    · rw [h1]
      rcases h2 with h2 | h2
      · simp only [Bool.false_eq_true, false_iff, not_lt]
        unfold Table.tuple_count
        exact_mod_cast h2
      · simp at h2
    · rw [h1]
      simp only [true_iff]
      unfold Table.tuple_count
      exact_mod_cast h2

/-! ## The active count -/

theorem countP_set_slot (p : Transaction → Bool) (l : List Transaction) (i : Nat)
    (t a : Transaction) (h : l[i]? = some t) :
    (l.set i a).countP p + (if p t then 1 else 0) =
      l.countP p + (if p a then 1 else 0) := by
  have hi : i < l.length := by
    by_contra hc
    rw [List.getElem?_eq_none (by omega)] at h
    simp at h
  have ht : l[i] = t := by
    rw [List.getElem?_eq_getElem hi] at h
    simpa using h
  rw [List.set_eq_take_append_cons_drop, if_pos hi]
  conv_rhs => rw [← List.take_append_drop i l]
  rw [List.countP_append, List.countP_append, List.drop_eq_getElem_cons hi, ht,
    List.countP_cons, List.countP_cons]
  omega

theorem countP_set_gain (p : Transaction → Bool) (l : List Transaction) (i : Nat)
    (t a : Transaction) (h : l[i]? = some t) (ht : p t = false) (ha : p a = true) :
    (l.set i a).countP p = l.countP p + 1 := by
  have := countP_set_slot p l i t a h
  rw [ht, ha] at this
  simpa using this

theorem countP_set_lose (p : Transaction → Bool) (l : List Transaction) (i : Nat)
    (t a : Transaction) (h : l[i]? = some t) (ht : p t = true) (ha : p a = false) :
    (l.set i a).countP p + 1 = l.countP p := by
  have := countP_set_slot p l i t a h
  rw [ht, ha] at this
  simpa using this

theorem in_progress_count_le (m : TransactionManager) :
    in_progress_count m ≤ m.transactions.length :=
  List.countP_le_length _

theorem active_init :
    (init_transaction_manager tx_manager_static).active_count =
      (in_progress_count (init_transaction_manager tx_manager_static) : Int) := by
  have : in_progress_count (init_transaction_manager tx_manager_static) = 0 := by
    unfold in_progress_count
    rw [List.countP_eq_zero]
    intro t ht
    simp only [init_transaction_manager, List.mem_map] at ht
    obtain ⟨u, _, rfl⟩ := ht
    simp
  rw [this]
  rfl

theorem active_begin (m : TransactionManager) (hm : MgrInv m) (i : Nat)
    (m' : TransactionManager) (h : begin_transaction m = some (i, m'))
    (ha : m.active_count = (in_progress_count m : Int)) :
    m'.active_count = (in_progress_count m' : Int) := by
  obtain ⟨hf, hm'⟩ := begin_eq m i m' h
  obtain ⟨hi, hx0, _⟩ := find_free_slot_some _ _ hf
  have hnp := hm.next_pos
  have hget := handle_get m i hi
  have hx0' : (tx_at m i).xid = INVALID_XID := hx0
  have hcount := countP_set_gain
    (fun t => decide (t.xid ≠ INVALID_XID ∧ t.status = TX_IN_PROGRESS)) m.transactions i
    (tx_at m i) ⟨m.next_xid, TX_IN_PROGRESS,
      oldest_active m.next_xid
        (m.transactions.set i ⟨m.next_xid, TX_IN_PROGRESS, m.next_xid, m.next_xid⟩),
      m.next_xid⟩ hget (by simp [hx0']) (by
        simp only [INVALID_XID_eq, ne_eq, and_true, decide_eq_true_eq]
        omega)
  rw [hm']
  unfold in_progress_count at ha ⊢
  simp only [List.set_set]
  rw [hcount, ha]
  push_cast
  rfl

theorem active_finish (st : TransactionStatus) (hst : st ≠ TX_IN_PROGRESS)
    (m : TransactionManager) (hm : MgrInv m) (i : Nat)
    (ha : m.active_count = (in_progress_count m : Int)) :
    (finish_transaction st m (some i)).active_count =
      (in_progress_count (finish_transaction st m (some i)) : Int) := by
  have h100 := MAX_TRANSACTIONS_eq
  cases hg : m.transactions[i]? with
  | none =>
    have : finish_transaction st m (some i) = m := by
      unfold finish_transaction; simp only [hg]
    rw [this]; exact ha
  | some t =>
    rw [finish_eq st m i t hg]
    by_cases hip : t.status = TX_IN_PROGRESS
    · rw [if_pos hip]
      have hi : i < m.transactions.length := by
        by_contra hc
        rw [List.getElem?_eq_none (by omega)] at hg
        simp at hg
      have hti : tx_at m i = t := by
        have := handle_get m i hi
        rw [hg] at this
        simpa using this.symm
      have hused : t.xid ≠ INVALID_XID := by
        have hs := hm.slots i (by rw [← hm.len]; exact hi)
        rw [hti] at hs
        by_cases hlt : i + 1 < m.next_xid
        · rw [(hs.1 hlt).1]; simp
        · have := (hs.2 (by omega)).2
          rw [hip] at this
          exact absurd this (by decide)
      have hcount := countP_set_lose
        (fun t => decide (t.xid ≠ INVALID_XID ∧ t.status = TX_IN_PROGRESS)) m.transactions
        i t { t with status := st } hg
        (by simp only [INVALID_XID_eq] at hused; simp [hused, hip]) (by simp [hst])
      unfold in_progress_count at ha ⊢
      simp only
      rw [ha]
      omega
    · rw [if_neg hip]; exact ha

theorem active_step (s : State) (hs : Inv s) (op : Op)
    (ha : s.mgr.active_count = (in_progress_count s.mgr : Int)) :
    (apply_op s op).mgr.active_count = (in_progress_count (apply_op s op).mgr : Int) := by
  cases op with
  | begin =>
    unfold apply_op
    cases hb : begin_transaction s.mgr with
    | none => exact ha
    | some p =>
      obtain ⟨i, m'⟩ := p
      exact active_begin s.mgr hs.1 i m' hb ha
  | commit tx => exact active_finish TX_COMMITTED (by decide) s.mgr hs.1 tx ha
  | abort tx => exact active_finish TX_ABORTED (by decide) s.mgr hs.1 tx ha
  | insert tx d ok => exact ha
  | delete tx idx => exact ha
  | update tx idx d ok => exact ha

theorem active_run (ops : List Op) : ∀ s : State, Inv s → ops_ok s ops →
    s.mgr.active_count = (in_progress_count s.mgr : Int) →
    (run_ops s ops).mgr.active_count = (in_progress_count (run_ops s ops).mgr : Int) := by
  induction ops with
  | nil => intro s _ _ ha; exact ha
  | cons op ops ih =>
    intro s hs hok ha
    exact ih (apply_op s op) (inv_step s hs op hok.1).1 hok.2 (active_step s hs op ha)

/-! ## Shape of reachable chains -/

theorem chain_xmin_mono (m : TransactionManager) (chain : List Tuple)
    (hnodes : ∀ v ∈ chain, node_inv m v)
    (hch : List.Chain' (fun newer older : Tuple => older.xmax = newer.xmin) chain) :
    List.Chain' (fun newer older : Tuple => older.xmin ≤ newer.xmin) chain := by
  induction chain with
  | nil => simp
  | cons a rest ih =>
    cases rest with
    | nil => simp
    | cons b rest' =>
      rw [List.chain'_cons] at hch ⊢
      refine ⟨?_, ih (fun w hw => hnodes w (List.mem_cons_of_mem _ hw)) hch.2⟩
      have hb := hnodes b (by simp)
      have ha := hnodes a (by simp)
      have hb0 : b.xmax ≠ INVALID_XID := by
        rw [hch.1]; simp only [INVALID_XID_eq]; have := ha.1; omega
      have := node_le m b hb hb0
      rw [hch.1] at this
      exact this

/-- In a chain satisfying the invariant at most one version is visible to a tracked
transaction. -/
theorem unique_visible (m : TransactionManager) (hm : MgrInv m) (j : Nat)
    (hj : is_handle m j) (chain : List Tuple) :
    (∀ v ∈ chain, node_inv m v) →
    List.Chain' (fun newer older : Tuple => older.xmax = newer.xmin) chain →
    ∀ (a b : Nat) (va vb : Tuple), chain[a]? = some va → chain[b]? = some vb →
      is_tuple_visible m (tx_at m j) va = true →
      is_tuple_visible m (tx_at m j) vb = true → a = b := by
  induction chain with
  | nil => intro _ _ a b va vb ha; simp at ha
  | cons c rest ih =>
    intro hnodes hch
    have hrest_nodes : ∀ w ∈ rest, node_inv m w := fun w hw =>
      hnodes w (List.mem_cons_of_mem _ hw)
    have hrest_ch : List.Chain' (fun newer older : Tuple => older.xmax = newer.xmin) rest := by
      cases rest with
      | nil => simp
      | cons b rest' => exact (List.chain'_cons.1 hch).2
    -- if the head is visible, nothing below it is
    have hbelow : is_tuple_visible m (tx_at m j) c = true →
        ∀ w ∈ rest, is_tuple_visible m (tx_at m j) w = false := by
      intro hvis
      apply chain_hidden m hm j hj rest hrest_nodes hrest_ch
      intro b hb
      cases rest with
      | nil => simp at hb
      | cons b' rest' =>
        have hbb : b' = b := by simpa using hb
        subst hbb
        have hbx : b'.xmax = c.xmin := (List.chain'_cons.1 hch).1
        rw [hbx]
        refine ⟨?_, visible_link m hm j hj c hvis⟩
        simp only [INVALID_XID_eq]
        have := (hnodes c (by simp)).1
        omega
    intro a b va vb ha hb hva hvb
    cases a with
    | zero =>
      cases b with
      | zero => rfl
      | succ b =>
        have hc : c = va := by simpa using ha
        subst hc
        have hmem : vb ∈ rest := List.mem_iff_getElem?.2 ⟨b, by simpa using hb⟩
        rw [hbelow hva vb hmem] at hvb
        exact absurd hvb (by decide)
    | succ a =>
      cases b with
      | zero =>
        have hc : c = vb := by simpa using hb
        subst hc
        have hmem : va ∈ rest := List.mem_iff_getElem?.2 ⟨a, by simpa using ha⟩
        rw [hbelow hvb va hmem] at hva
        exact absurd hva (by decide)
      | succ b =>
        have := ih hrest_nodes hrest_ch a b va vb (by simpa using ha) (by simpa using hb)
          hva hvb
        omega

/-- After a successful `delete_tuple` by the transaction of slot `i`, that transaction
resolves the row to nothing. -/
theorem own_delete_none (s : State) (hs : Inv s) (i : Nat) (hi : is_handle s.mgr i)
    (r : Int) (hdel : (delete_tuple s.mgr s.tbl (tx_at s.mgr i) r).1 = true) :
    get_visible_version s.mgr (tx_at s.mgr i)
      ((delete_tuple s.mgr s.tbl (tx_at s.mgr i) r).2.tuples.getD r.toNat []) = none := by
  obtain ⟨a, rest, _, _, hrowb, hgetD⟩ := delete_success s hs i hi r hdel
  have hsb : Inv ⟨s.mgr, (delete_tuple s.mgr s.tbl (tx_at s.mgr i) r).2⟩ :=
    (inv_step s hs (.delete i r) hi).1
  have hci := hsb.2 _ (List.mem_iff_getElem?.2 ⟨r.toNat, hrowb⟩)
  rw [gvv_none_iff, hgetD]
  apply chain_hidden s.mgr hs.1 i hi _ hci.2.1 hci.2.2
  intro b hb'
  have hbb : b = { a with xmax := i + 1 } := by simpa using hb'.symm
  subst hbb
  exact ⟨by simp, Or.inl rfl⟩

/-! ## How a chain changes along a run -/

theorem same_version_refl (v : Tuple) : same_version v v := ⟨rfl, rfl, fun _ => rfl⟩

theorem same_version_trans {v1 v2 v3 : Tuple} (h12 : same_version v1 v2)
    (h23 : same_version v2 v3) : same_version v1 v3 := by
  refine ⟨h23.1.trans h12.1, h23.2.1.trans h12.2.1, ?_⟩
  intro h
  have h2 := h12.2.2 h
  rw [h23.2.2 (by rw [h2]; exact h), h2]

theorem chain_extends_refl (c0 : List Tuple) : chain_extends c0 c0 :=
  ⟨[], c0, rfl, rfl, fun _ v hv => ⟨v, hv, same_version_refl v⟩⟩

theorem chain_extends_trans {c0 c' c'' : List Tuple} (h1 : chain_extends c0 c')
    (h2 : chain_extends c' c'') : chain_extends c0 c'' := by
  obtain ⟨pre1, c1, hc', hlen1, hv1⟩ := h1
  obtain ⟨pre2, c2, hc'', hlen2, hv2⟩ := h2
  subst hc'
  refine ⟨pre2 ++ c2.take pre1.length, c2.drop pre1.length, ?_, ?_, ?_⟩
  · rw [List.append_assoc, List.take_append_drop]; exact hc''
  · rw [List.length_drop, hlen2, List.length_append]; omega
  · intro n v hv
    obtain ⟨w1, hw1, hs1⟩ := hv1 n v hv
    have hw1' : (pre1 ++ c1)[pre1.length + n]? = some w1 := by
      rw [List.getElem?_append_right (by omega)]
      simpa using hw1
    obtain ⟨w2, hw2, hs2⟩ := hv2 (pre1.length + n) w1 hw1'
    refine ⟨w2, ?_, same_version_trans hs1 hs2⟩
    rw [List.getElem?_drop]
    exact hw2

/-- One call changes the chain of row `r` at most by an `xmax` write on one unmarked
node and a new head; a write is by a successful delete or update of that row. -/
theorem row_step_detail (s : State) (op : Op) (r : Nat) (c0 : List Tuple)
    (hrow : s.tbl.tuples[r]? = some c0) :
    ∃ pre c1 : List Tuple, (apply_op s op).tbl.tuples[r]? = some (pre ++ c1) ∧
      c1.length = c0.length ∧
      (∀ (n : Nat) (v : Tuple), c0[n]? = some v → ∃ v' : Tuple, c1[n]? = some v' ∧
        v'.xmin = v.xmin ∧ v'.data = v.data ∧
        (v'.xmax = v.xmax ∨ (v.xmax = INVALID_XID ∧ marks s op r v'.xmax))) ∧
      ∀ w ∈ pre, ∃ tx, op_tx op = some tx ∧ w.xmin = (tx_at s.mgr tx).xid := by
  have hrlt : r < s.tbl.tuples.length := by
    by_contra hc
    rw [List.getElem?_eq_none (by omega)] at hrow
    simp at hrow
  have hsame : ∀ t' : List (List Tuple), t'[r]? = some c0 →
      ∃ pre c1 : List Tuple, t'[r]? = some (pre ++ c1) ∧ c1.length = c0.length ∧
        (∀ (n : Nat) (v : Tuple), c0[n]? = some v → ∃ v' : Tuple, c1[n]? = some v' ∧
          v'.xmin = v.xmin ∧ v'.data = v.data ∧
          (v'.xmax = v.xmax ∨ (v.xmax = INVALID_XID ∧ marks s op r v'.xmax))) ∧
        ∀ w ∈ pre, ∃ tx, op_tx op = some tx ∧ w.xmin = (tx_at s.mgr tx).xid :=
    fun t' h => ⟨[], c0, by simpa using h, rfl,
      fun n v hv => ⟨v, hv, rfl, rfl, Or.inl rfl⟩, fun w hw => by simp at hw⟩
  -- the marked chain, node by node
  have hset : ∀ (k : Nat) (v0 : Tuple) (x : Nat), c0[k]? = some v0 →
      v0.xmax = INVALID_XID → marks s op r x →
      ∀ (n : Nat) (v : Tuple), c0[n]? = some v → ∃ v' : Tuple, (c0.set k { v0 with xmax := x })[n]? = some v' ∧
        v'.xmin = v.xmin ∧ v'.data = v.data ∧
        (v'.xmax = v.xmax ∨ (v.xmax = INVALID_XID ∧ marks s op r v'.xmax)) := by
    intro k v0 x hk hx0 hmarks n v hv
    have hklt : k < c0.length := by
      by_contra hc
      rw [List.getElem?_eq_none (by omega)] at hk
      simp at hk
    by_cases hnk : n = k
    · subst hnk
      rw [hk] at hv
      have : v0 = v := by simpa using hv
      subst this
      exact ⟨_, List.getElem?_set_self hklt, rfl, rfl, Or.inr ⟨hx0, hmarks⟩⟩
    · exact ⟨v, by rw [List.getElem?_set_ne (Ne.symm hnk)]; exact hv, rfl, rfl, Or.inl rfl⟩
  cases op with
  | begin =>
    unfold apply_op
    cases hb : begin_transaction s.mgr with
    | none => exact hsame _ hrow
    | some p => exact hsame _ hrow
  | commit tx => exact hsame _ hrow
  | abort tx => exact hsame _ hrow
  | insert tx d ok =>
    apply hsame
    show (insert_tuple s.tbl (tx_at s.mgr tx) d ok).2.tuples[r]? = _
    rcases insert_cases s.tbl (tx_at s.mgr tx) d ok with ⟨h1, _⟩ | ⟨h1, _⟩
    · rw [h1]; exact hrow
    · rw [h1]
      show (s.tbl.tuples ++ _)[r]? = _
      rw [List.getElem?_append_left hrlt]
      exact hrow
  | delete tx idx =>
    show ∃ pre c1 : List Tuple, (delete_tuple s.mgr s.tbl (tx_at s.mgr tx) idx).2.tuples[r]? = _ ∧ _
    rcases delete_cases s.mgr s.tbl (tx_at s.mgr tx) idx with
      h1 | ⟨r', chain, k, v0, hidx, h2, h3, h4, h5, h6⟩
    · have := hsame s.tbl.tuples hrow
      rw [h1]; exact this
    · by_cases hrr : r' = r
      · subst hrr
        rw [hrow] at h2
        have hch : chain = c0 := by simpa using h2.symm
        subst hch
        have hmarks : marks s (Op.delete tx idx) r' (tx_at s.mgr tx).xid :=
          Or.inl ⟨tx, idx, rfl, by omega, by rw [h6], rfl⟩
        refine ⟨[], chain.set k { v0 with xmax := (tx_at s.mgr tx).xid }, ?_, by simp,
          hset k v0 _ h4 h5 hmarks, fun w hw => by simp at hw⟩
        rw [h6]
        show (s.tbl.tuples.set r' _)[r']? = _
        rw [List.getElem?_set_self hrlt]
        rfl
      · have : (delete_tuple s.mgr s.tbl (tx_at s.mgr tx) idx).2.tuples[r]? = some c0 := by
          rw [h6]
          show (s.tbl.tuples.set r' _)[r]? = _
          rw [List.getElem?_set_ne hrr]
          exact hrow
        exact hsame _ this
  | update tx idx d ok =>
    show ∃ pre c1 : List Tuple, (update_tuple s.mgr s.tbl (tx_at s.mgr tx) idx d ok).2.tuples[r]? = _ ∧ _
    rcases update_cases s.mgr s.tbl (tx_at s.mgr tx) idx d ok with
      h1 | ⟨r', chain, k, v0, hidx, h2, h3, h4, h5, _, h6⟩
    · have := hsame s.tbl.tuples hrow
      rw [h1]; exact this
    · by_cases hrr : r' = r
      · subst hrr
        rw [hrow] at h2
        have hch : chain = c0 := by simpa using h2.symm
        subst hch
        have hmarks : marks s (Op.update tx idx d ok) r' (tx_at s.mgr tx).xid :=
          Or.inr ⟨tx, idx, d, ok, rfl, by omega, by rw [h6], rfl⟩
        refine ⟨[⟨(tx_at s.mgr tx).xid, INVALID_XID, d⟩],
          chain.set k { v0 with xmax := (tx_at s.mgr tx).xid }, ?_, by simp,
          hset k v0 _ h4 h5 hmarks, ?_⟩
        · rw [h6]
          show (s.tbl.tuples.set r' _)[r']? = _
          rw [List.getElem?_set_self hrlt]
          rfl
        · intro w hw
          have : w = ⟨(tx_at s.mgr tx).xid, INVALID_XID, d⟩ := by simpa using hw
          subst this
          exact ⟨tx, rfl, rfl⟩
      · have : (update_tuple s.mgr s.tbl (tx_at s.mgr tx) idx d ok).2.tuples[r]? =
            some c0 := by
          rw [h6]
          show (s.tbl.tuples.set r' _)[r]? = _
          rw [List.getElem?_set_ne hrr]
          exact hrow
        exact hsame _ this

theorem row_step (s : State) (op : Op) (r : Nat) (c0 : List Tuple)
    (hrow : s.tbl.tuples[r]? = some c0) :
    ∃ c', (apply_op s op).tbl.tuples[r]? = some c' ∧ chain_extends c0 c' := by
  obtain ⟨pre, c1, h1, h2, h3, _⟩ := row_step_detail s op r c0 hrow
  refine ⟨pre ++ c1, h1, pre, c1, rfl, h2, ?_⟩
  intro n v hv
  obtain ⟨v', hv', a1, a2, a3⟩ := h3 n v hv
  refine ⟨v', hv', a1, a2, ?_⟩
  intro hne
  rcases a3 with a3 | ⟨a3, _⟩
  · exact a3
  · exact absurd a3 hne

theorem row_run (ops : List Op) : ∀ (s : State) (r : Nat) (c0 : List Tuple),
    s.tbl.tuples[r]? = some c0 →
    ∃ c', (run_ops s ops).tbl.tuples[r]? = some c' ∧ chain_extends c0 c' := by
  induction ops with
  | nil => intro s r c0 h; exact ⟨c0, h, chain_extends_refl c0⟩
  | cons op ops ih =>
    intro s r c0 h
    obtain ⟨c1, h1, e1⟩ := row_step s op r c0 h
    obtain ⟨c2, h2, e2⟩ := ih (apply_op s op) r c1 h1
    exact ⟨c2, h2, chain_extends_trans e1 e2⟩

theorem marks_valid (s : State) (op : Op) (r x : Nat) (hok : op_ok s op)
    (h : marks s op r x) : x ≠ INVALID_XID := by
  rcases h with ⟨tx, idx, hop, _, _, hx⟩ | ⟨tx, idx, d, ok, hop, _, _, hx⟩
  · subst hop
    rw [hx]
    exact hok.2
  · subst hop
    rw [hx]
    exact hok.2

theorem chain_adjacent (R : Tuple → Tuple → Prop) (l : List Tuple) (h : List.Chain' R l) :
    ∀ (k : Nat) (a b : Tuple), l[k]? = some a → l[k + 1]? = some b → R a b := by
  induction l with
  | nil => intro k a b ha; simp at ha
  | cons x rest ih =>
    intro k a b ha hb
    cases rest with
    | nil => simp at hb
    | cons y rest' =>
      rw [List.chain'_cons] at h
      cases k with
      | zero =>
        have hx : x = a := by simpa using ha
        have hy : y = b := by simpa using hb
        rw [← hx, ← hy]; exact h.1
      | succ k =>
        exact ih h.2 k a b (by simpa using ha) (by simpa using hb)

/-! ## What an earlier transaction sees is not changed by a later one -/

theorem visible_fields (m : TransactionManager) (tx : Transaction) (v v' : Tuple)
    (h1 : v'.xmin = v.xmin) (h2 : v'.xmax = v.xmax) :
    is_tuple_visible m tx v' = is_tuple_visible m tx v := by
  unfold is_tuple_visible
  simp only [h1, h2]

/-- A version created by a transaction with a larger id is not visible. -/
theorem visible_new_false (m : TransactionManager) (tx : Transaction) (v : Tuple)
    (hmax : tx.snapshot_xmax = tx.xid) (hlt : tx.xid < v.xmin) :
    is_tuple_visible m tx v = false := by
  by_contra hc
  have hvis : is_tuple_visible m tx v = true := by simpa using hc
  rcases (visible_iff m tx v).1 hvis with ⟨a, _⟩ | ⟨_, b, _⟩
  · omega
  · omega

/-- Marking an unmarked version with a larger id does not change its visibility. -/
theorem visible_mark_same (m : TransactionManager) (tx : Transaction) (v v' : Tuple)
    (x : Nat) (hmax : tx.snapshot_xmax = tx.xid) (hx0 : tx.xid ≠ INVALID_XID)
    (hlt : tx.xid < x) (h1 : v'.xmin = v.xmin) (h2 : v.xmax = INVALID_XID)
    (h3 : v'.xmax = x) :
    is_tuple_visible m tx v' = is_tuple_visible m tx v := by
  simp only [INVALID_XID_eq] at hx0 h2
  unfold is_tuple_visible
  simp only [h1, h2, h3, INVALID_XID_eq]
  by_cases hmin : v.xmin = tx.xid
  · have hx : ¬ x = tx.xid := by omega
    have h0 : ¬ 0 = tx.xid := by omega
    simp [hmin, hx, h0]
  · have hx : ¬ x = tx.xid := by omega
    have hx' : ¬ x = 0 := by omega
    have hge : x ≥ tx.snapshot_xmax := by omega
    simp [hmin, hx, hx', hge]

theorem visible_congr_low (m m' : TransactionManager) (tx tx' : Transaction) (v : Tuple)
    (h1 : tx'.xid = tx.xid) (h2 : tx'.snapshot_xmin = tx.snapshot_xmin)
    (h3 : tx'.snapshot_xmax = tx.snapshot_xmax)
    (h4 : ∀ y, y < tx.snapshot_xmax →
      get_transaction_status m' y = get_transaction_status m y) :
    is_tuple_visible m' tx' v = is_tuple_visible m tx v := by
  unfold is_tuple_visible
  simp only [h1, h2, h3]
  by_cases hmin : v.xmin = tx.xid
  · simp [hmin]
  · rw [if_neg hmin, if_neg hmin]
    by_cases hge : v.xmin ≥ tx.snapshot_xmax
    · rw [if_pos hge, if_pos hge]
    · rw [if_neg hge, if_neg hge, h4 v.xmin (by omega)]
      by_cases hge' : v.xmax ≥ tx.snapshot_xmax
      · simp [hge']
      · rw [h4 v.xmax (by omega)]

/-- After commit or abort of the transaction in slot `i`, a transaction whose snapshot
ends at or below that transaction's id sees every version as before. -/
theorem visible_after_other_finish (st : TransactionStatus) (m : TransactionManager)
    (i j : Nat) (hle : (tx_at m j).snapshot_xmax ≤ (tx_at m i).xid) (v : Tuple) :
    is_tuple_visible (finish_transaction st m (some i))
      (tx_at (finish_transaction st m (some i)) j) v =
    is_tuple_visible m (tx_at m j) v := by
  obtain ⟨a1, a2, a3, _⟩ := (finish_spec st m i).2.2 j
  exact visible_congr_low m _ _ _ v a1 a2 a3
    (fun y hy => status_after_finish st m i y (by omega))

theorem gvv_cons (m : TransactionManager) (tx : Transaction) (a : Tuple)
    (rest : List Tuple) :
    get_visible_version m tx (a :: rest) =
      if is_tuple_visible m tx a then some 0
      else (get_visible_version m tx rest).map (· + 1) := rfl

theorem resolve_cons (m : TransactionManager) (tx : Transaction) (a : Tuple)
    (rest : List Tuple) :
    resolve_version m tx (a :: rest) =
      if is_tuple_visible m tx a then some a else resolve_version m tx rest := by
  by_cases h : is_tuple_visible m tx a = true
  · have hg : get_visible_version m tx (a :: rest) = some 0 := gvv_head m tx a rest h
    rw [if_pos h]
    simp only [resolve_version, hg]
    simp
  · have hg : get_visible_version m tx (a :: rest) =
        (get_visible_version m tx rest).map (· + 1) := by
      rw [gvv_cons, if_neg h]
    rw [if_neg h]
    simp only [resolve_version, hg]
    cases get_visible_version m tx rest <;> simp

theorem resolve_nil (m : TransactionManager) (tx : Transaction) :
    resolve_version m tx [] = none := rfl

theorem resolve_append_invisible (m : TransactionManager) (tx : Transaction)
    (pre ch : List Tuple) (h : ∀ w ∈ pre, is_tuple_visible m tx w = false) :
    resolve_version m tx (pre ++ ch) = resolve_version m tx ch := by
  induction pre with
  | nil => rfl
  | cons a rest ih =>
    rw [List.cons_append, resolve_cons, h a (by simp)]
    simp only [Bool.false_eq_true, if_false]
    exact ih (fun w hw => h w (List.mem_cons_of_mem _ hw))

/-- Two chains of equal length whose versions agree, position by position, on creator,
payload and visibility resolve to versions with the same creator and payload. -/
theorem resolve_congr (m m' : TransactionManager) (tx tx' : Transaction) :
    ∀ (ch ch' : List Tuple), ch'.length = ch.length →
    (∀ (n : Nat) (v v' : Tuple), ch[n]? = some v → ch'[n]? = some v' →
      v'.xmin = v.xmin ∧ v'.data = v.data ∧
      is_tuple_visible m' tx' v' = is_tuple_visible m tx v) →
    (resolve_version m' tx' ch').map (fun v => (v.xmin, v.data)) =
      (resolve_version m tx ch).map (fun v => (v.xmin, v.data)) := by
  intro ch
  induction ch with
  | nil =>
    intro ch' hlen _
    have : ch' = [] := List.length_eq_zero.1 (by simpa using hlen)
    rw [this]
    rfl
  | cons a rest ih =>
    intro ch' hlen h
    cases ch' with
    | nil => simp at hlen
    | cons a' rest' =>
      obtain ⟨e1, e2, e3⟩ := h 0 a a' (by simp) (by simp)
      rw [resolve_cons, resolve_cons, e3]
      by_cases hv : is_tuple_visible m tx a = true
      · simp [hv, e1, e2]
      · simp only [hv, Bool.false_eq_true, if_false]
        apply ih rest' (by simpa using hlen)
        intro n v v' hn hn'
        exact h (n + 1) v v' (by simpa using hn) (by simpa using hn')

theorem select_from_cons (m : TransactionManager) (tx : Transaction) (i : Nat)
    (ch : List Tuple) (rest : List (List Tuple)) :
    select_from m tx i (ch :: rest) =
      match (resolve_version m tx ch).map (fun v => v.data) with
      | none => select_from m tx (i + 1) rest
      | some p => (i, p) :: select_from m tx (i + 1) rest := by
  have raw : select_from m tx i (ch :: rest) =
      match get_visible_version m tx ch with
      | none => select_from m tx (i + 1) rest
      | some k => (i, (ch.getD k ⟨0, 0, 0⟩).data) :: select_from m tx (i + 1) rest := rfl
  rw [raw]
  cases hg : get_visible_version m tx ch with
  | none =>
    have hr : resolve_version m tx ch = none := by simp only [resolve_version, hg]
    rw [hr]
    rfl
  | some k =>
    obtain ⟨⟨v, hv, _⟩, _⟩ := (gvv_some_iff m tx ch k).1 hg
    have hr : resolve_version m tx ch = some v := by
      simp only [resolve_version, hg]; exact hv
    have hd : ch.getD k ⟨0, 0, 0⟩ = v := by
      rw [List.getD_eq_getElem?_getD, hv]; rfl
    rw [hr]
    simp only [Option.map_some', hd]

theorem select_from_none (m : TransactionManager) (tx : Transaction) :
    ∀ (rows : List (List Tuple)) (i : Nat),
    (∀ ch ∈ rows, (resolve_version m tx ch).map (fun v => v.data) = none) →
    select_from m tx i rows = [] := by
  intro rows
  induction rows with
  | nil => intro i _; rfl
  | cons ch rest ih =>
    intro i h
    rw [select_from_cons, h ch (by simp)]
    exact ih (i + 1) (fun c hc => h c (List.mem_cons_of_mem _ hc))

/-- `select_all` prints the same lines for two tables whose rows, index by index (rows
missing in one table counting as rows without a visible version), resolve to the same
payload. -/
theorem select_from_congr (m m' : TransactionManager) (tx tx' : Transaction) :
    ∀ (rows rows' : List (List Tuple)) (i : Nat),
    (∀ r, (resolve_version m' tx' (rows'.getD r [])).map (fun v => v.data) =
      (resolve_version m tx (rows.getD r [])).map (fun v => v.data)) →
    select_from m' tx' i rows' = select_from m tx i rows := by
  intro rows
  induction rows with
  | nil =>
    intro rows' i h
    rw [select_from_none m' tx' rows' i]
    · rfl
    · intro ch hch
      obtain ⟨r, hr⟩ := List.mem_iff_getElem?.1 hch
      have := h r
      rw [List.getD_eq_getElem?_getD, hr] at this
      simpa [resolve_nil] using this
  | cons ch rest ih =>
    intro rows' i h
    cases rows' with
    | nil =>
      rw [select_from_none m tx (ch :: rest) i]
      · rfl
      · intro c hc
        obtain ⟨r, hr⟩ := List.mem_iff_getElem?.1 hc
        have := h r
        rw [List.getD_eq_getElem?_getD, List.getD_eq_getElem?_getD, hr] at this
        simpa [resolve_nil] using this.symm
    | cons ch' rest' =>
      have h0 := h 0
      simp only [List.getD_cons_zero] at h0
      rw [select_from_cons, select_from_cons, h0]
      have hrec := ih rest' (i + 1) (fun r => by simpa using h (r + 1))
      rw [hrec]

theorem marks_tx (s : State) (op : Op) (r x i : Nat) (hop : op_tx op = some i)
    (h : marks s op r x) : x = (tx_at s.mgr i).xid := by
  rcases h with ⟨tx, idx, e, _, _, hx⟩ | ⟨tx, idx, d, ok, e, _, _, hx⟩
  · subst e
    have : tx = i := by simpa [op_tx] using hop
    rw [hx, this]
  · subst e
    have : tx = i := by simpa [op_tx] using hop
    rw [hx, this]

/-- A row that appears with a call is the one-version chain of an insert. -/
theorem new_rows (s : State) (op : Op) (r : Nat) (ch : List Tuple)
    (hr : s.tbl.tuples.length ≤ r) (h : (apply_op s op).tbl.tuples[r]? = some ch) :
    ∃ tx d, op_tx op = some tx ∧ ch = [⟨(tx_at s.mgr tx).xid, INVALID_XID, d⟩] := by
  have hnone : s.tbl.tuples[r]? = none := List.getElem?_eq_none hr
  cases op with
  | begin =>
    have : (apply_op s Op.begin).tbl = s.tbl := by
      unfold apply_op
      cases hb : begin_transaction s.mgr <;> rfl
    rw [this, hnone] at h
    simp at h
  | commit tx =>
    have h' : s.tbl.tuples[r]? = some ch := h
    rw [hnone] at h'; simp at h'
  | abort tx =>
    have h' : s.tbl.tuples[r]? = some ch := h
    rw [hnone] at h'; simp at h'
  | insert tx d ok =>
    have h' : (insert_tuple s.tbl (tx_at s.mgr tx) d ok).2.tuples[r]? = some ch := h
    rcases insert_cases s.tbl (tx_at s.mgr tx) d ok with ⟨e, _⟩ | ⟨e, _⟩
    · rw [e, hnone] at h'; simp at h'
    · rw [e] at h'
      have h'' : (s.tbl.tuples ++ [[⟨(tx_at s.mgr tx).xid, INVALID_XID, d⟩]])[r]? =
          some ch := h'
      rw [List.getElem?_append_right hr] at h''
      refine ⟨tx, d, rfl, ?_⟩
      cases hk : r - s.tbl.tuples.length with
      | zero =>
        rw [hk] at h''
        simpa using h''.symm
      | succ k =>
        rw [hk] at h''
        simp at h''
  | delete tx idx =>
    have h' : (delete_tuple s.mgr s.tbl (tx_at s.mgr tx) idx).2.tuples[r]? = some ch := h
    rcases delete_cases s.mgr s.tbl (tx_at s.mgr tx) idx with
      e | ⟨r', chain, k, v0, _, _, _, _, _, e6⟩
    · rw [e, hnone] at h'; simp at h'
    · rw [e6] at h'
      have h'' : (s.tbl.tuples.set r'
          (chain.set k { v0 with xmax := (tx_at s.mgr tx).xid }))[r]? = some ch := h'
      rw [List.getElem?_eq_none (by simpa using hr)] at h''
      simp at h''
  | update tx idx d ok =>
    have h' : (update_tuple s.mgr s.tbl (tx_at s.mgr tx) idx d ok).2.tuples[r]? =
        some ch := h
    rcases update_cases s.mgr s.tbl (tx_at s.mgr tx) idx d ok with
      e | ⟨r', chain, k, v0, _, _, _, _, _, _, e6⟩
    · rw [e, hnone] at h'; simp at h'
    · rw [e6] at h'
      have h'' : (s.tbl.tuples.set r'
          (⟨(tx_at s.mgr tx).xid, INVALID_XID, d⟩ ::
            chain.set k { v0 with xmax := (tx_at s.mgr tx).xid }))[r]? = some ch := h'
      rw [List.getElem?_eq_none (by simpa using hr)] at h''
      simp at h''

/-! ## Claims C21 to C28 -/

/-- Claim C21, refuted as stated. With T1 committed after inserting row 0, T2 in progress
after inserting row 1 and marking row 0, and T3 begun then: for T3 index 5 is out of
range, row 1 has no visible version, and row 0 resolves to a version already marked;
`delete_tuple` returns the same result in the three cases, and so does `update_tuple`. -/
theorem failure_outcomes_coincide :
    (5 : Int) ≥ (run_ops init_state [.begin, .insert 0 100 true, .commit 0, .begin,
        .insert 1 200 true, .delete 1 0, .begin]).tbl.tuple_count ∧
    get_visible_version
      (run_ops init_state [.begin, .insert 0 100 true, .commit 0, .begin,
        .insert 1 200 true, .delete 1 0, .begin]).mgr
      (tx_at (run_ops init_state [.begin, .insert 0 100 true, .commit 0, .begin,
        .insert 1 200 true, .delete 1 0, .begin]).mgr 2)
      [⟨2, 0, 200⟩] = none ∧
    get_visible_version
      (run_ops init_state [.begin, .insert 0 100 true, .commit 0, .begin,
        .insert 1 200 true, .delete 1 0, .begin]).mgr
      (tx_at (run_ops init_state [.begin, .insert 0 100 true, .commit 0, .begin,
        .insert 1 200 true, .delete 1 0, .begin]).mgr 2)
      [⟨1, 2, 100⟩] = some 0 ∧
    (run_ops init_state [.begin, .insert 0 100 true, .commit 0, .begin,
      .insert 1 200 true, .delete 1 0, .begin]).tbl = ⟨[[⟨1, 2, 100⟩], [⟨2, 0, 200⟩]]⟩ ∧
    delete_tuple
      (run_ops init_state [.begin, .insert 0 100 true, .commit 0, .begin,
        .insert 1 200 true, .delete 1 0, .begin]).mgr
      ⟨[[⟨1, 2, 100⟩], [⟨2, 0, 200⟩]]⟩
      (tx_at (run_ops init_state [.begin, .insert 0 100 true, .commit 0, .begin,
        .insert 1 200 true, .delete 1 0, .begin]).mgr 2) 5 =
    delete_tuple
      (run_ops init_state [.begin, .insert 0 100 true, .commit 0, .begin,
        .insert 1 200 true, .delete 1 0, .begin]).mgr
      ⟨[[⟨1, 2, 100⟩], [⟨2, 0, 200⟩]]⟩
      (tx_at (run_ops init_state [.begin, .insert 0 100 true, .commit 0, .begin,
        .insert 1 200 true, .delete 1 0, .begin]).mgr 2) 1 ∧
    delete_tuple
      (run_ops init_state [.begin, .insert 0 100 true, .commit 0, .begin,
        .insert 1 200 true, .delete 1 0, .begin]).mgr
      ⟨[[⟨1, 2, 100⟩], [⟨2, 0, 200⟩]]⟩
      (tx_at (run_ops init_state [.begin, .insert 0 100 true, .commit 0, .begin,
        .insert 1 200 true, .delete 1 0, .begin]).mgr 2) 1 =
    delete_tuple
      (run_ops init_state [.begin, .insert 0 100 true, .commit 0, .begin,
        .insert 1 200 true, .delete 1 0, .begin]).mgr
      ⟨[[⟨1, 2, 100⟩], [⟨2, 0, 200⟩]]⟩
      (tx_at (run_ops init_state [.begin, .insert 0 100 true, .commit 0, .begin,
        .insert 1 200 true, .delete 1 0, .begin]).mgr 2) 0 ∧
    update_tuple
      (run_ops init_state [.begin, .insert 0 100 true, .commit 0, .begin,
        .insert 1 200 true, .delete 1 0, .begin]).mgr
      ⟨[[⟨1, 2, 100⟩], [⟨2, 0, 200⟩]]⟩
      (tx_at (run_ops init_state [.begin, .insert 0 100 true, .commit 0, .begin,
        .insert 1 200 true, .delete 1 0, .begin]).mgr 2) 5 7 true =
    update_tuple
      (run_ops init_state [.begin, .insert 0 100 true, .commit 0, .begin,
        .insert 1 200 true, .delete 1 0, .begin]).mgr
      ⟨[[⟨1, 2, 100⟩], [⟨2, 0, 200⟩]]⟩
      (tx_at (run_ops init_state [.begin, .insert 0 100 true, .commit 0, .begin,
        .insert 1 200 true, .delete 1 0, .begin]).mgr 2) 1 7 true ∧
    update_tuple
      (run_ops init_state [.begin, .insert 0 100 true, .commit 0, .begin,
        .insert 1 200 true, .delete 1 0, .begin]).mgr
      ⟨[[⟨1, 2, 100⟩], [⟨2, 0, 200⟩]]⟩
      (tx_at (run_ops init_state [.begin, .insert 0 100 true, .commit 0, .begin,
        .insert 1 200 true, .delete 1 0, .begin]).mgr 2) 1 7 true =
    update_tuple
      (run_ops init_state [.begin, .insert 0 100 true, .commit 0, .begin,
        .insert 1 200 true, .delete 1 0, .begin]).mgr
      ⟨[[⟨1, 2, 100⟩], [⟨2, 0, 200⟩]]⟩
      (tx_at (run_ops init_state [.begin, .insert 0 100 true, .commit 0, .begin,
        .insert 1 200 true, .delete 1 0, .begin]).mgr 2) 0 7 true := by
  decide

/-- Claim C21, amended. The three failure cases of `delete_tuple` and `update_tuple` are
not distinguishable by the result: for an index that is out of range, an index whose row
has no visible version, and an index whose resolved version is already marked, both
functions return `false` together with the unchanged table. -/
theorem failure_outcomes_same (m : TransactionManager) (t : Table) (tx : Transaction)
    (i1 i2 i3 : Int) (d : Int) (ok : Bool)
    (h1 : i1 < 0 ∨ i1 ≥ t.tuple_count)
    (h2 : get_visible_version m tx (t.tuples.getD i2.toNat []) = none)
    (h3 : ∃ k v, get_visible_version m tx (t.tuples.getD i3.toNat []) = some k ∧
      (t.tuples.getD i3.toNat [])[k]? = some v ∧ v.xmax ≠ INVALID_XID) :
    delete_tuple m t tx i1 = (false, t) ∧ delete_tuple m t tx i2 = (false, t) ∧
    delete_tuple m t tx i3 = (false, t) ∧
    update_tuple m t tx i1 d ok = (false, t) ∧ update_tuple m t tx i2 d ok = (false, t) ∧
    update_tuple m t tx i3 d ok = (false, t) := by
  refine ⟨(delete_spec m t tx i1).1 ?_, (delete_spec m t tx i2).1 ?_,
    (delete_spec m t tx i3).1 ?_, (update_spec m t tx i1 d ok).1 (Or.inl ?_),
    (update_spec m t tx i2 d ok).1 (Or.inl ?_), (update_spec m t tx i3 d ok).1 (Or.inl ?_)⟩
  · rcases h1 with h | h
    · exact Or.inl h
    · exact Or.inr (Or.inl h)
  · exact Or.inr (Or.inr (Or.inl h2))
  · exact Or.inr (Or.inr (Or.inr h3))
  · rcases h1 with h | h
    · exact Or.inl h
    · exact Or.inr (Or.inl h)
  · exact Or.inr (Or.inr (Or.inl h2))
  · exact Or.inr (Or.inr (Or.inr h3))

theorem failure_outcomes_same_witness :
    delete_tuple
      (run_ops init_state [.begin, .insert 0 100 true, .commit 0, .begin,
        .insert 1 200 true, .delete 1 0, .begin]).mgr
      ⟨[[⟨1, 2, 100⟩], [⟨2, 0, 200⟩]]⟩
      (tx_at (run_ops init_state [.begin, .insert 0 100 true, .commit 0, .begin,
        .insert 1 200 true, .delete 1 0, .begin]).mgr 2) 0 =
      (false, ⟨[[⟨1, 2, 100⟩], [⟨2, 0, 200⟩]]⟩) :=
  (failure_outcomes_same
    (run_ops init_state [.begin, .insert 0 100 true, .commit 0, .begin,
      .insert 1 200 true, .delete 1 0, .begin]).mgr
    ⟨[[⟨1, 2, 100⟩], [⟨2, 0, 200⟩]]⟩
    (tx_at (run_ops init_state [.begin, .insert 0 100 true, .commit 0, .begin,
      .insert 1 200 true, .delete 1 0, .begin]).mgr 2) 5 1 0 7 true
    (by decide) (by decide) ⟨0, ⟨1, 2, 100⟩, by decide, by decide, by decide⟩).2.2.1

/-- Claim C22, refuted as stated. After begin T1; insert(T1, 5); delete(T1, row 0), the
version T1 marked is the head of row 0 with `xmax` the id of T1, and row 0 resolves for
T1 to nothing: a further delete or update fails at the no-visible-version check, not at
the check of `xmax`. -/
theorem second_delete_sees_nothing :
    (run_ops init_state [.begin, .insert 0 5 true, .delete 0 0]).tbl = ⟨[[⟨1, 1, 5⟩]]⟩ ∧
    get_visible_version (run_ops init_state [.begin, .insert 0 5 true, .delete 0 0]).mgr
      (tx_at (run_ops init_state [.begin, .insert 0 5 true, .delete 0 0]).mgr 0)
      [⟨1, 1, 5⟩] = none ∧
    ¬ (∃ k v, get_visible_version
        (run_ops init_state [.begin, .insert 0 5 true, .delete 0 0]).mgr
        (tx_at (run_ops init_state [.begin, .insert 0 5 true, .delete 0 0]).mgr 0)
        [⟨1, 1, 5⟩] = some k ∧
      ([⟨1, 1, 5⟩] : List Tuple)[k]? = some v ∧ v.xmax ≠ INVALID_XID) := by
  refine ⟨by decide, by decide, ?_⟩
  rintro ⟨k, v, h, _⟩
  have hn : get_visible_version
      (run_ops init_state [.begin, .insert 0 5 true, .delete 0 0]).mgr
      (tx_at (run_ops init_state [.begin, .insert 0 5 true, .delete 0 0]).mgr 0)
      [⟨1, 1, 5⟩] = none := by decide
  rw [hn] at h
  simp at h

/-- Claim C22, amended. In a state reached from the initial state let `delete_tuple` by
the transaction T of slot `i` succeed on row `r`. In the state right after it and in
every state reached later, the head of the row is still the version T marked, the row
resolves for T to no version, and a further `delete_tuple` or `update_tuple` by T on
that row fails, at the no-visible-version check, and returns the table unchanged. -/
theorem second_delete_fails (s s' : State) (i : Nat) (r : Int) (d : Int) (ok : Bool)
    (h0 : Reach init_state s) (hi : is_handle s.mgr i)
    (hdel : (delete_tuple s.mgr s.tbl (tx_at s.mgr i) r).1 = true)
    (h1 : Reach ⟨s.mgr, (delete_tuple s.mgr s.tbl (tx_at s.mgr i) r).2⟩ s') :
    is_handle s'.mgr i ∧
    (∃ a rest, s'.tbl.tuples.getD r.toNat [] = a :: rest ∧
      a.xmax = (tx_at s'.mgr i).xid) ∧
    get_visible_version s'.mgr (tx_at s'.mgr i) (s'.tbl.tuples.getD r.toNat []) = none ∧
    ¬ (∃ k v, get_visible_version s'.mgr (tx_at s'.mgr i)
        (s'.tbl.tuples.getD r.toNat []) = some k ∧
      (s'.tbl.tuples.getD r.toNat [])[k]? = some v ∧ v.xmax ≠ INVALID_XID) ∧
    delete_tuple s'.mgr s'.tbl (tx_at s'.mgr i) r = (false, s'.tbl) ∧
    update_tuple s'.mgr s'.tbl (tx_at s'.mgr i) r d ok = (false, s'.tbl) := by
  have hs := (inv_reach init_state s inv_init h0).1
  obtain ⟨hit, _⟩ := handle_tracked s.mgr hs.1 i hi
  obtain ⟨a, rest, _, _, hrowb, _⟩ := delete_success s hs i hi r hdel
  have hsb : Inv ⟨s.mgr, (delete_tuple s.mgr s.tbl (tx_at s.mgr i) r).2⟩ :=
    (inv_step s hs (.delete i r) hi).1
  have hmark : ({ a with xmax := i + 1 } : Tuple).xmax ≠ INVALID_XID := by simp
  obtain ⟨hs', hext⟩ := inv_reach _ s' hsb h1
  have hrow' := frozen_reach _ s' hsb h1 r.toNat _ rest hrowb hmark
  have hnext : s.mgr.next_xid ≤ s'.mgr.next_xid := hext.next_le
  have hi' : is_handle s'.mgr i := tracked_handle s'.mgr hs'.1 i (by omega)
  obtain ⟨_, hxid', _, _, _⟩ := handle_tracked s'.mgr hs'.1 i hi'
  have hgetD : s'.tbl.tuples.getD r.toNat [] = { a with xmax := i + 1 } :: rest := by
    rw [List.getD_eq_getElem?_getD, hrow']; rfl
  have hci := hs'.2 _ (List.mem_iff_getElem?.2 ⟨r.toNat, hrow'⟩)
  have hnone : get_visible_version s'.mgr (tx_at s'.mgr i)
      (s'.tbl.tuples.getD r.toNat []) = none := by
    rw [gvv_none_iff, hgetD]
    apply chain_hidden s'.mgr hs'.1 i hi' _ hci.2.1 hci.2.2
    intro b hb'
    have hbb : b = { a with xmax := i + 1 } := by simpa using hb'.symm
    subst hbb
    exact ⟨hmark, Or.inl rfl⟩
  refine ⟨hi', ⟨_, rest, hgetD, by rw [hxid']⟩, hnone, ?_,
    (delete_spec _ _ _ r).1 (Or.inr (Or.inr (Or.inl hnone))),
    (update_spec _ _ _ r d ok).1 (Or.inl (Or.inr (Or.inr (Or.inl hnone))))⟩
  rintro ⟨k, v, hk, _⟩
  rw [hnone] at hk
  simp at hk

theorem second_delete_fails_witness :
    delete_tuple
      (run_ops init_state [.begin, .insert 0 5 true, .delete 0 0, .begin, .commit 1,
        .insert 0 6 true]).mgr
      (run_ops init_state [.begin, .insert 0 5 true, .delete 0 0, .begin, .commit 1,
        .insert 0 6 true]).tbl
      (tx_at (run_ops init_state [.begin, .insert 0 5 true, .delete 0 0, .begin, .commit 1,
        .insert 0 6 true]).mgr 0) 0 =
      (false, ⟨[[⟨1, 1, 5⟩], [⟨1, 0, 6⟩]]⟩) :=
  ((second_delete_fails (run_ops init_state [.begin, .insert 0 5 true])
    (run_ops init_state [.begin, .insert 0 5 true, .delete 0 0, .begin, .commit 1,
      .insert 0 6 true]) 0 0 7 true
    ⟨[.begin, .insert 0 5 true], by decide, rfl⟩ (by decide) (by decide)
    ⟨[.begin, .commit 1, .insert 0 6 true], by decide, rfl⟩).2.2.2.2.1).trans (by decide)

/-- Claim C23. In a state reached from the initial state, for every tracked transaction
and every row, at most one version of the row's chain is visible to the transaction, so
the version `get_visible_version` returns is the only visible one. -/
theorem at_most_one_visible (s : State) (j r : Nat) (chain : List Tuple)
    (h0 : Reach init_state s) (hj : is_handle s.mgr j)
    (hrow : s.tbl.tuples[r]? = some chain) :
    (∀ (a b : Nat) (va vb : Tuple), chain[a]? = some va → chain[b]? = some vb →
      is_tuple_visible s.mgr (tx_at s.mgr j) va = true →
      is_tuple_visible s.mgr (tx_at s.mgr j) vb = true → a = b) ∧
    (∀ (k n : Nat) (v : Tuple), get_visible_version s.mgr (tx_at s.mgr j) chain = some k →
      chain[n]? = some v → is_tuple_visible s.mgr (tx_at s.mgr j) v = true → n = k) := by
  have hs := (inv_reach init_state s inv_init h0).1
  have hc := hs.2 chain (List.mem_iff_getElem?.2 ⟨r, hrow⟩)
  have huniq := unique_visible s.mgr hs.1 j hj chain hc.2.1 hc.2.2
  refine ⟨huniq, ?_⟩
  intro k n v hg hn hv
  obtain ⟨⟨w, hw, hwv⟩, _⟩ := (gvv_some_iff _ _ chain k).1 hg
  exact huniq n k v w hn hw hv hwv

theorem at_most_one_visible_witness :
    is_tuple_visible
      (run_ops init_state [.begin, .insert 0 100 true, .commit 0, .begin,
        .update 1 0 200 true, .begin, .commit 1]).mgr
      (tx_at (run_ops init_state [.begin, .insert 0 100 true, .commit 0, .begin,
        .update 1 0 200 true, .begin, .commit 1]).mgr 2) ⟨1, 2, 100⟩ = false :=
  Bool.eq_false_iff.2 (fun h => absurd
    ((at_most_one_visible
      (run_ops init_state [.begin, .insert 0 100 true, .commit 0, .begin,
        .update 1 0 200 true, .begin, .commit 1]) 2 0 [⟨2, 0, 200⟩, ⟨1, 2, 100⟩]
      ⟨[.begin, .insert 0 100 true, .commit 0, .begin, .update 1 0 200 true, .begin,
        .commit 1], by decide, rfl⟩ (by decide) (by decide)).1 0 1 ⟨2, 0, 200⟩ ⟨1, 2, 100⟩
      rfl rfl (by decide) h) (by decide))

/-- Claim C24. Let row `r` hold chain `c0` in state `s`. After one call the row's chain
is at most one new head followed by the versions of `c0` in the same order, each with
the same `xmin` and `data`; a version's `xmax` is unchanged, or it was `INVALID_XID` and
the call is a successful delete or update of this row by the transaction whose id is
written (an id that is not `INVALID_XID` when the call passes a begun transaction).
After any sequence of calls the versions of `c0` are still there in the same order below
the versions created since, with the same `xmin` and `data`, and with the same `xmax` if
it was set. (`select_all` returns only the printed lines and changes nothing.) -/
theorem versions_immutable (s : State) (op : Op) (ops : List Op) (r : Nat)
    (c0 : List Tuple) (hrow : s.tbl.tuples[r]? = some c0) :
    (∃ pre c1 : List Tuple, (apply_op s op).tbl.tuples[r]? = some (pre ++ c1) ∧
      pre.length ≤ 1 ∧ c1.length = c0.length ∧
      ∀ (n : Nat) (v : Tuple), c0[n]? = some v → ∃ v' : Tuple, c1[n]? = some v' ∧
        v'.xmin = v.xmin ∧ v'.data = v.data ∧
        (v'.xmax = v.xmax ∨
          (v.xmax = INVALID_XID ∧ marks s op r v'.xmax ∧
            (op_ok s op → v'.xmax ≠ INVALID_XID)))) ∧
    (∃ pre c1 : List Tuple, (run_ops s ops).tbl.tuples[r]? = some (pre ++ c1) ∧
      c1.length = c0.length ∧
      ∀ (n : Nat) (v : Tuple), c0[n]? = some v → ∃ v' : Tuple, c1[n]? = some v' ∧
        v'.xmin = v.xmin ∧ v'.data = v.data ∧
        (v.xmax ≠ INVALID_XID → v'.xmax = v.xmax)) := by
  constructor
  · obtain ⟨pre, c1, h1, h2, h3, _⟩ := row_step_detail s op r c0 hrow
    have hlen : pre.length ≤ 1 := by
      have hrlt : r < s.tbl.tuples.length := by
        by_contra hc
        rw [List.getElem?_eq_none (by omega)] at hrow
        simp at hrow
      have hl : (pre ++ c1).length ≤ c0.length + 1 := by
        cases op with
        | begin =>
          have : (apply_op s Op.begin).tbl = s.tbl := by
            unfold apply_op
            cases hb : begin_transaction s.mgr <;> rfl
          rw [this, hrow] at h1
          have := congrArg List.length (Option.some.inj h1)
          omega
        | commit tx =>
          have h1' : s.tbl.tuples[r]? = some (pre ++ c1) := h1
          rw [hrow] at h1'
          have := congrArg List.length (Option.some.inj h1')
          omega
        | abort tx =>
          have h1' : s.tbl.tuples[r]? = some (pre ++ c1) := h1
          rw [hrow] at h1'
          have := congrArg List.length (Option.some.inj h1')
          omega
        | insert tx d ok =>
          have h1' : (insert_tuple s.tbl (tx_at s.mgr tx) d ok).2.tuples[r]? =
              some (pre ++ c1) := h1
          rcases insert_cases s.tbl (tx_at s.mgr tx) d ok with ⟨e, _⟩ | ⟨e, _⟩
          · rw [e, hrow] at h1'
            have := congrArg List.length (Option.some.inj h1')
            omega
          · rw [e] at h1'
            have h1'' : (s.tbl.tuples ++ [[⟨(tx_at s.mgr tx).xid, INVALID_XID, d⟩]])[r]? =
                some (pre ++ c1) := h1'
            rw [List.getElem?_append_left hrlt, hrow] at h1''
            have := congrArg List.length (Option.some.inj h1'')
            omega
        | delete tx idx =>
          have h1' : (delete_tuple s.mgr s.tbl (tx_at s.mgr tx) idx).2.tuples[r]? =
              some (pre ++ c1) := h1
          rcases delete_cases s.mgr s.tbl (tx_at s.mgr tx) idx with
            e | ⟨r', chain, k, v0, _, e2, _, _, _, e6⟩
          · rw [e, hrow] at h1'
            have := congrArg List.length (Option.some.inj h1')
            omega
          · rw [e6] at h1'
            have h1'' : (s.tbl.tuples.set r'
                (chain.set k { v0 with xmax := (tx_at s.mgr tx).xid }))[r]? =
                some (pre ++ c1) := h1'
            by_cases hrr : r' = r
            · subst hrr
              rw [List.getElem?_set_self hrlt] at h1''
              rw [hrow] at e2
              have hcc : c0 = chain := Option.some.inj e2
              have := congrArg List.length (Option.some.inj h1'')
              simp only [List.length_set] at this
              rw [hcc]; omega
            · rw [List.getElem?_set_ne hrr, hrow] at h1''
              have := congrArg List.length (Option.some.inj h1'')
              omega
        | update tx idx d ok =>
          have h1' : (update_tuple s.mgr s.tbl (tx_at s.mgr tx) idx d ok).2.tuples[r]? =
              some (pre ++ c1) := h1
          rcases update_cases s.mgr s.tbl (tx_at s.mgr tx) idx d ok with
            e | ⟨r', chain, k, v0, _, e2, _, _, _, _, e6⟩
          · rw [e, hrow] at h1'
            have := congrArg List.length (Option.some.inj h1')
            omega
          · rw [e6] at h1'
            have h1'' : (s.tbl.tuples.set r'
                (⟨(tx_at s.mgr tx).xid, INVALID_XID, d⟩ ::
                  chain.set k { v0 with xmax := (tx_at s.mgr tx).xid }))[r]? =
                some (pre ++ c1) := h1'
            by_cases hrr : r' = r
            · subst hrr
              rw [List.getElem?_set_self hrlt] at h1''
              rw [hrow] at e2
              have hcc : c0 = chain := Option.some.inj e2
              have := congrArg List.length (Option.some.inj h1'')
              simp only [List.length_cons, List.length_set] at this
              rw [hcc]; omega
            · rw [List.getElem?_set_ne hrr, hrow] at h1''
              have := congrArg List.length (Option.some.inj h1'')
              omega
      rw [List.length_append] at hl
      omega
    refine ⟨pre, c1, h1, hlen, h2, ?_⟩
    intro n v hv
    obtain ⟨v', hv', a1, a2, a3⟩ := h3 n v hv
    refine ⟨v', hv', a1, a2, ?_⟩
    rcases a3 with a3 | ⟨a3, a4⟩
    · exact Or.inl a3
    · exact Or.inr ⟨a3, a4, fun hok => marks_valid s op r _ hok a4⟩
  · obtain ⟨c', hc', pre, c1, e1, e2, e3⟩ := row_run ops s r c0 hrow
    exact ⟨pre, c1, by rw [hc', e1], e2, e3⟩

theorem versions_immutable_witness :
    ∃ pre c1 : List Tuple,
      (run_ops (run_ops init_state [.begin, .insert 0 100 true, .commit 0])
        [.begin, .update 1 0 200 true, .commit 1, .begin, .delete 2 0]).tbl.tuples[0]? =
        some (pre ++ c1) ∧
      c1.length = ([⟨1, 0, 100⟩] : List Tuple).length ∧
      ∀ (n : Nat) (v : Tuple), ([⟨1, 0, 100⟩] : List Tuple)[n]? = some v →
        ∃ v' : Tuple, c1[n]? = some v' ∧ v'.xmin = v.xmin ∧ v'.data = v.data ∧
          (v.xmax ≠ INVALID_XID → v'.xmax = v.xmax) :=
  (versions_immutable (run_ops init_state [.begin, .insert 0 100 true, .commit 0])
    Op.begin [.begin, .update 1 0 200 true, .commit 1, .begin, .delete 2 0] 0
    [⟨1, 0, 100⟩] (by decide)).2

/-- Claim C25, refuted as stated. After commit T1 with row 100; begin T2;
update(T2, row 0, 200), the chain is the new version `(2, INVALID_XID, 200)` above the
version `(1, 2, 100)` it was made from: `xmin` of the older version is 1 and `xmax` of
the newer one is `INVALID_XID`; it is `xmax` of the older that equals `xmin` of the
newer. -/
theorem created_by_is_not_newer_deleted_by :
    (run_ops init_state [.begin, .insert 0 100 true, .commit 0, .begin]).tbl =
      ⟨[[⟨1, 0, 100⟩]]⟩ ∧
    (run_ops init_state
      [.begin, .insert 0 100 true, .commit 0, .begin, .update 1 0 200 true]).tbl =
      ⟨[[⟨2, 0, 200⟩, ⟨1, 2, 100⟩]]⟩ ∧
    (⟨1, 2, 100⟩ : Tuple).xmin ≠ (⟨2, 0, 200⟩ : Tuple).xmax ∧
    (⟨1, 2, 100⟩ : Tuple).xmax = (⟨2, 0, 200⟩ : Tuple).xmin ∧
    ops_ok init_state
      [.begin, .insert 0 100 true, .commit 0, .begin, .update 1 0 200 true] := by
  decide

/-- Claim C25, amended. In every chain of a state reached from the initial state, for
every version with an immediately newer version, `xmax` of the older one equals `xmin`
of the newer one; and in every state reached later the versions the chain had are still
there in the same order, below all versions created since, so the head is the most
recently created version of the row. -/
theorem chain_links_and_head (s s' : State) (r : Nat) (c0 : List Tuple)
    (h0 : Reach init_state s) (h1 : Reach s s') (hrow : s.tbl.tuples[r]? = some c0) :
    (∀ (k : Nat) (newer older : Tuple), c0[k]? = some newer → c0[k + 1]? = some older →
      older.xmax = newer.xmin) ∧
    (∃ pre c1 : List Tuple, s'.tbl.tuples[r]? = some (pre ++ c1) ∧
      c1.length = c0.length ∧
      ∀ (n : Nat) (v : Tuple), c0[n]? = some v → ∃ v' : Tuple, c1[n]? = some v' ∧
        v'.xmin = v.xmin ∧ v'.data = v.data) := by
  have hs := (inv_reach init_state s inv_init h0).1
  have hc := hs.2 c0 (List.mem_iff_getElem?.2 ⟨r, hrow⟩)
  refine ⟨chain_adjacent _ c0 hc.2.2, ?_⟩
  obtain ⟨ops, _, hrun⟩ := h1
  obtain ⟨c', hc', pre, c1, e1, e2, e3⟩ := row_run ops s r c0 hrow
  refine ⟨pre, c1, by rw [← hrun, hc', e1], e2, ?_⟩
  intro n v hv
  obtain ⟨v', hv', a1, a2, _⟩ := e3 n v hv
  exact ⟨v', hv', a1, a2⟩

theorem chain_links_and_head_witness :
    (⟨1, 2, 100⟩ : Tuple).xmax = (⟨2, 0, 200⟩ : Tuple).xmin :=
  (chain_links_and_head
    (run_ops init_state [.begin, .insert 0 100 true, .commit 0, .begin,
      .update 1 0 200 true])
    (run_ops init_state [.begin, .insert 0 100 true, .commit 0, .begin,
      .update 1 0 200 true, .commit 1]) 0 [⟨2, 0, 200⟩, ⟨1, 2, 100⟩]
    ⟨[.begin, .insert 0 100 true, .commit 0, .begin, .update 1 0 200 true],
      by decide, rfl⟩
    ⟨[.commit 1], by decide, rfl⟩ (by decide)).1 0 ⟨2, 0, 200⟩ ⟨1, 2, 100⟩ rfl rfl

/-- Claim C27. In every state reached from the initial state the active count equals the
number of tracked transactions whose status is in progress; hence it is at least 0 and
at most `MAX_TRANSACTIONS` (100), whatever commits and aborts were repeated. -/
theorem active_count_counts (s : State) (h0 : Reach init_state s) :
    s.mgr.active_count = (in_progress_count s.mgr : Int) ∧
    0 ≤ s.mgr.active_count ∧ s.mgr.active_count ≤ (MAX_TRANSACTIONS : Int) ∧
    MAX_TRANSACTIONS = 100 := by
  obtain ⟨ops, hok, hrun⟩ := h0
  have hs := (inv_run ops init_state inv_init hok).1
  have ha := active_run ops init_state inv_init hok active_init
  rw [hrun] at hs ha
  have hle := in_progress_count_le s.mgr
  rw [hs.1.len] at hle
  refine ⟨ha, by rw [ha]; exact Int.natCast_nonneg _, by rw [ha]; exact_mod_cast hle, rfl⟩

theorem active_count_counts_witness :
    (run_ops init_state
      [.begin, .begin, .commit 0, .commit 0, .abort 0, .begin, .abort 2, .abort 2]).mgr.active_count
      = 1 :=
  ((active_count_counts
    (run_ops init_state
      [.begin, .begin, .commit 0, .commit 0, .abort 0, .begin, .abort 2, .abort 2])
    ⟨[.begin, .begin, .commit 0, .commit 0, .abort 0, .begin, .abort 2, .abort 2],
      by decide, rfl⟩).1).trans (by decide)

/-- Claim C28. In every state reached from the initial state every chain is non-empty;
every version below the head has `xmax` equal to `xmin` of the version just above it,
so its `xmax` is not `INVALID_XID`; `xmin` never increases from head to tail; only the
head can have `xmax = INVALID_XID`; and a successful `delete_tuple` or `update_tuple` by
a begun transaction resolves, and so marks, the head of the chain. -/
theorem chain_well_formed (s : State) (r : Nat) (chain : List Tuple)
    (h0 : Reach init_state s) (hrow : s.tbl.tuples[r]? = some chain) :
    chain ≠ [] ∧
    (∀ (k : Nat) (newer older : Tuple), chain[k]? = some newer →
      chain[k + 1]? = some older → older.xmax = newer.xmin ∧ older.xmax ≠ INVALID_XID) ∧
    (∀ (k : Nat) (newer older : Tuple), chain[k]? = some newer →
      chain[k + 1]? = some older → older.xmin ≤ newer.xmin) ∧
    (∀ (k : Nat) (v : Tuple), chain[k]? = some v → v.xmax = INVALID_XID → k = 0) ∧
    (∀ (i : Nat) (idx : Int), is_handle s.mgr i → idx.toNat = r →
      (delete_tuple s.mgr s.tbl (tx_at s.mgr i) idx).1 = true →
      get_visible_version s.mgr (tx_at s.mgr i) chain = some 0 ∧
      ∃ head rest, chain = head :: rest ∧ head.xmax = INVALID_XID ∧
        (delete_tuple s.mgr s.tbl (tx_at s.mgr i) idx).2.tuples[r]? =
          some ({ head with xmax := (tx_at s.mgr i).xid } :: rest)) ∧
    (∀ (i : Nat) (idx d : Int) (ok : Bool), is_handle s.mgr i → idx.toNat = r →
      (update_tuple s.mgr s.tbl (tx_at s.mgr i) idx d ok).1 = true →
      get_visible_version s.mgr (tx_at s.mgr i) chain = some 0 ∧
      ∃ head rest, chain = head :: rest ∧ head.xmax = INVALID_XID ∧
        (update_tuple s.mgr s.tbl (tx_at s.mgr i) idx d ok).2.tuples[r]? =
          some (⟨(tx_at s.mgr i).xid, INVALID_XID, d⟩ ::
            { head with xmax := (tx_at s.mgr i).xid } :: rest)) := by
  have hs := (inv_reach init_state s inv_init h0).1
  have hc := hs.2 chain (List.mem_iff_getElem?.2 ⟨r, hrow⟩)
  have hrlt : r < s.tbl.tuples.length := by
    by_contra hcon
    rw [List.getElem?_eq_none (by omega)] at hrow
    simp at hrow
  refine ⟨hc.1, ?_, chain_adjacent _ chain (chain_xmin_mono s.mgr chain hc.2.1 hc.2.2),
    fun k v hv hx => unmarked_is_head s.mgr chain hc k v hv hx, ?_, ?_⟩
  · intro k newer older hn ho
    exact ⟨chain_adjacent _ chain hc.2.2 k newer older hn ho,
      chain_nonhead_marked chain hc.2.2 (fun w hw => (hc.2.1 w hw).1) k older ho⟩
  · intro i idx hi hidx hdel
    rcases delete_cases s.mgr s.tbl (tx_at s.mgr i) idx with
      e | ⟨r', chain', k, v, hr', e2, e3, e4, e5, e6⟩
    · rw [e] at hdel; simp at hdel
    · have hrr : r' = r := by omega
      subst hrr
      rw [hrow] at e2
      have hcc : chain = chain' := Option.some.inj e2
      subst hcc
      obtain ⟨rest, hk, hch, _, _⟩ := mark_chain s.mgr hs.1 i hi chain hc k v e3 e4 e5
      subst hk
      refine ⟨e3, v, rest, hch, e5, ?_⟩
      rw [e6]
      show (s.tbl.tuples.set r' _)[r']? = _
      rw [List.getElem?_set_self hrlt, hch]
      rfl
  · intro i idx d ok hi hidx hupd
    rcases update_cases s.mgr s.tbl (tx_at s.mgr i) idx d ok with
      e | ⟨r', chain', k, v, hr', e2, e3, e4, e5, _, e6⟩
    · rw [e] at hupd; simp at hupd
    · have hrr : r' = r := by omega
      subst hrr
      rw [hrow] at e2
      have hcc : chain = chain' := Option.some.inj e2
      subst hcc
      obtain ⟨rest, hk, hch, _, _⟩ := mark_chain s.mgr hs.1 i hi chain hc k v e3 e4 e5
      subst hk
      refine ⟨e3, v, rest, hch, e5, ?_⟩
      rw [e6]
      show (s.tbl.tuples.set r' _)[r']? = _
      rw [List.getElem?_set_self hrlt, hch]
      rfl

theorem chain_well_formed_witness :
    (⟨1, 2, 100⟩ : Tuple).xmin ≤ (⟨2, 0, 200⟩ : Tuple).xmin :=
  (chain_well_formed
    (run_ops init_state [.begin, .insert 0 100 true, .commit 0, .begin,
      .update 1 0 200 true]) 0 [⟨2, 0, 200⟩, ⟨1, 2, 100⟩]
    ⟨[.begin, .insert 0 100 true, .commit 0, .begin, .update 1 0 200 true],
      by decide, rfl⟩ (by decide)).2.2.1 0 ⟨2, 0, 200⟩ ⟨1, 2, 100⟩ rfl rfl

/-- Claim C26. In a state reached from the initial state let T (slot `i`) and T'
(slot `j`) be tracked with the id of T' below the id of T. No version created by T is
visible to T'; and for every call made with T (insert, delete, update, commit or abort,
successful or not) the version T' resolves for each row has the same creator and payload
after the call as before (rows added by the call resolve to nothing), so `select_all`
for T' prints the same lines before and after. -/
theorem later_writes_hidden_from_earlier (s : State) (i j : Nat) (op : Op)
    (h0 : Reach init_state s) (hi : is_handle s.mgr i) (hj : is_handle s.mgr j)
    (hlt : (tx_at s.mgr j).xid < (tx_at s.mgr i).xid) (hop : op_tx op = some i) :
    (∀ v : Tuple, v.xmin = (tx_at s.mgr i).xid →
      is_tuple_visible s.mgr (tx_at s.mgr j) v = false) ∧
    (∀ r : Nat,
      (resolve_version (apply_op s op).mgr (tx_at (apply_op s op).mgr j)
        ((apply_op s op).tbl.tuples.getD r [])).map (fun v => (v.xmin, v.data)) =
      (resolve_version s.mgr (tx_at s.mgr j) (s.tbl.tuples.getD r [])).map
        (fun v => (v.xmin, v.data))) ∧
    select_all (apply_op s op).mgr (apply_op s op).tbl (tx_at (apply_op s op).mgr j) =
      select_all s.mgr s.tbl (tx_at s.mgr j) := by
  have hs := (inv_reach init_state s inv_init h0).1
  obtain ⟨_, hjx, hjmax, _, _⟩ := handle_tracked s.mgr hs.1 j hj
  have hmax : (tx_at s.mgr j).snapshot_xmax = (tx_at s.mgr j).xid := by rw [hjmax, hjx]
  have hj0 : (tx_at s.mgr j).xid ≠ INVALID_XID := hj.2
  -- versions created by T
  have hnew : ∀ v : Tuple, v.xmin = (tx_at s.mgr i).xid →
      is_tuple_visible s.mgr (tx_at s.mgr j) v = false := fun v hv =>
    visible_new_false s.mgr _ v hmax (by rw [hv]; exact hlt)
  -- the registry after the call shows T' the same versions
  have hview : ∀ v : Tuple,
      is_tuple_visible (apply_op s op).mgr (tx_at (apply_op s op).mgr j) v =
        is_tuple_visible s.mgr (tx_at s.mgr j) v := by
    intro v
    cases op with
    | begin => simp [op_tx] at hop
    | commit tx =>
      have htx : tx = i := by simpa [op_tx] using hop
      subst htx
      exact visible_after_other_finish TX_COMMITTED s.mgr tx j (by omega) v
    | abort tx =>
      have htx : tx = i := by simpa [op_tx] using hop
      subst htx
      exact visible_after_other_finish TX_ABORTED s.mgr tx j (by omega) v
    | insert tx d ok => rfl
    | delete tx idx => rfl
    | update tx idx d ok => rfl
  have hrows : ∀ r : Nat,
      (resolve_version (apply_op s op).mgr (tx_at (apply_op s op).mgr j)
        ((apply_op s op).tbl.tuples.getD r [])).map (fun v => (v.xmin, v.data)) =
      (resolve_version s.mgr (tx_at s.mgr j) (s.tbl.tuples.getD r [])).map
        (fun v => (v.xmin, v.data)) := by
    intro r
    by_cases hr : r < s.tbl.tuples.length
    · have hrow : s.tbl.tuples[r]? = some (s.tbl.tuples.getD r []) := by
        rw [List.getD_eq_getElem?_getD, List.getElem?_eq_getElem hr]; rfl
      obtain ⟨pre, c1, e1, e2, e3, e4⟩ :=
        row_step_detail s op r (s.tbl.tuples.getD r []) hrow
      have hget : (apply_op s op).tbl.tuples.getD r [] = pre ++ c1 := by
        rw [List.getD_eq_getElem?_getD, e1]; rfl
      rw [hget, resolve_append_invisible]
      · apply resolve_congr s.mgr _ _ _ _ c1 e2
        intro n v v' hn hn'
        obtain ⟨w, hw, a1, a2, a3⟩ := e3 n v hn
        rw [hn'] at hw
        have hwv : v' = w := Option.some.inj hw
        subst hwv
        refine ⟨a1, a2, ?_⟩
        rw [hview]
        rcases a3 with a3 | ⟨a3, a4⟩
        · exact visible_fields s.mgr _ v v' a1 a3
        · have hx := marks_tx s op r _ i hop a4
          exact visible_mark_same s.mgr _ v v' _ hmax hj0 hlt a1 a3 hx
      · intro w hw
        obtain ⟨tx, htx, hwx⟩ := e4 w hw
        rw [hop] at htx
        have : i = tx := Option.some.inj htx
        subst this
        rw [hview]
        exact hnew w hwx
    · have hold : s.tbl.tuples.getD r [] = [] := by
        rw [List.getD_eq_getElem?_getD, List.getElem?_eq_none (by omega)]; rfl
      rw [hold]
      cases hnr : (apply_op s op).tbl.tuples[r]? with
      | none =>
        have : (apply_op s op).tbl.tuples.getD r [] = [] := by
          rw [List.getD_eq_getElem?_getD, hnr]; rfl
        rw [this]
        rfl
      | some ch =>
        have hget : (apply_op s op).tbl.tuples.getD r [] = ch := by
          rw [List.getD_eq_getElem?_getD, hnr]; rfl
        obtain ⟨tx, d, htx, hch⟩ := new_rows s op r ch (by omega) hnr
        rw [hop] at htx
        have : i = tx := Option.some.inj htx
        subst this
        rw [hget, hch, resolve_cons, hview, hnew _ rfl]
        rfl
  refine ⟨hnew, hrows, ?_⟩
  unfold select_all
  apply select_from_congr
  intro r
  have := congrArg (Option.map Prod.snd) (hrows r)
  simpa [Option.map_map, Function.comp_def] using this

theorem later_writes_hidden_from_earlier_witness :
    select_all
      (run_ops init_state [.begin, .insert 0 100 true, .commit 0, .begin, .begin,
        .update 2 0 200 true]).mgr
      (run_ops init_state [.begin, .insert 0 100 true, .commit 0, .begin, .begin,
        .update 2 0 200 true]).tbl
      (tx_at (run_ops init_state [.begin, .insert 0 100 true, .commit 0, .begin, .begin,
        .update 2 0 200 true]).mgr 1) = [(0, 100)] ∧
    (run_ops init_state [.begin, .insert 0 100 true, .commit 0, .begin, .begin,
      .update 2 0 200 true]).tbl = ⟨[[⟨3, 0, 200⟩, ⟨1, 3, 100⟩]]⟩ :=
  ⟨((later_writes_hidden_from_earlier
    (run_ops init_state [.begin, .insert 0 100 true, .commit 0, .begin, .begin]) 2 1
    (Op.update 2 0 200 true)
    ⟨[.begin, .insert 0 100 true, .commit 0, .begin, .begin], by decide, rfl⟩
    (by decide) (by decide) (by decide) rfl).2.2).trans (by decide), by decide⟩

end MVCC
